import Mathlib

/-!
# AutogradCpp: a shallow embedding of the tensor, operation, graph and engine code

The development follows the four headers of the repository:

* `Tensor.hpp`   : `Tensor<T>` (shape-tagged flat array, indexing, slicing, addition),
* `Function.hpp` : the operations `Mult` and `Dot` (forward and backward),
* `Graph.hpp`    : `Graph<T>` with its tensor nodes, function nodes and the backward walk,
* `Autograd.hpp` : the facade `Autograd<T>` (`MakeTensor`, `mult`, `dot`, `backward`, `gradient`).

Modelling conventions.

* The element type `T` is `float`, the only instantiation in the repository; it is modelled
  by `F32` (IEEE 754 binary32, round to nearest, ties to even).
* `unsigned int` values are naturals reduced modulo `2^32`, `size_t` values are naturals
  reduced modulo `2^64`; the reductions are written where the source computes.
* A `std::vector` is a `List`.  Reading or writing a `value_` element past the end of the
  vector is undefined behaviour in the source; the model stops there with `Error.outOfRange`.
* A C++ exception is a value of `Error`; a failing `assert` is `Error.assertion`
  (assertions are enabled, as in the repository's own test programs).
* A `Tensor<T>*` handed out by the engine is the position of its node in `tensorNodes_`
  (the source keys `tensorToNode_` by pointer identity); a `FunctionNode*` is the position
  of the node in `functionNodes_`.
* Stateful engine calls return the result together with the graph they leave behind, so
  that a call that throws still shows the graph it left.
-/

namespace autograd

/-- Modulus of `unsigned int`. -/
abbrev UINT_MOD : Nat := 2 ^ 32

/-- Modulus of `size_t`. -/
abbrev SIZE_MOD : Nat := 2 ^ 64

/-- The ways a call can stop without a result. -/
inductive Error where
  /-- Thrown by `Tensor(shape, value)`: "Number of elements vector must be equal to the accum of shape!" -/
  | numberOfElements
  /-- Thrown by `calcInternalIndex`: "Index is invalid!" -/
  | indexInvalid
  /-- Thrown by `item()`: "item() member function is available only for scalars!" -/
  | itemNotScalar
  /-- Thrown by `operator+=`: `std::invalid_argument("Shapes of tensors are not equal!")` -/
  | shapesNotEqual
  /-- Thrown by `Autograd::mult`: "Shapes of tensors must be equal!" -/
  | multShapes
  /-- Thrown by `Autograd::dot`: "nDims of a left tensor must be greater or equal to nDims of a right tensor!" -/
  | dotNDims
  /-- Thrown by `Autograd::dot`: "Shapes of tensors must be equal! a->shape()[i]: ..." -/
  | dotShapes
  /-- A failing `assert`. -/
  | assertion
  /-- Undefined behaviour: an element of a `value_` vector past its end is accessed. -/
  | outOfRange
  /-- Undefined behaviour: a tensor or function that the graph does not hold is looked up. -/
  | notRegistered
  /-- Undefined behaviour: a gradient pointer that was never assigned is dereferenced. -/
  | uninitialised
  /-- Model only: the recursion budget of the backward walk is used up. -/
  | fuel
  deriving DecidableEq, Repr

/-- Outcomes of calls can be compared. -/
instance instDecidableEqExcept {ε α : Type} [DecidableEq ε] [DecidableEq α] :
    DecidableEq (Except ε α)
  | .ok a, .ok b => if h : a = b then isTrue (by rw [h]) else isFalse (fun e => h (by cases e; rfl))
  | .error a, .error b =>
    if h : a = b then isTrue (by rw [h]) else isFalse (fun e => h (by cases e; rfl))
  | .ok _, .error _ => isFalse (fun e => by cases e)
  | .error _, .ok _ => isFalse (fun e => by cases e)

/-! ## The element type

The repository instantiates `Tensor<T>`, `Graph<T>` and `Autograd<T>` with `T = float` only.
`F32` models `float` as IEEE 754 binary32 with the default rounding (to nearest, ties to
even): every product and every sum is rounded once, straight after it is formed.  The
payloads of NaNs are not told apart. -/

/-- The number of binary digits of `n`, by halving at most `fuel` times; `bitLength n n` is
the position of the leading one of `n`, counted from 1 (0 for `n = 0`). -/
def bitLength : Nat → Nat → Nat
  | 0, _ => 0
  | fuel + 1, n => if n = 0 then 0 else bitLength fuel (n / 2) + 1

/-- The values of the C++ type `float` (IEEE 754 binary32): sign, biased exponent `0..254`
and 23 fraction bits for the finite values, the two infinities, and one NaN. -/
inductive F32 where
  | finite (sign : Bool) (exponent : Fin 255) (fraction : Fin 8388608)
  | infinity (sign : Bool)
  | nan
  deriving DecidableEq, Repr

/-- The significand as a natural number: the fraction bits, with the hidden leading one
for a normal number (biased exponent at least 1). -/
def F32.significand (exponent : Fin 255) (fraction : Fin 8388608) : Nat :=
  if exponent.val = 0 then fraction.val else 8388608 + fraction.val

/-- The magnitude of a finite value in units of `2^-149`, the smallest positive `float`:
`significand * 2^(max exponent 1 - 1)`. -/
def F32.magnitude (exponent : Fin 255) (fraction : Fin 8388608) : Nat :=
  F32.significand exponent fraction * 2 ^ (exponent.val - 1)

/-- Round-to-nearest, ties-to-even: the `float` nearest to `n * 2^-(149 + extra)` with the
given sign.  The last kept bit is at position `s`: 24 significant bits for a normal result,
the fixed position `extra` (units of `2^-149`) for a subnormal one.  The rounded
significand `m` is at most `2^24`, where it is renormalised to `2^23` one position up; the
result is an infinity exactly when the biased exponent would reach 255. -/
def F32.round (sign : Bool) (n extra : Nat) : F32 :=
  if n = 0 then .finite sign 0 0
  else
    let s := max (bitLength n n - 24) extra
    let q := n / 2 ^ s
    let r := n % 2 ^ s
    let m := if 2 * r < 2 ^ s then q else if 2 ^ s < 2 * r then q + 1 else q + q % 2
    let s1 := if m = 16777216 then s + 1 else s
    let m1 := if m = 16777216 then 8388608 else m
    if h : m1 < 8388608 then .finite sign 0 ⟨m1, h⟩
    else if h : s1 - extra + 1 < 255 ∧ m1 - 8388608 < 8388608 then
      .finite sign ⟨s1 - extra + 1, h.1⟩ ⟨m1 - 8388608, h.2⟩
    else .infinity sign

/-- The conversion of an integer literal to `float`. -/
def F32.ofNat (n : Nat) : F32 := F32.round false (n * 2 ^ 149) 0

instance (n : Nat) : OfNat F32 n := ⟨F32.ofNat n⟩

/-- The `float` nearest to the fraction `p / q` (for `q > 0`): the quotient is cut two binary
places below the smallest `float` and a last bit records whether anything was cut off. -/
def F32.ofRatio (p q : Nat) : F32 :=
  F32.round false (2 * (p * 2 ^ 151 / q) + (if p * 2 ^ 151 % q = 0 then 0 else 1)) 3

/-- The conversion of a decimal literal such as `5.2f` to `float`. -/
instance : OfScientific F32 :=
  ⟨fun mantissa exponentSign decimalExponent =>
    if exponentSign then F32.ofRatio mantissa (10 ^ decimalExponent)
    else F32.ofNat (mantissa * 10 ^ decimalExponent)⟩

/-- The operator `*` of `float`. -/
def F32.mul : F32 → F32 → F32
  | .nan, _ => .nan
  | _, .nan => .nan
  | .infinity s, .infinity t => .infinity (xor s t)
  | .infinity s, .finite t e f => if F32.magnitude e f = 0 then .nan else .infinity (xor s t)
  | .finite s e f, .infinity t => if F32.magnitude e f = 0 then .nan else .infinity (xor s t)
  | .finite s e f, .finite t e2 f2 =>
    F32.round (xor s t) (F32.magnitude e f * F32.magnitude e2 f2) 149

/-- The operator `+` of `float`. -/
def F32.add : F32 → F32 → F32
  | .nan, _ => .nan
  | _, .nan => .nan
  | .infinity s, .infinity t => if s = t then .infinity s else .nan
  | .infinity s, .finite _ _ _ => .infinity s
  | .finite _ _ _, .infinity t => .infinity t
  | .finite s e f, .finite t e2 f2 =>
    let a : Int := if s then -(F32.magnitude e f : Int) else F32.magnitude e f
    let b : Int := if t then -(F32.magnitude e2 f2 : Int) else F32.magnitude e2 f2
    if a + b = 0 then .finite (s && t) 0 0
    else F32.round (decide (a + b < 0)) (a + b).natAbs 0

instance : Mul F32 := ⟨F32.mul⟩
instance : Add F32 := ⟨F32.add⟩

/-- The exact value of a finite `float` as a rational number; the infinities and NaN have
none. -/
def F32.toRat : F32 → Option ℚ
  | .finite s e f => some ((if s then -1 else 1) * (F32.magnitude e f : ℚ) / 2 ^ 149)
  | _ => none

/-! ## Tensor.hpp -/

/-- The four data members of `Tensor<T>`. -/
structure Tensor where
  nDims : Nat
  shape : List Nat
  totalNumOfElements : Nat
  value : List F32
  deriving DecidableEq, Repr

/-- The call `std::accumulate(shape.begin(), shape.end(), 1, std::multiplies<unsigned int>())`:
every product is formed in `unsigned int`. -/
def accumulate (shape : List Nat) : Nat :=
  shape.foldl (fun acc d => (acc * d) % UINT_MOD) 1

/-- The constructor `Tensor(T value)`. -/
def Tensor.ofValue (value : F32) : Tensor :=
  { nDims := 0, shape := [], totalNumOfElements := 1, value := [value] }

/-- The constructor `Tensor(const Index &shape, const std::vector<T> &value)`. -/
def Tensor.construct (shape : List Nat) (value : List F32) : Except Error Tensor :=
  let totalNumOfElements := accumulate shape
  if value.length ≠ totalNumOfElements then
    .error .numberOfElements
  else
    .ok { nDims := shape.length % UINT_MOD, shape := shape,
          totalNumOfElements := totalNumOfElements, value := value }

/-- The member `checkIndexValidity`. -/
def Tensor.checkIndexValidity (t : Tensor) (index : List Nat) : Bool :=
  if index.length ≠ t.nDims then false
  else (List.range t.nDims).all (fun i => !(decide (index.getD i 0 ≥ t.shape.getD i 0)))

/-- The loop shared by `calcInternalIndex` and `at`: for `i` from `0` to `n - 1`,
`res += accum * index[n - i - 1]; accum *= shape_[n - i - 1];` in `size_t`.
The state is the pair `(res, accum)`. -/
def indexLoop (n : Nat) (index shape_ : List Nat) (accum0 : Nat) : Nat × Nat :=
  (List.range n).foldl
    (fun s i => ((s.1 + s.2 * index.getD (n - i - 1) 0) % SIZE_MOD,
                 (s.2 * shape_.getD (n - i - 1) 0) % SIZE_MOD))
    (0, accum0)

/-- The member `calcInternalIndex`. -/
def Tensor.calcInternalIndex (t : Tensor) (index : List Nat) : Except Error Nat :=
  if !t.checkIndexValidity index then .error .indexInvalid
  else .ok (indexLoop t.nDims index t.shape 1).1

/-- The member `at`. -/
def Tensor.at (t : Tensor) (index : List Nat) : Except Error Tensor :=
  let indexSize := index.length
  if !(decide (0 < indexSize) && decide (indexSize ≤ t.nDims)) then .error .assertion
  else
    let nDims := (t.nDims - indexSize) % UINT_MOD
    let shape := t.shape.drop indexSize
    if shape.length ≠ nDims then .error .assertion
    else
      let totalNumOfElements := accumulate shape
      let internalIndex := (indexLoop indexSize index t.shape totalNumOfElements).1
      if t.value.length < internalIndex + totalNumOfElements then .error .outOfRange
      else Tensor.construct shape ((t.value.drop internalIndex).take totalNumOfElements)

/-- The member `item`. -/
def Tensor.item (t : Tensor) : Except Error F32 :=
  if 0 < t.nDims then .error .itemNotScalar
  else match t.value[0]? with
    | some v => .ok v
    | none => .error .outOfRange

/-- The member `operator()`, read. -/
def Tensor.operatorCall (t : Tensor) (index : List Nat) : Except Error F32 :=
  match t.calcInternalIndex index with
  | .error e => .error e
  | .ok i =>
    match t.value[i]? with
    | some v => .ok v
    | none => .error .outOfRange

/-- The static member `checkShapes`. -/
def Tensor.checkShapes (first second : Tensor) : Bool :=
  if first.nDims ≠ second.nDims then false
  else (List.range first.nDims).all
    (fun i => !(decide (first.shape.getD i 0 ≠ second.shape.getD i 0)))

/-- The loop of `operator+=`: `value_[i] += other.value_[i]` for `i` from `0` to
`totalNumOfElements_ - 1`.  The state is the outcome so far with the values of the
receiver; once a read has left a vector the rest is not run. -/
def addLoop (n : Nat) (value other : List F32) : Except Error Unit × List F32 :=
  (List.range n).foldl
    (fun st i =>
      match st with
      | (.error e, v) => (.error e, v)
      | (.ok _, v) =>
        match v[i]?, other[i]? with
        | some a, some b => (.ok (), v.set i (a + b))
        | _, _ => (.error .outOfRange, v))
    (.ok (), value)

/-- The member `operator+=`: the outcome together with the receiver as the call leaves it.
(When `other` is the receiver itself, position `i` of `other` is read before position `i`
of the receiver is written, so the same values are read.) -/
def Tensor.addAssign (t other : Tensor) : Except Error Unit × Tensor :=
  if !Tensor.checkShapes t other then (.error .shapesNotEqual, t)
  else
    let r := addLoop t.totalNumOfElements t.value other.value
    (r.1, { t with value := r.2 })

/-- The member `operator+`: `result` is a copy of the receiver, `result += other`. -/
def Tensor.add (t other : Tensor) : Except Error Tensor :=
  match Tensor.addAssign t other with
  | (.error e, _) => .error e
  | (.ok _, result) => .ok result


/-! ## Function.hpp -/

/-- The loop `for (size_t i = 0; i < value.size(); ++i) value[i] = f(value[i], other[i]);`
over the vector `value` of a fresh copy, reading the vector `other` of the captured operand. -/
def elementLoop (f : F32 → F32 → F32) (value other : List F32) : Except Error (List F32) :=
  (List.range value.length).foldlM
    (fun v i =>
      match v[i]?, other[i]? with
      | some a, some b => .ok (v.set i (f a b))
      | _, _ => .error .outOfRange)
    value

/-- The member `Mult::forward` for the captured tensor `multiplier_`:
`res` is a copy of `x` and `value[i] *= multiplier_->value()[i]`. -/
def Mult.forward (multiplier_ x : Tensor) : Except Error Tensor :=
  match elementLoop (fun a b => a * b) x.value multiplier_.value with
  | .error e => .error e
  | .ok value => .ok { x with value := value }

/-- The member `Mult::backward` for the captured tensor `multiplier_`:
`res` is a copy of `x` and `value[i] = multiplier_->value()[i]`. -/
def Mult.backward (multiplier_ x : Tensor) : Except Error Tensor :=
  match elementLoop (fun _ b => b) x.value multiplier_.value with
  | .error e => .error e
  | .ok value => .ok { x with value := value }

/-- The member `Dot::forward` for the captured tensor `multiplier_`:
`res = x[0] * m[0]`, then `res += x[i] * m[i]` for `i` from `1` to `x.size() - 1`. -/
def Dot.forward (multiplier_ x : Tensor) : Except Error Tensor :=
  match x.value[0]?, multiplier_.value[0]? with
  | some x0, some m0 =>
    match (List.range' 1 (x.value.length - 1)).foldlM
        (fun (res : F32) i =>
          match x.value[i]?, multiplier_.value[i]? with
          | some a, some b => (.ok (res + a * b) : Except Error F32)
          | _, _ => .error .outOfRange)
        (x0 * m0) with
    | .error e => .error e
    | .ok res => .ok (Tensor.ofValue res)
  | _, _ => .error .outOfRange

/-- The member `Dot::backward` for the captured tensor `multiplier_`:
`res` is a copy of `x` and `value[i] = multiplier_->value()[i]`. -/
def Dot.backward (multiplier_ x : Tensor) : Except Error Tensor :=
  match elementLoop (fun _ b => b) x.value multiplier_.value with
  | .error e => .error e
  | .ok value => .ok { x with value := value }

/-- The operations the engine instantiates.  The captured `multiplier_` pointer is the
handle of the tensor it points to.  (`Exp` is never instantiated by the engine and needs
`std::exp`; it is left out.) -/
inductive Function where
  | Mult (multiplier_ : Nat)
  | Dot (multiplier_ : Nat)
  deriving DecidableEq, Repr

/-! ## Graph.hpp -/

/-- The struct `Graph<T>::TensorNode`.  The member `grad_` is not initialised by the
constructor: `none` stands for the pointer that was never assigned. -/
structure TensorNode where
  tensor_ : Tensor
  nextFunctions_ : List Nat
  prevFunctions_ : List Nat
  isLeaf_ : Bool
  requiresGrad_ : Bool
  grad_ : Option Tensor
  deriving DecidableEq, Repr

/-- The struct `Graph<T>::FunctionNode`. -/
structure FunctionNode where
  f_ : Function
  nextTensor_ : Nat
  prevTensor_ : Nat
  deriving DecidableEq, Repr

/-- The struct `Graph<T>`: the two node lists.  The maps `tensorToNode_` and
`functionToNode_` send a pointer to the position of its node, which is the handle itself. -/
structure Graph where
  tensorNodes_ : List TensorNode
  functionNodes_ : List FunctionNode
  deriving DecidableEq, Repr

/-- The graph of a fresh engine (`Graph() = default`). -/
def Graph.empty : Graph := { tensorNodes_ := [], functionNodes_ := [] }

/-- The tensor a registered handle points to. -/
def Graph.tensorOf (g : Graph) (h : Nat) : Option Tensor :=
  match g.tensorNodes_[h]? with
  | some n => some n.tensor_
  | none => none

/-- Apply `f` to the tensor node at position `h`. -/
def Graph.updateNode (g : Graph) (h : Nat) (f : TensorNode → TensorNode) : Graph :=
  match g.tensorNodes_[h]? with
  | some n => { g with tensorNodes_ := g.tensorNodes_.set h (f n) }
  | none => g

/-- The member `Graph::addTensorNode`; the handle of the new node is returned with the graph. -/
def Graph.addTensorNode (g : Graph) (tensor : Tensor) (isLeaf : Bool) (requiresGrad : Bool) :
    Nat × Graph :=
  (g.tensorNodes_.length,
   { g with tensorNodes_ := g.tensorNodes_ ++
      [{ tensor_ := tensor, nextFunctions_ := [], prevFunctions_ := [],
         isLeaf_ := isLeaf, requiresGrad_ := requiresGrad, grad_ := none }] })

/-- The member `Graph::addFunctionNode`. -/
def Graph.addFunctionNode (g : Graph) (f : Function) (nextTensor prevTensor : Nat) :
    Except Error Unit × Graph :=
  if nextTensor < g.tensorNodes_.length ∧ prevTensor < g.tensorNodes_.length then
    let fnode := g.functionNodes_.length
    let g1 := g.updateNode nextTensor
      (fun n => { n with prevFunctions_ := n.prevFunctions_ ++ [fnode] })
    let g2 := g1.updateNode prevTensor
      (fun n => { n with nextFunctions_ := n.nextFunctions_ ++ [fnode] })
    (.ok (), { g2 with functionNodes_ := g2.functionNodes_ ++
      [{ f_ := f, nextTensor_ := nextTensor, prevTensor_ := prevTensor }] })
  else (.error .notRegistered, g)

/-- The virtual call `f_->backward(x)`, with the captured operand read from the graph. -/
def Function.backward (g : Graph) (f : Function) (x : Tensor) : Except Error Tensor :=
  match f with
  | .Mult m =>
    match g.tensorOf m with
    | some mt => Mult.backward mt x
    | none => .error .notRegistered
  | .Dot m =>
    match g.tensorOf m with
    | some mt => Dot.backward mt x
    | none => .error .notRegistered

/-- The member `FunctionNode::backward`: `f_->backward(prevTensor_->tensor_)`. -/
def FunctionNode.backward (g : Graph) (fn : FunctionNode) : Except Error Tensor :=
  match g.tensorOf fn.prevTensor_ with
  | some x => fn.f_.backward g x
  | none => .error .notRegistered

/-- The member `FunctionNode::setGradientToPrev`, as an assignment to the slot `grad_`
of the node at position `h`. -/
def Graph.setGrad (g : Graph) (h : Nat) (grad : Tensor) : Graph :=
  g.updateNode h (fun n => { n with grad_ := some grad })

/-- The statement `newGrad->value()[0] *= grad->value()[0];`. -/
def scaleFirst (newGrad grad : Tensor) : Except Error Tensor :=
  match newGrad.value[0]?, grad.value[0]? with
  | some n0, some g0 => .ok { newGrad with value := newGrad.value.set 0 (n0 * g0) }
  | _, _ => .error .outOfRange

/-- The body of the loop of `calcGradientsImpl` for the function node `fid`, where `walk`
is the recursive call and `grad` the gradient of the node whose producers are visited.
The state is the outcome so far with the graph; once a step has failed the rest is not run. -/
def Graph.edgeStep (walk : Graph → Nat → Tensor → Except Error Unit × Graph) (grad : Tensor)
    (st : Except Error Unit × Graph) (fid : Nat) : Except Error Unit × Graph :=
  match st with
  | (.error e, g1) => (.error e, g1)
  | (.ok _, g1) =>
    match g1.functionNodes_[fid]? with
    | none => (.error .notRegistered, g1)
    | some fn =>
      match fn.backward g1 with
      | .error e => (.error e, g1)
      | .ok newGrad0 =>
        match scaleFirst newGrad0 grad with
        | .error e => (.error e, g1)
        | .ok newGrad => walk (g1.setGrad fn.prevTensor_ newGrad) fn.prevTensor_ newGrad

/-- The member `Graph::calcGradientsImpl`.  The first argument bounds the depth of the
recursion; the source recurses without a bound. -/
def Graph.calcGradientsImpl : Nat → Graph → Nat → Tensor → Except Error Unit × Graph
  | 0, g, _, _ => (.error .fuel, g)
  | fuel + 1, g, tnode, grad =>
    match g.tensorNodes_[tnode]? with
    | none => (.error .notRegistered, g)
    | some n =>
      if n.isLeaf_ then (.ok (), g)
      else
        n.prevFunctions_.foldl
          (Graph.edgeStep (fun g1 h t => Graph.calcGradientsImpl fuel g1 h t) grad) (.ok (), g)

/-- The all-ones copy made by `calcGradients`: `grad` is a copy of the tensor and
`grad->value()[i] = 1` for every position. -/
def Tensor.onesAs (t : Tensor) : Tensor :=
  { t with value := (List.range t.value.length).foldl (fun v i => v.set i 1) t.value }

/-- The member `Graph::calcGradients`. -/
def Graph.calcGradients (fuel : Nat) (g : Graph) (tensor : Nat) : Except Error Unit × Graph :=
  match g.tensorOf tensor with
  | none => (.error .notRegistered, g)
  | some t =>
    let grad := t.onesAs
    Graph.calcGradientsImpl fuel (g.setGrad tensor grad) tensor grad

/-- The member `Graph::getGradient`; `none` is the slot that was never assigned. -/
def Graph.getGradient (g : Graph) (tensor : Nat) : Except Error (Option Tensor) :=
  match g.tensorNodes_[tensor]? with
  | some n => .ok n.grad_
  | none => .error .notRegistered

/-! ## Autograd.hpp

`Autograd<T>` owns exactly one `Graph<T>` (`graph_`); its members are modelled on that graph. -/

/-- The member `Autograd::MakeTensor(const Tensor<T> &t)`. -/
def Autograd.MakeTensorCopy (g : Graph) (t : Tensor) : Nat × Graph :=
  g.addTensorNode t true false

/-- The member `Autograd::MakeTensor(T value, bool requiresGrad)`. -/
def Autograd.MakeTensorValue (g : Graph) (value : F32) (requiresGrad : Bool) : Nat × Graph :=
  g.addTensorNode (Tensor.ofValue value) true requiresGrad

/-- The member `Autograd::MakeTensor(const Index &shape, const std::vector<T> &value, bool)`. -/
def Autograd.MakeTensor (g : Graph) (shape : List Nat) (value : List F32) (requiresGrad : Bool) :
    Except Error Nat × Graph :=
  match Tensor.construct shape value with
  | .error e => (.error e, g)
  | .ok tensor =>
    let r := g.addTensorNode tensor true requiresGrad
    (.ok r.1, r.2)

/-- The member `Autograd::mult`. -/
def Autograd.mult (g : Graph) (a b : Nat) : Except Error Nat × Graph :=
  match g.tensorOf a, g.tensorOf b with
  | some ta, some tb =>
    if !Tensor.checkShapes ta tb then (.error .multShapes, g)
    else
      match Mult.forward tb ta with
      | .error e => (.error e, g)
      | .ok res =>
        let r := g.addTensorNode res false false
        match r.2.addFunctionNode (.Mult b) r.1 a with
        | (.error e, g1) => (.error e, g1)
        | (.ok _, g1) =>
          match g1.addFunctionNode (.Mult a) r.1 b with
          | (.error e, g2) => (.error e, g2)
          | (.ok _, g2) => (.ok r.1, g2)
  | _, _ => (.error .notRegistered, g)

/-- The validation loop of `Autograd::dot`: for `i` from `0` to `b->nDims() - 1` the entries
`a->shape()[b->nDims() - i - 1]` and `b->shape()[b->nDims() - i - 1]` are compared. -/
def Autograd.dotShapesDiffer (ta tb : Tensor) : Bool :=
  (List.range tb.nDims).any
    (fun i => decide (ta.shape.getD (tb.nDims - i - 1) 0 ≠ tb.shape.getD (tb.nDims - i - 1) 0))

/-- The member `Autograd::dot`. -/
def Autograd.dot (g : Graph) (a b : Nat) : Except Error Nat × Graph :=
  match g.tensorOf a, g.tensorOf b with
  | some ta, some tb =>
    if ta.nDims < tb.nDims then (.error .dotNDims, g)
    else if Autograd.dotShapesDiffer ta tb then (.error .dotShapes, g)
    else
      match Dot.forward tb ta with
      | .error e => (.error e, g)
      | .ok res =>
        let r := g.addTensorNode res false false
        match r.2.addFunctionNode (.Dot b) r.1 a with
        | (.error e, g1) => (.error e, g1)
        | (.ok _, g1) =>
          match g1.addFunctionNode (.Dot a) r.1 b with
          | (.error e, g2) => (.error e, g2)
          | (.ok _, g2) => (.ok r.1, g2)
  | _, _ => (.error .notRegistered, g)

/-- The member `Autograd::backward`. -/
def Autograd.backward (fuel : Nat) (g : Graph) (tensor : Nat) : Except Error Unit × Graph :=
  g.calcGradients fuel tensor

/-- The member `Autograd::gradient`. -/
def Autograd.gradient (g : Graph) (tensor : Nat) : Except Error (Option Tensor) :=
  g.getGradient tensor

/-! ## Predicates and reference definitions used by the statements -/

/-- The invariant both constructors establish for a shape of fewer than `2^32` dimensions:
`nDims_` is the length of `shape_`, `totalNumOfElements_` is the `unsigned int` product of
the shape, and `value_` has that many elements. -/
def Tensor.Valid (t : Tensor) : Prop :=
  t.nDims = t.shape.length ∧ t.totalNumOfElements = accumulate t.shape ∧
    t.value.length = t.totalNumOfElements

instance (t : Tensor) : Decidable t.Valid := by
  unfold Tensor.Valid; infer_instance

/-- The data-model invariant of a tensor: `values.length == elementCount == product(shape)`
with the exact product, every dimension and the rank being `unsigned int` values. -/
def Tensor.WellFormed (t : Tensor) : Prop :=
  t.nDims = t.shape.length ∧ t.shape.length < UINT_MOD ∧ (∀ d ∈ t.shape, d < UINT_MOD) ∧
    t.shape.prod < UINT_MOD ∧ t.totalNumOfElements = t.shape.prod ∧
    t.value.length = t.shape.prod

instance (t : Tensor) : Decidable t.WellFormed := by
  unfold Tensor.WellFormed; infer_instance

/-- The loop of `indexLoop` read from the last processed coordinate back to the first:
the pair `(res, accum)` after the coordinates `index` over the dimensions `shape_`. -/
def loopRec : List Nat → List Nat → Nat × Nat → Nat × Nat
  | x :: ps, d :: ds, s0 =>
    ((( loopRec ps ds s0).1 + (loopRec ps ds s0).2 * x) % SIZE_MOD,
     ((loopRec ps ds s0).2 * d) % SIZE_MOD)
  | _, _, s0 => s0

/-- Row-major offset of the coordinates `index` over the dimensions `shape`, by recursion:
the leading coordinate is weighted with the product of all later dimensions. -/
def rowOffset : List Nat → List Nat → Nat
  | x :: ps, _ :: ds => x * ds.prod + rowOffset ps ds
  | _, _ => 0

/-- The flat offset in the words of the specification:
`sum_j p[j] * prod_{m > j} shape[m]`. -/
def specOffset (p shape : List Nat) : Nat :=
  ∑ j ∈ Finset.range p.length, p.getD j 0 * (shape.drop (j + 1)).prod

/-- Every coordinate of `index` is below the dimension at the same position of `shape`,
and there are at most as many coordinates as dimensions. -/
def InBounds : List Nat → List Nat → Prop
  | [], _ => True
  | x :: ps, d :: ds => x < d ∧ InBounds ps ds
  | _ :: _, [] => False

/-- The 2x2 tensor `t1` of `test_Tensor.cpp`. -/
def test_Tensor_t1 : Except Error Tensor := Tensor.construct [2, 2] [1, 2, 3, 4]

/-- The values `at({0}).item()`, `at({1}).item()`, `at({2}).item()` of a tensor of shape
`[3]`, as the assertions of `test_Tensor.cpp` read them. -/
def itemsOf (t : Tensor) : Except Error (List F32) :=
  [0, 1, 2].mapM (fun i => do let u ← t.at [i]; u.item)

/-- The part "operator+, operator+=" of `test_Tensor.cpp`: `t6 = t4 + t5`, then `t6 += t7`;
the result is the three items of `t6` after the first step and after the second. -/
def test_Tensor_addition : Except Error (List F32 × List F32) := do
  let t4 ← Tensor.construct [3] [5.0, 6.0, 1.5]
  let t5 ← Tensor.construct [3] [5.2, 6.5, 1.9]
  let t6 ← t4.add t5
  let first ← itemsOf t6
  let t7 ← Tensor.construct [3] [1.0, 2.0, 3.0]
  match t6.addAssign t7 with
  | (.error e, _) => .error e
  | (.ok _, t6) =>
    let second ← itemsOf t6
    pure (first, second)

/-- The tensor `at` returns for a non-empty index that is in bounds. -/
def subTensor (t : Tensor) (p : List Nat) : Tensor :=
  { nDims := t.nDims - p.length, shape := t.shape.drop p.length,
    totalNumOfElements := (t.shape.drop p.length).prod,
    value := (t.value.drop (rowOffset p t.shape)).take (t.shape.drop p.length).prod }

/-- The tail shared by `Autograd::mult` and `Autograd::dot` once the forward value `res`
is there: `addTensorNode(res, false)`, then one `addFunctionNode` per operand. -/
def Autograd.wire (g : Graph) (f1 f2 : Function) (res : Tensor) (a b : Nat) :
    Except Error Nat × Graph :=
  let r := g.addTensorNode res false false
  match r.2.addFunctionNode f1 r.1 a with
  | (.error e, g1) => (.error e, g1)
  | (.ok _, g1) =>
    match g1.addFunctionNode f2 r.1 b with
    | (.error e, g2) => (.error e, g2)
    | (.ok _, g2) => (.ok r.1, g2)

/-- The graph with every gradient slot blanked: what is left is the nodes, their tensors,
flags and edge lists. -/
def Graph.skeleton (g : Graph) : Graph :=
  { g with tensorNodes_ := g.tensorNodes_.map (fun n => { n with grad_ := none }) }

/-- Every producer edge of a node exists and has an input node registered strictly before
the node. -/
def Graph.Ordered (g : Graph) : Prop :=
  ∀ (j : Nat) (n : TensorNode), g.tensorNodes_[j]? = some n → ∀ fid ∈ n.prevFunctions_,
    ∃ fn : FunctionNode, g.functionNodes_[fid]? = some fn ∧ fn.prevTensor_ < j

/-- The graphs an engine can hold: the graph left by any sequence of calls of the members
of `Autograd<T>`, starting from a fresh engine.  A call that throws leaves its graph too. -/
inductive Graph.Reachable : Graph → Prop where
  | empty : Graph.Reachable Graph.empty
  | makeTensorCopy {g : Graph} (h : Graph.Reachable g) (t : Tensor) :
      Graph.Reachable (Autograd.MakeTensorCopy g t).2
  | makeTensorValue {g : Graph} (h : Graph.Reachable g) (value : F32) (requiresGrad : Bool) :
      Graph.Reachable (Autograd.MakeTensorValue g value requiresGrad).2
  | makeTensor {g : Graph} (h : Graph.Reachable g) (shape : List Nat) (value : List F32)
      (requiresGrad : Bool) :
      Graph.Reachable (Autograd.MakeTensor g shape value requiresGrad).2
  | mult {g : Graph} (h : Graph.Reachable g) (a b : Nat) :
      Graph.Reachable (Autograd.mult g a b).2
  | dot {g : Graph} (h : Graph.Reachable g) (a b : Nat) :
      Graph.Reachable (Autograd.dot g a b).2
  | backward {g : Graph} (h : Graph.Reachable g) (fuel : Nat) (tensor : Nat) :
      Graph.Reachable (Autograd.backward fuel g tensor).2

/-- The rejection condition of `dot` in the words of the specification: `a.nDims < b.nDims`
or the last `b.nDims` entries of the shape of `a` differ from the shape of `b`. -/
def specDotMismatch (ta tb : Tensor) : Prop :=
  ta.nDims < tb.nDims ∨ ta.shape.drop (ta.shape.length - tb.nDims) ≠ tb.shape

instance (ta tb : Tensor) : Decidable (specDotMismatch ta tb) := by
  unfold specDotMismatch; infer_instance

/-- The value the loop of `Dot::forward` leaves in `res` when it starts from `acc` and
passes the positions of `xs` and `ms` from left to right: `res += xs[i] * ms[i]`, every
product and every sum being a `float` operation. -/
def dotAccumulate (acc : F32) (xs ms : List F32) : F32 :=
  (List.zipWith (fun a b => a * b) xs ms).foldl (fun res p => res + p) acc

/-- The value `Dot::forward` computes from the values `x` and the values `m` of the captured
operand, both with at least one element: it starts from `x[0] * m[0]` and accumulates the
later positions in order. -/
def dotValue (x m : List F32) : F32 :=
  dotAccumulate (x.headD 0 * m.headD 0) x.tail m.tail

/-- The sum of products in the words of the specification, `Σ_i x[i] * y[i]` computed in
exact arithmetic, for finite elements. -/
def specDotSum (x y : List F32) : Option ℚ :=
  (List.zipWith (fun a b => (a.toRat, b.toRat)) x y).foldr
    (fun p acc =>
      match p.1, p.2, acc with
      | some a, some b, some r => some (a * b + r)
      | _, _, _ => none)
    (some 0)

/-- Read `gradient(tensor)->item()`. -/
def Autograd.gradientItem (g : Graph) (tensor : Nat) : Except Error F32 :=
  match Autograd.gradient g tensor with
  | .error e => .error e
  | .ok none => .error .uninitialised
  | .ok (some grad) => grad.item

/-- The program of `test_autograd.cpp`, with `item()` read from the two gradients it
prints: the result is the pair `(gradient(a).item(), gradient(b).item())`. -/
def test_autograd (fuel : Nat) : Except Error (F32 × F32) :=
  let a := Autograd.MakeTensorValue Graph.empty 3 true
  let b := Autograd.MakeTensorValue a.2 4 true
  match Autograd.dot b.2 a.1 b.1 with
  | (.error err, _) => .error err
  | (.ok c, g1) =>
    let d := Autograd.MakeTensorValue g1 5 false
    match Autograd.dot d.2 c d.1 with
    | (.error err, _) => .error err
    | (.ok e, g2) =>
      match Autograd.backward fuel g2 e with
      | (.error err, _) => .error err
      | (.ok _, g3) =>
        match Autograd.gradientItem g3 a.1, Autograd.gradientItem g3 b.1 with
        | .ok ga, .ok gb => .ok (ga, gb)
        | .error err, _ => .error err
        | _, .error err => .error err

/-- A graph with three leaves, of shapes `[2]`, `[]` and `[3]`. -/
def exampleLeaves : Graph :=
  (Autograd.MakeTensorCopy
    (Autograd.MakeTensorValue
      (Autograd.MakeTensorCopy Graph.empty (Tensor.mk 1 [2] 2 [1, 2])).2 5 false).2
    (Tensor.mk 1 [3] 3 [1, 2, 3])).2

/-- A graph with two leaves: a rank-2 tensor of the given shape holding `[1,2,3,4,5,6]`
and the vector `[1,2,3]` of shape `[3]`. -/
def exampleMatrixVector (shape : List Nat) : Graph :=
  (Autograd.MakeTensorCopy
    (Autograd.MakeTensorCopy Graph.empty (Tensor.mk 2 shape 6 [1, 2, 3, 4, 5, 6])).2
    (Tensor.mk 1 [3] 3 [1, 2, 3])).2

/-- The leaves `a = [2,3]` and `b = [4,5]` of shape `[2]`. -/
def exampleVectors : Graph :=
  (Autograd.MakeTensorCopy
    (Autograd.MakeTensorCopy Graph.empty (Tensor.mk 1 [2] 2 [2, 3])).2
    (Tensor.mk 1 [2] 2 [4, 5])).2

/-- The dot chain of `test_autograd.cpp` for arbitrary scalar leaves `a`, `b`, `d`:
`c = dot(a, b)`, `e = dot(c, d)`, `backward(e)`; the result is
`(gradient(e), gradient(c), gradient(d), gradient(a), gradient(b))`, each read by `item()`. -/
def scalarChain (va vb vd : F32) (fuel : Nat) : Except Error (F32 × F32 × F32 × F32 × F32) :=
  let a := Autograd.MakeTensorValue Graph.empty va true
  let b := Autograd.MakeTensorValue a.2 vb true
  match Autograd.dot b.2 a.1 b.1 with
  | (.error err, _) => .error err
  | (.ok c, g1) =>
    let d := Autograd.MakeTensorValue g1 vd false
    match Autograd.dot d.2 c d.1 with
    | (.error err, _) => .error err
    | (.ok e, g2) =>
      match Autograd.backward fuel g2 e with
      | (.error err, _) => .error err
      | (.ok _, g3) =>
        match Autograd.gradientItem g3 e, Autograd.gradientItem g3 c,
          Autograd.gradientItem g3 d.1, Autograd.gradientItem g3 a.1,
          Autograd.gradientItem g3 b.1 with
        | .ok ge, .ok gc, .ok gd, .ok ga, .ok gb => .ok (ge, gc, gd, ga, gb)
        | _, _, _, _, _ => .error .uninitialised

/-- The chain of the vector example: leaves `a = [1,2]` and `b = [3,4]`, `c = dot(a, b)`,
scalar leaf `d = 2`, `e = dot(c, d)`, `backward(e)`; the result is `gradient(a)`. -/
def vectorChain (fuel : Nat) : Except Error (Option Tensor) :=
  let a := Autograd.MakeTensorCopy Graph.empty (Tensor.mk 1 [2] 2 [1, 2])
  let b := Autograd.MakeTensorCopy a.2 (Tensor.mk 1 [2] 2 [3, 4])
  match Autograd.dot b.2 a.1 b.1 with
  | (.error err, _) => .error err
  | (.ok c, g1) =>
    let d := Autograd.MakeTensorValue g1 2 false
    match Autograd.dot d.2 c d.1 with
    | (.error err, _) => .error err
    | (.ok e, g2) =>
      match Autograd.backward fuel g2 e with
      | (.error err, _) => .error err
      | (.ok _, g3) => Autograd.gradient g3 a.1

/-- Two leaves of shape `[0]`, without elements. -/
def exampleEmptyVectors : Graph :=
  (Autograd.MakeTensorCopy
    (Autograd.MakeTensorCopy Graph.empty (Tensor.mk 1 [0] 0 [])).2
    (Tensor.mk 1 [0] 0 [])).2

/-- The relation "node `j` is reachable from node `k` through producer edges": an edge of
`prevFunctions_` of `k` leads to its input, from where the path may go on. -/
inductive Graph.Upstream (g : Graph) : Nat → Nat → Prop where
  | edge {k : Nat} {n : TensorNode} {fid : Nat} {fn : FunctionNode} :
      g.tensorNodes_[k]? = some n → fid ∈ n.prevFunctions_ →
      g.functionNodes_[fid]? = some fn → Graph.Upstream g k fn.prevTensor_
  | step {k : Nat} {n : TensorNode} {fid : Nat} {fn : FunctionNode} {j : Nat} :
      g.tensorNodes_[k]? = some n → fid ∈ n.prevFunctions_ →
      g.functionNodes_[fid]? = some fn → Graph.Upstream g fn.prevTensor_ j →
      Graph.Upstream g k j

/-- The shape of a graph the builders leave: every edge has a registered output node and an
input node registered strictly before it; a leaf has no producer edge; a node that is not a
leaf has exactly two producer edges, both ending in it, the first with the first operand as
input and the second operand captured, the second the other way round. -/
def Graph.Built (g : Graph) : Prop :=
  (∀ (fid : Nat) (fn : FunctionNode), g.functionNodes_[fid]? = some fn →
    fn.prevTensor_ < fn.nextTensor_ ∧ fn.nextTensor_ < g.tensorNodes_.length) ∧
  (∀ (j : Nat) (n : TensorNode), g.tensorNodes_[j]? = some n →
    (n.isLeaf_ = true → n.prevFunctions_ = []) ∧
    (n.isLeaf_ = false →
      ∃ (f1 f2 : Nat) (fn1 fn2 : FunctionNode), n.prevFunctions_ = [f1, f2] ∧
        g.functionNodes_[f1]? = some fn1 ∧ g.functionNodes_[f2]? = some fn2 ∧
        fn1.nextTensor_ = j ∧ fn2.nextTensor_ = j ∧
        ((fn1.f_ = .Mult fn2.prevTensor_ ∧ fn2.f_ = .Mult fn1.prevTensor_) ∨
         (fn1.f_ = .Dot fn2.prevTensor_ ∧ fn2.f_ = .Dot fn1.prevTensor_))))

/-- The tensor `gr` has the `nDims`, shape, element count and number of values of `t`. -/
def Tensor.SameShape (gr t : Tensor) : Prop :=
  gr.nDims = t.nDims ∧ gr.shape = t.shape ∧ gr.totalNumOfElements = t.totalNumOfElements ∧
    gr.value.length = t.value.length

/-- Every gradient slot that was assigned holds a tensor shaped like the tensor of its node. -/
def Graph.GradShaped (g : Graph) : Prop :=
  ∀ (j : Nat) (n : TensorNode) (gr : Tensor), g.tensorNodes_[j]? = some n →
    n.grad_ = some gr → gr.SameShape n.tensor_

/-- A leaf that is reached twice: leaves `b = [2,3]` and `x = [5,7]`, `a = mult(b, x)`,
`c = mult(b, a)`, `backward(c)`; the result is `gradient(b)`.  The edge of `c` for `b`
writes `[10,21]` first; the walk through `a` reaches `b` again and writes `[10,7]`. -/
def reusedLeaf (fuel : Nat) : Except Error (Option Tensor) :=
  let b := Autograd.MakeTensorCopy Graph.empty (Tensor.mk 1 [2] 2 [2, 3])
  let x := Autograd.MakeTensorCopy b.2 (Tensor.mk 1 [2] 2 [5, 7])
  match Autograd.mult x.2 b.1 x.1 with
  | (.error err, _) => .error err
  | (.ok a, g1) =>
    match Autograd.mult g1 b.1 a with
    | (.error err, _) => .error err
    | (.ok c, g2) =>
      match Autograd.backward fuel g2 c with
      | (.error err, _) => .error err
      | (.ok _, g3) => Autograd.gradient g3 b.1

/-- A call of a member of `Autograd<T>`.  (The recursion budget of `backward` belongs to
the model, not to the call.) -/
inductive Call where
  | makeTensorCopy (t : Tensor)
  | makeTensorValue (value : F32) (requiresGrad : Bool)
  | makeTensor (shape : List Nat) (value : List F32) (requiresGrad : Bool)
  | mult (a b : Nat)
  | dot (a b : Nat)
  | backward (fuel : Nat) (tensor : Nat)
  | gradient (tensor : Nat)
  deriving DecidableEq, Repr

/-- What a call hands back: for a creating call the handle (or the error) with the tensor
the handle points to, that is the forward value; for `backward` the outcome; for `gradient`
the gradient tensor in the slot. -/
inductive Output where
  | handle (h : Except Error Nat) (tensor : Option Tensor)
  | done (r : Except Error Unit)
  | grad (r : Except Error (Option Tensor))
  deriving DecidableEq, Repr

/-- The output of a creating call that ended with outcome `r.1` and graph `r.2`. -/
def Output.ofHandle (r : Except Error Nat × Graph) : Output × Graph :=
  match r.1 with
  | .ok h => (.handle (.ok h) (r.2.tensorOf h), r.2)
  | .error e => (.handle (.error e) none, r.2)

/-- Run one call on the graph of the engine. -/
def Call.run (c : Call) (g : Graph) : Output × Graph :=
  match c with
  | .makeTensorCopy t =>
    Output.ofHandle (.ok (Autograd.MakeTensorCopy g t).1, (Autograd.MakeTensorCopy g t).2)
  | .makeTensorValue v r =>
    Output.ofHandle
      (.ok (Autograd.MakeTensorValue g v r).1, (Autograd.MakeTensorValue g v r).2)
  | .makeTensor s v r => Output.ofHandle (Autograd.MakeTensor g s v r)
  | .mult a b => Output.ofHandle (Autograd.mult g a b)
  | .dot a b => Output.ofHandle (Autograd.dot g a b)
  | .backward fuel t => (.done (Autograd.backward fuel g t).1, (Autograd.backward fuel g t).2)
  | .gradient t => (.grad (Autograd.gradient g t), g)

/-- Run a sequence of calls; the outputs are collected in order. -/
def runCalls : List Call → Graph → List Output × Graph
  | [], g => ([], g)
  | c :: cs, g => ((c.run g).1 :: (runCalls cs (c.run g).2).1, (runCalls cs (c.run g).2).2)

/-- The call with its `requiresGrad` argument replaced by `false`. -/
def Call.eraseRequiresGrad : Call → Call
  | .makeTensorValue v _ => .makeTensorValue v false
  | .makeTensor s v _ => .makeTensor s v false
  | c => c

/-- The graph with every `requiresGrad_` flag replaced by `false`. -/
def Graph.eraseRequiresGrad (g : Graph) : Graph :=
  { g with tensorNodes_ := g.tensorNodes_.map (fun n => { n with requiresGrad_ := false }) }

/-- The calls of `test_autograd.cpp`, followed by `gradient(d)` for the leaf `d` that was
created with `requiresGrad = false`. -/
def test_autograd_calls : List Call :=
  [.makeTensorValue 3 true, .makeTensorValue 4 true, .dot 0 1, .makeTensorValue 5 false,
   .dot 2 3, .backward 3 4, .gradient 3]

/-- The leaves `a = [16777216, 1]` and `b = [1, 1]` of shape `[2]`: every element is an
integer that `float` represents exactly, and the exact sum of products is `16777217`. -/
def exampleLargeVectors : Graph :=
  (Autograd.MakeTensorCopy
    (Autograd.MakeTensorCopy Graph.empty (Tensor.mk 1 [2] 2 [16777216, 1])).2
    (Tensor.mk 1 [2] 2 [1, 1])).2

/-- The value `r` is the exact product of the finite values `a` and `b`. -/
def F32.ExactProduct (r a b : F32) : Prop :=
  ∃ qa qb : ℚ, a.toRat = some qa ∧ b.toRat = some qb ∧ r.toRat = some (qa * qb)

/-- The constructor call `Tensor<float>({65536, 65536}, {})`: a shape whose exact product
is `2^32`, with an empty value vector. -/
def wrappedTensor : Except Error Tensor := Tensor.construct [65536, 65536] []

/-- The node `c` of the graph is not a leaf and has exactly the producer edges `[f1, f2]`,
one per operand in the order of the operands: the first edge has the first operand `a` as
input and holds the operation `op b` that captures the second, the second edge has the
second operand `b` as input and holds `op a`; both end in `c`. -/
def Graph.ProducersInOrder (g : Graph) (op : Nat → Function) (c a b : Nat) : Prop :=
  ∃ (node : TensorNode) (f1 f2 : Nat), g.tensorNodes_[c]? = some node ∧
    node.isLeaf_ = false ∧ node.prevFunctions_ = [f1, f2] ∧
    g.functionNodes_[f1]? = some ⟨op b, c, a⟩ ∧ g.functionNodes_[f2]? = some ⟨op a, c, b⟩

/-- The graph `g1` still has every edge of `g` at its position, and every node of `g` at
its position with the same producer list, leaf flag and tensor. -/
def Graph.KeepsProducers (g g1 : Graph) : Prop :=
  (∀ (fid : Nat) (fn : FunctionNode), g.functionNodes_[fid]? = some fn →
    g1.functionNodes_[fid]? = some fn) ∧
  (∀ (j : Nat) (n : TensorNode), g.tensorNodes_[j]? = some n →
    ∃ n1 : TensorNode, g1.tensorNodes_[j]? = some n1 ∧
      n1.prevFunctions_ = n.prevFunctions_ ∧ n1.isLeaf_ = n.isLeaf_ ∧ n1.tensor_ = n.tensor_)

end autograd

/-! # Theorems -/

namespace autograd

/-! ## The element type -/

set_option maxRecDepth 100000
set_option exponentiation.threshold 2048

theorem bitLength_zero (fuel : Nat) : bitLength fuel 0 = 0 := by
  cases fuel <;> simp [bitLength]

theorem bitLength_spec (fuel : Nat) : ∀ n : Nat, n ≤ fuel → n ≠ 0 →
    2 ^ (bitLength fuel n - 1) ≤ n ∧ n < 2 ^ bitLength fuel n ∧ 0 < bitLength fuel n := by
  induction fuel with
  | zero => intro n h hn; omega
  | succ fuel ih =>
    intro n h hn
    simp only [bitLength, if_neg hn, Nat.add_sub_cancel]
    by_cases h2 : n / 2 = 0
    · rw [h2, bitLength_zero]
      have : n = 1 := by omega
      subst this; simp
    · obtain ⟨h3, h4, h5⟩ := ih (n / 2) (by omega) h2
      refine ⟨?_, ?_, by omega⟩
      · have e : bitLength fuel (n / 2) = (bitLength fuel (n / 2) - 1) + 1 := by omega
        rw [e, Nat.pow_succ]; omega
      · rw [Nat.pow_succ]; omega

theorem bitLength_eq (n L : Nat) (h1 : 2 ^ L ≤ n) (h2 : n < 2 ^ (L + 1)) :
    bitLength n n = L + 1 := by
  have hn : n ≠ 0 := by
    have := Nat.pos_pow_of_pos L (by norm_num : 0 < 2); omega
  obtain ⟨h3, h4, h5⟩ := bitLength_spec n n (Nat.le_refl n) hn
  have a : bitLength n n - 1 < L + 1 :=
    (Nat.pow_lt_pow_iff_right (by norm_num : 1 < 2)).mp (Nat.lt_of_le_of_lt h3 h2)
  have b : L < bitLength n n :=
    (Nat.pow_lt_pow_iff_right (by norm_num : 1 < 2)).mp (Nat.lt_of_le_of_lt h1 h4)
  omega

theorem bitLength_le (n L : Nat) (h2 : n < 2 ^ L) : bitLength n n ≤ L := by
  by_cases hn : n = 0
  · subst hn; rw [bitLength_zero]; omega
  · obtain ⟨h3, h4, h5⟩ := bitLength_spec n n (Nat.le_refl n) hn
    have a : bitLength n n - 1 < L :=
      (Nat.pow_lt_pow_iff_right (by norm_num : 1 < 2)).mp (Nat.lt_of_le_of_lt h3 h2)
    omega

/-- Rounding a value that is a `float` already gives that `float`. -/
theorem F32.round_magnitude (sign : Bool) (e : Fin 255) (f : Fin 8388608) (X : Nat) :
    F32.round sign (F32.magnitude e f * 2 ^ X) X = .finite sign e f := by
  obtain ⟨e, he⟩ := e
  obtain ⟨f, hf⟩ := f
  have hp : 0 < 2 ^ (e - 1 + X) := Nat.pos_pow_of_pos _ (by norm_num)
  have hn : F32.magnitude ⟨e, he⟩ ⟨f, hf⟩ * 2 ^ X
      = F32.significand ⟨e, he⟩ ⟨f, hf⟩ * 2 ^ (e - 1 + X) := by
    simp only [F32.magnitude, Nat.pow_add, Nat.mul_assoc]
  rw [hn]
  by_cases hz : F32.significand ⟨e, he⟩ ⟨f, hf⟩ = 0
  · have h0 : e = 0 ∧ f = 0 := by
      simp only [F32.significand] at hz
      split at hz <;> omega
    obtain ⟨rfl, rfl⟩ := h0
    rw [hz, Nat.zero_mul]
    rfl
  · have hM : F32.significand ⟨e, he⟩ ⟨f, hf⟩ < 16777216 := by
      simp only [F32.significand]; split <;> omega
    generalize hMdef : F32.significand ⟨e, he⟩ ⟨f, hf⟩ = M at hz hM
    have hn0 : M * 2 ^ (e - 1 + X) ≠ 0 := Nat.mul_ne_zero hz (by omega)
    have hs : max (bitLength (M * 2 ^ (e - 1 + X)) (M * 2 ^ (e - 1 + X)) - 24) X
        = e - 1 + X := by
      by_cases h0 : e = 0
      · subst h0
        have hlt : M < 8388608 := by
          rw [← hMdef]; simp [F32.significand]; exact hf
        have : M * 2 ^ (0 - 1 + X) < 2 ^ (23 + X) := by
          have e1 : (0 - 1 + X) = X := by omega
          have e2 : 2 ^ (23 + X) = 8388608 * 2 ^ X := by rw [Nat.pow_add]
          rw [e1, e2]
          exact Nat.mul_lt_mul_of_pos_right hlt (Nat.pos_pow_of_pos _ (by norm_num))
        have := bitLength_le _ _ this
        omega
      · have hge : 8388608 ≤ M := by
          rw [← hMdef]; simp [F32.significand, h0]
        have h1 : 2 ^ (23 + (e - 1 + X)) ≤ M * 2 ^ (e - 1 + X) := by
          have e2 : 2 ^ (23 + (e - 1 + X)) = 8388608 * 2 ^ (e - 1 + X) := by rw [Nat.pow_add]
          rw [e2]
          exact Nat.mul_le_mul_right _ hge
        have h2 : M * 2 ^ (e - 1 + X) < 2 ^ (23 + (e - 1 + X) + 1) := by
          have e1 : 2 ^ (23 + (e - 1 + X) + 1) = 16777216 * 2 ^ (e - 1 + X) := by
            rw [show 23 + (e - 1 + X) + 1 = 24 + (e - 1 + X) from by omega, Nat.pow_add]
          rw [e1]
          exact Nat.mul_lt_mul_of_pos_right hM hp
        have := bitLength_eq _ _ h1 h2
        omega
    have hq : M * 2 ^ (e - 1 + X) / 2 ^ (e - 1 + X) = M := Nat.mul_div_cancel _ hp
    have hr : M * 2 ^ (e - 1 + X) % 2 ^ (e - 1 + X) = 0 := Nat.mul_mod_left _ _
    have hm : M ≠ 16777216 := by omega
    simp only [F32.round, if_neg hn0, hs, hq, hr, Nat.mul_zero, if_pos hp, if_neg hm]
    by_cases h0 : e = 0
    · subst h0
      have hlt : M < 8388608 := by
        rw [← hMdef]; simp [F32.significand]; exact hf
      have hMf : M = f := by rw [← hMdef]; simp [F32.significand]
      subst hMf
      rw [dif_pos hlt]
      rfl
    · have hge : ¬ M < 8388608 := by
        rw [← hMdef]; simp [F32.significand, h0]
      have hMf : M = 8388608 + f := by rw [← hMdef]; simp [F32.significand, h0]
      rw [dif_neg hge]
      have hc : e - 1 + X - X + 1 < 255 ∧ M - 8388608 < 8388608 := by omega
      rw [dif_pos hc]
      have e1 : e - 1 + X - X + 1 = e := by omega
      have e2 : M - 8388608 = f := by omega
      simp only [e1, e2]

theorem F32.one_eq : (1 : F32) = .finite false 127 0 := by decide

/-- Multiplying a `float` by `1` gives the same `float`. -/
theorem F32.mul_one (x : F32) : x * 1 = x := by
  rw [F32.one_eq]
  show F32.mul x (.finite false 127 0) = x
  cases x with
  | nan => rfl
  | infinity s =>
    have h : F32.magnitude 127 0 ≠ 0 := by decide
    simp [F32.mul, h]
  | finite s e f =>
    have h : F32.magnitude 127 0 = 2 ^ 149 := by decide
    simp only [F32.mul, h, Bool.xor_false]
    exact F32.round_magnitude s e f 149

/-- The decimal literals of `test_Tensor.cpp` denote the `float` values the compiler
produces for them (sign, biased exponent, fraction bits). -/
theorem decimal_literals :
    (5.2 : F32) = .finite false 129 2516582 ∧ (6.5 : F32) = .finite false 129 5242880 ∧
    (1.9 : F32) = .finite false 127 7549747 ∧ (10.2 : F32) = .finite false 130 2306867 ∧
    (3.4 : F32) = .finite false 128 5872026 ∧ (6.4 : F32) = .finite false 129 5033165 ∧
    (1.5 : F32) = .finite false 127 4194304 ∧ (5.0 : F32) = 5 := by
  decide

/-- The six assertions of the part "operator+, operator+=" of `test_Tensor.cpp` hold:
`t4 + t5` has the items `10.2f`, `12.5f`, `3.4f`, and after `t6 += t7` the items are
`11.2f`, `14.5f`, `6.4f`. -/
theorem test_Tensor_addition_asserts :
    test_Tensor_addition = .ok ([10.2, 12.5, 3.4], [11.2, 14.5, 6.4]) := by
  decide

/-! ## The constructor -/

theorem foldl_mulMod_mod (shape : List Nat) (acc : Nat) :
    shape.foldl (fun acc d => (acc * d) % UINT_MOD) acc % UINT_MOD
      = (acc * shape.prod) % UINT_MOD := by
  induction shape generalizing acc with
  | nil => simp
  | cons d ds ih =>
    simp only [List.foldl_cons, List.prod_cons]
    rw [ih, Nat.mod_mul_mod, Nat.mul_assoc]

theorem foldl_mulMod_lt (shape : List Nat) (acc : Nat) (h : acc < UINT_MOD) :
    shape.foldl (fun acc d => (acc * d) % UINT_MOD) acc < UINT_MOD := by
  induction shape generalizing acc with
  | nil => simpa using h
  | cons d ds ih =>
    simp only [List.foldl_cons]
    exact ih _ (Nat.mod_lt _ (by norm_num))

/-- The `unsigned int` product of a shape is the exact product reduced modulo `2^32`. -/
theorem accumulate_eq (shape : List Nat) : accumulate shape = shape.prod % UINT_MOD := by
  have h1 := foldl_mulMod_mod shape 1
  have h2 := foldl_mulMod_lt shape 1 (by norm_num)
  unfold accumulate
  rw [← Nat.mod_eq_of_lt h2, h1, Nat.one_mul]

theorem accumulate_eq_prod (shape : List Nat) (h : shape.prod < UINT_MOD) :
    accumulate shape = shape.prod := by
  rw [accumulate_eq, Nat.mod_eq_of_lt h]

/-- For the shape `[65536, 65536]`, whose exact product is `2^32`, and the empty value list
the constructor succeeds although the value list does not have product-many elements. -/
theorem construct_exact_product_counterexample :
    ¬ ((∃ t, Tensor.construct [65536, 65536] [] = .ok t) ↔
        ([] : List F32).length = ([65536, 65536] : List Nat).prod) := by
  intro h
  have h1 : ([] : List F32).length = ([65536, 65536] : List Nat).prod :=
    h.mp ⟨⟨2, [65536, 65536], 0, []⟩, rfl⟩
  revert h1
  decide

/-- What the constructor does: `Tensor(shape, values)` succeeds exactly when `values.length`
equals the product of the dimensions reduced modulo `2^32`; on success the tensor has
`nDims = shape.length mod 2^32`, that shape, those values and
`totalNumOfElements = values.length = product(shape) mod 2^32`; on failure it throws the
number-of-elements error and there is no tensor.  For a shape of fewer than `2^32`
dimensions whose exact product is below `2^32` this is the exact product and the exact
length. -/
theorem construct_iff (shape : List Nat) (value : List F32) :
    ((∃ t, Tensor.construct shape value = .ok t) ↔ value.length = shape.prod % UINT_MOD) ∧
    (∀ t, Tensor.construct shape value = .ok t →
      t = { nDims := shape.length % UINT_MOD, shape := shape,
            totalNumOfElements := value.length, value := value } ∧
      t.totalNumOfElements = shape.prod % UINT_MOD) ∧
    (value.length ≠ shape.prod % UINT_MOD →
      Tensor.construct shape value = .error .numberOfElements) ∧
    (shape.length < UINT_MOD → shape.prod < UINT_MOD →
      ((∃ t, Tensor.construct shape value = .ok t) ↔ value.length = shape.prod) ∧
      (∀ t, Tensor.construct shape value = .ok t →
        t.nDims = shape.length ∧ t.shape = shape ∧ t.value = value ∧
        t.totalNumOfElements = shape.prod ∧ shape.prod = value.length)) := by
  have key : ∀ t, Tensor.construct shape value = .ok t →
      value.length = shape.prod % UINT_MOD ∧
      t = { nDims := shape.length % UINT_MOD, shape := shape,
            totalNumOfElements := value.length, value := value } := by
    intro t ht
    unfold Tensor.construct at ht
    simp only [accumulate_eq] at ht
    split at ht
    · cases ht
    · rename_i hlen
      have hlen2 : value.length = shape.prod % UINT_MOD := not_not.mp hlen
      refine ⟨hlen2, ?_⟩
      cases ht
      rw [hlen2]
  have ok : value.length = shape.prod % UINT_MOD →
      ∃ t, Tensor.construct shape value = .ok t := by
    intro hlen
    unfold Tensor.construct
    simp only [accumulate_eq]
    rw [if_neg (not_not.mpr hlen)]
    exact ⟨_, rfl⟩
  refine ⟨⟨fun ⟨t, ht⟩ => (key t ht).1, ok⟩, ?_, ?_, ?_⟩
  · intro t ht
    obtain ⟨h1, h2⟩ := key t ht
    refine ⟨h2, ?_⟩
    rw [h2]; exact h1
  · intro hne
    unfold Tensor.construct
    simp only [accumulate_eq]
    rw [if_pos hne]
  · intro hl hp
    rw [Nat.mod_eq_of_lt hp] at key ok
    refine ⟨⟨fun ⟨t, ht⟩ => (key t ht).1, ok⟩, ?_⟩
    intro t ht
    obtain ⟨h1, h2⟩ := key t ht
    subst h2
    exact ⟨Nat.mod_eq_of_lt hl, rfl, rfl, h1, h1.symm⟩

/-- The 2x2 tensor of the test program is built. -/
theorem construct_iff_witness :
    ([2, 2] : List Nat).length < UINT_MOD ∧ ([2, 2] : List Nat).prod < UINT_MOD ∧
    ((∃ t, Tensor.construct [2, 2] [1, 2, 3, 4] = .ok t) ↔
      ([1, 2, 3, 4] : List F32).length = ([2, 2] : List Nat).prod) :=
  ⟨by decide, by decide,
   ((construct_iff [2, 2] [1, 2, 3, 4]).2.2.2 (by decide) (by decide)).1⟩

/-- C8: the constructor at the shape `[65536, 65536]` with an empty value vector.  The exact
product of the shape is `2^32`, its `unsigned int` product is 0, and the constructor
accepts the empty vector although `0 ≠ 2^32`: the tensor it returns has
`totalNumOfElements_ = 0` and no values under a shape of `2^32` positions, and on it
`at({0})` and `operator()({0, 0})`, both with every coordinate in bounds, read past the
end of `value_`.  In general the constructor succeeds exactly when `values.length` equals
the product reduced modulo `2^32`; for every shape of fewer than `2^32` dimensions whose
exact product is below `2^32` it does what the claim says. -/
theorem construct_wraps_product :
    wrappedTensor = .ok ⟨2, [65536, 65536], 0, []⟩ ∧
    ([] : List F32).length ≠ ([65536, 65536] : List Nat).prod ∧
    ([65536, 65536] : List Nat).prod = UINT_MOD ∧ accumulate [65536, 65536] = 0 ∧
    Tensor.at ⟨2, [65536, 65536], 0, []⟩ [0] = .error .outOfRange ∧
    Tensor.operatorCall ⟨2, [65536, 65536], 0, []⟩ [0, 0] = .error .outOfRange ∧
    (∀ (shape : List Nat) (value : List F32),
      ((∃ t, Tensor.construct shape value = .ok t) ↔ value.length = shape.prod % UINT_MOD) ∧
      (value.length ≠ shape.prod % UINT_MOD →
        Tensor.construct shape value = .error .numberOfElements)) ∧
    (∀ (shape : List Nat) (value : List F32), shape.length < UINT_MOD →
      shape.prod < UINT_MOD →
      ((∃ t, Tensor.construct shape value = .ok t) ↔ value.length = shape.prod) ∧
      (∀ t, Tensor.construct shape value = .ok t →
        t.nDims = shape.length ∧ t.shape = shape ∧ t.value = value ∧
        t.totalNumOfElements = shape.prod ∧ shape.prod = value.length)) :=
  ⟨by decide, by decide, by decide, by decide, by decide, by decide,
   fun shape value => ⟨(construct_iff shape value).1, (construct_iff shape value).2.2.1⟩,
   fun shape value => (construct_iff shape value).2.2.2⟩

/-- Witness of C8: the 2x2 tensor of the test program is built and has four elements. -/
theorem construct_wraps_product_witness :
    ((∃ t, Tensor.construct [2, 2] [1, 2, 3, 4] = .ok t) ↔
      ([1, 2, 3, 4] : List F32).length = ([2, 2] : List Nat).prod) ∧
    (∀ t, Tensor.construct [2, 2] [1, 2, 3, 4] = .ok t →
      t.nDims = ([2, 2] : List Nat).length ∧ t.shape = [2, 2] ∧ t.value = [1, 2, 3, 4] ∧
      t.totalNumOfElements = ([2, 2] : List Nat).prod ∧
      ([2, 2] : List Nat).prod = ([1, 2, 3, 4] : List F32).length) :=
  construct_wraps_product.2.2.2.2.2.2.2 [2, 2] [1, 2, 3, 4] (by decide) (by decide)

/-! ## The invariants hold for what the constructors build -/

/-- The scalar constructor establishes the constructor invariant and the data-model
invariant. -/
theorem ofValue_valid (value : F32) :
    (Tensor.ofValue value).Valid ∧ (Tensor.ofValue value).WellFormed := by
  constructor
  · exact ⟨rfl, rfl, rfl⟩
  · refine ⟨rfl, ?_, ?_, ?_, rfl, rfl⟩
    · show ([] : List Nat).length < UINT_MOD
      decide
    · intro d hd
      cases hd
    · show ([] : List Nat).prod < UINT_MOD
      decide

/-- The shape constructor establishes the constructor invariant for every shape of fewer
than `2^32` dimensions. -/
theorem construct_valid (shape : List Nat) (value : List F32) (t : Tensor)
    (hl : shape.length < UINT_MOD) (h : Tensor.construct shape value = .ok t) : t.Valid := by
  unfold Tensor.construct at h
  simp only at h
  split at h
  · cases h
  · rename_i hlen
    cases h
    exact ⟨Nat.mod_eq_of_lt hl, rfl, not_not.mp hlen⟩

/-- The shape constructor establishes the data-model invariant for every shape of
`unsigned int` dimensions whose exact product is below `2^32`. -/
theorem construct_wellFormed (shape : List Nat) (value : List F32) (t : Tensor)
    (hl : shape.length < UINT_MOD) (hd : ∀ d ∈ shape, d < UINT_MOD)
    (hp : shape.prod < UINT_MOD) (h : Tensor.construct shape value = .ok t) :
    t.WellFormed := by
  unfold Tensor.construct at h
  simp only at h
  split at h
  · cases h
  · rename_i hlen
    cases h
    have hv : value.length = accumulate shape := not_not.mp hlen
    rw [accumulate_eq_prod shape hp] at hv
    exact ⟨Nat.mod_eq_of_lt hl, hl, hd, hp, accumulate_eq_prod shape hp, hv⟩

/-! ## Indexing -/

theorem foldl_congr_mem {α β : Type} (f g : α → β → α) (l : List β) (a : α)
    (h : ∀ s, ∀ i ∈ l, f s i = g s i) : l.foldl f a = l.foldl g a := by
  induction l generalizing a with
  | nil => rfl
  | cons x xs ih =>
    simp only [List.foldl_cons]
    rw [h a x (List.mem_cons_self _ _)]
    exact ih _ (fun s i hi => h s i (List.mem_cons_of_mem _ hi))

/-- The counting loop visits the coordinates from the last to the first. -/
theorem indexLoop_eq_loopRec (index shape : List Nat) (accum0 : Nat)
    (hlen : index.length ≤ shape.length) :
    indexLoop index.length index shape accum0 = loopRec index shape (0, accum0) := by
  induction index generalizing shape with
  | nil => simp [indexLoop, loopRec]
  | cons x ps ih =>
    cases shape with
    | nil => simp at hlen
    | cons d ds =>
      have hlen2 : ps.length ≤ ds.length := by simpa using hlen
      have ih2 := ih ds hlen2
      unfold indexLoop at ih2 ⊢
      simp only [List.length_cons, List.range_succ, List.foldl_append, List.foldl_cons,
        List.foldl_nil]
      have hc : (List.range ps.length).foldl
          (fun s i => ((s.1 + s.2 * (x :: ps).getD (ps.length + 1 - i - 1) 0) % SIZE_MOD,
                       (s.2 * (d :: ds).getD (ps.length + 1 - i - 1) 0) % SIZE_MOD))
          (0, accum0)
          = (List.range ps.length).foldl
          (fun s i => ((s.1 + s.2 * ps.getD (ps.length - i - 1) 0) % SIZE_MOD,
                       (s.2 * ds.getD (ps.length - i - 1) 0) % SIZE_MOD))
          (0, accum0) := by
        apply foldl_congr_mem
        intro s i hi
        have hi2 : i < ps.length := List.mem_range.mp hi
        have e : ps.length + 1 - i - 1 = (ps.length - i - 1) + 1 := by omega
        rw [e]
        simp
      rw [hc, ih2]
      simp [loopRec]

theorem inBounds_length {index shape : List Nat} (h : InBounds index shape) :
    index.length ≤ shape.length := by
  induction index generalizing shape with
  | nil => simp
  | cons x ps ih =>
    cases shape with
    | nil => exact absurd h (by simp [InBounds])
    | cons d ds =>
      have := ih h.2
      simpa using this

/-- The coordinate-wise bound in the form used by the statements gives `InBounds`. -/
theorem inBounds_of_getD (index shape : List Nat) (hlen : index.length ≤ shape.length)
    (h : ∀ j, j < index.length → index.getD j 0 < shape.getD j 0) : InBounds index shape := by
  induction index generalizing shape with
  | nil => trivial
  | cons x ps ih =>
    cases shape with
    | nil => simp at hlen
    | cons d ds =>
      refine ⟨?_, ih ds (by simpa using hlen) ?_⟩
      · simpa using h 0 (by simp)
      · intro j hj
        simpa using h (j + 1) (by simpa using hj)

theorem getD_of_inBounds {index shape : List Nat} (h : InBounds index shape) :
    ∀ j, j < index.length → index.getD j 0 < shape.getD j 0 := by
  induction index generalizing shape with
  | nil => intro j hj; simp at hj
  | cons x ps ih =>
    cases shape with
    | nil => exact absurd h (by simp [InBounds])
    | cons d ds =>
      intro j hj
      cases j with
      | zero => simpa using h.1
      | succ j => simpa using ih h.2 j (by simpa using hj)

/-- With every coordinate in bounds the dimensions under the coordinates are positive,
so dropping them does not enlarge the product. -/
theorem prod_drop_le_of_inBounds {index shape : List Nat} (h : InBounds index shape) :
    (shape.drop index.length).prod ≤ shape.prod := by
  induction index generalizing shape with
  | nil => simp
  | cons x ps ih =>
    cases shape with
    | nil => exact absurd h (by simp [InBounds])
    | cons d ds =>
      have h1 : (ds.drop ps.length).prod ≤ ds.prod := ih h.2
      have hd : 1 ≤ d := by have := h.1; omega
      simp only [List.length_cons, List.drop_succ_cons, List.prod_cons]
      calc (ds.drop ps.length).prod ≤ ds.prod := h1
        _ = 1 * ds.prod := (Nat.one_mul _).symm
        _ ≤ d * ds.prod := Nat.mul_le_mul_right _ hd

/-- Without wrap-around the loop computes the row-major offset and the full product, and
the block of `accum0` elements that starts at the offset ends inside the tensor. -/
theorem loopRec_exact {index shape : List Nat} (h : InBounds index shape)
    (hprod : shape.prod < SIZE_MOD) :
    loopRec index shape (0, (shape.drop index.length).prod)
        = (rowOffset index shape, shape.prod) ∧
      rowOffset index shape + (shape.drop index.length).prod ≤ shape.prod := by
  induction index generalizing shape with
  | nil => simp [loopRec, rowOffset]
  | cons x ps ih =>
    cases shape with
    | nil => exact absurd h (by simp [InBounds])
    | cons d ds =>
      obtain ⟨hx, hps⟩ := h
      have hd : 1 ≤ d := by omega
      have hds : ds.prod ≤ d * ds.prod := by
        calc ds.prod = 1 * ds.prod := (Nat.one_mul _).symm
          _ ≤ d * ds.prod := Nat.mul_le_mul_right _ hd
      have hprod2 : d * ds.prod < SIZE_MOD := by simpa using hprod
      obtain ⟨e, b⟩ := ih hps (lt_of_le_of_lt hds hprod2)
      have hx1 : (x + 1) * ds.prod ≤ d * ds.prod := Nat.mul_le_mul_right _ hx
      have hx2 : (x + 1) * ds.prod = x * ds.prod + ds.prod := by ring
      simp only [List.length_cons, List.drop_succ_cons, List.prod_cons, loopRec, rowOffset]
      rw [e]
      simp only
      have hb : rowOffset ps ds + ds.prod * x < SIZE_MOD := by
        have : ds.prod * x = x * ds.prod := Nat.mul_comm _ _
        have : 0 ≤ (List.drop ps.length ds).prod := Nat.zero_le _
        omega
      have hb2 : ds.prod * d < SIZE_MOD := by rw [Nat.mul_comm]; exact hprod2
      rw [Nat.mod_eq_of_lt hb, Nat.mod_eq_of_lt hb2]
      refine ⟨?_, ?_⟩
      · rw [Nat.mul_comm ds.prod x, Nat.mul_comm ds.prod d, Nat.add_comm]
      · omega

/-- The recursive offset is the sum the specification writes. -/
theorem specOffset_eq_rowOffset (p shape : List Nat) (hlen : p.length ≤ shape.length) :
    specOffset p shape = rowOffset p shape := by
  induction p generalizing shape with
  | nil => simp [specOffset, rowOffset]
  | cons x ps ih =>
    cases shape with
    | nil => simp at hlen
    | cons d ds =>
      have ih2 := ih ds (by simpa using hlen)
      unfold specOffset at ih2 ⊢
      rw [List.length_cons, Finset.sum_range_succ']
      simp only [List.getD_cons_succ, List.drop_succ_cons, List.getD_cons_zero, List.drop_zero,
        zero_add, rowOffset]
      rw [ih2, Nat.add_comm]

theorem rowOffset_append (p q shape : List Nat) (hlen : p.length ≤ shape.length) :
    rowOffset (p ++ q) shape = rowOffset p shape + rowOffset q (shape.drop p.length) := by
  induction p generalizing shape with
  | nil => simp [rowOffset]
  | cons x ps ih =>
    cases shape with
    | nil => simp at hlen
    | cons d ds =>
      have ih2 := ih ds (by simpa using hlen)
      show x * ds.prod + rowOffset (ps ++ q) ds
        = x * ds.prod + rowOffset ps ds + rowOffset q (ds.drop ps.length)
      rw [ih2, Nat.add_assoc]

theorem inBounds_append (p q shape : List Nat) :
    InBounds (p ++ q) shape ↔ InBounds p shape ∧ InBounds q (shape.drop p.length) := by
  induction p generalizing shape with
  | nil => simp [InBounds]
  | cons x ps ih =>
    cases shape with
    | nil => simp [InBounds]
    | cons d ds =>
      show x < d ∧ InBounds (ps ++ q) ds
        ↔ (x < d ∧ InBounds ps ds) ∧ InBounds q (ds.drop ps.length)
      rw [ih ds, and_assoc]

theorem construct_of_length (shape : List Nat) (value : List F32)
    (hl : shape.length < UINT_MOD) (hp : shape.prod < UINT_MOD)
    (hv : value.length = shape.prod) :
    Tensor.construct shape value
      = .ok { nDims := shape.length, shape := shape, totalNumOfElements := shape.prod,
              value := value } := by
  unfold Tensor.construct
  simp only [accumulate_eq_prod shape hp]
  rw [if_neg (not_not.mpr hv), Nat.mod_eq_of_lt hl]

/-- On a well-formed tensor `at` succeeds for every non-empty index in bounds and returns
the block described by `subTensor`, which is well-formed again. -/
theorem at_eq_subTensor (t : Tensor) (p : List Nat) (hwf : t.WellFormed)
    (h0 : 0 < p.length) (hb : InBounds p t.shape) :
    t.at p = .ok (subTensor t p) ∧ (subTensor t p).WellFormed := by
  obtain ⟨hn, hl, hd, hp, ht, hv⟩ := hwf
  have hlen : p.length ≤ t.shape.length := inBounds_length hb
  have hdrop : (t.shape.drop p.length).prod ≤ t.shape.prod := prod_drop_le_of_inBounds hb
  have hdp : (t.shape.drop p.length).prod < UINT_MOD := lt_of_le_of_lt hdrop hp
  have hp64 : t.shape.prod < SIZE_MOD := lt_trans hp (by norm_num)
  obtain ⟨hloop, hbound⟩ := loopRec_exact hb hp64
  have hdl : (t.shape.drop p.length).length = t.shape.length - p.length := List.length_drop _ _
  have hdl2 : (t.shape.drop p.length).length < UINT_MOD := by rw [hdl]; omega
  have hslice : ((t.value.drop (rowOffset p t.shape)).take (t.shape.drop p.length).prod).length
      = (t.shape.drop p.length).prod := by
    rw [List.length_take, List.length_drop, hv]
    omega
  refine ⟨?_, ?_⟩
  · unfold Tensor.at
    have c1 : (!(decide (0 < p.length) && decide (p.length ≤ t.nDims))) = false := by
      rw [hn]; simp [h0, hlen]
    simp only [c1, Bool.false_eq_true, if_false]
    have c2 : (t.shape.drop p.length).length = (t.nDims - p.length) % UINT_MOD := by
      rw [hn, hdl, Nat.mod_eq_of_lt (by omega)]
    rw [if_neg (not_not.mpr c2)]
    rw [accumulate_eq_prod _ hdp, indexLoop_eq_loopRec _ _ _ hlen, hloop]
    simp only
    rw [if_neg (by rw [hv]; omega)]
    rw [construct_of_length _ _ hdl2 hdp hslice]
    unfold subTensor
    rw [hn, hdl]
  · refine ⟨?_, hdl2, ?_, hdp, rfl, hslice⟩
    · show t.nDims - p.length = (t.shape.drop p.length).length
      rw [hn, hdl]
    · intro d hmem
      exact hd d (List.mem_of_mem_drop hmem)

theorem checkIndexValidity_iff (t : Tensor) (index : List Nat) :
    t.checkIndexValidity index = true ↔
      index.length = t.nDims ∧ ∀ i, i < t.nDims → index.getD i 0 < t.shape.getD i 0 := by
  unfold Tensor.checkIndexValidity
  by_cases h : index.length = t.nDims
  · simp [h, List.all_eq_true]
  · simp [h]

/-- On a well-formed tensor `operator()` reads, for a full index in bounds, the element at
the row-major offset. -/
theorem operatorCall_eq (t : Tensor) (q : List Nat) (hwf : t.WellFormed)
    (hq : q.length = t.nDims) (hb : InBounds q t.shape) :
    ∃ v, t.value[rowOffset q t.shape]? = some v ∧ t.operatorCall q = .ok v := by
  obtain ⟨hn, hl, hd, hp, ht, hv⟩ := hwf
  have hlen : q.length = t.shape.length := by rw [hq, hn]
  have hp64 : t.shape.prod < SIZE_MOD := lt_trans hp (by norm_num)
  obtain ⟨hloop, hbound⟩ := loopRec_exact hb hp64
  have hdrop : t.shape.drop q.length = [] := by rw [hlen]; simp
  rw [hdrop] at hloop hbound
  simp only [List.prod_nil] at hloop hbound
  have hlt : rowOffset q t.shape < t.value.length := by rw [hv]; omega
  have hvalid : t.checkIndexValidity q = true := by
    rw [checkIndexValidity_iff]
    refine ⟨hq, fun i hi => getD_of_inBounds hb i (by rw [hq]; exact hi)⟩
  refine ⟨t.value[rowOffset q t.shape], List.getElem?_eq_getElem hlt, ?_⟩
  unfold Tensor.operatorCall Tensor.calcInternalIndex
  simp only [hvalid, Bool.not_true, Bool.false_eq_true, if_false]
  rw [← hq, indexLoop_eq_loopRec _ _ _ (le_of_eq hlen), hloop]
  simp only
  rw [List.getElem?_eq_getElem hlt]

/-- On a tensor that satisfies the data-model invariant, `at` succeeds for every
non-empty prefix index `p` whose coordinates are in bounds; the result has the shape of `t`
without its first `len(p)` entries, its values are the contiguous block of
`product(remaining shape)` elements that starts at the flat offset
`sum_j p[j] * prod_{m>j} shape[m]`, and every element `q` of the result is the element
`p ++ q` of `t` as `operator()` reads it.  (`at` is a `const` member: it is a function of
`t` and leaves `t` as it is.) -/
theorem at_prefix_subtensor (t : Tensor) (p : List Nat) (hwf : t.WellFormed)
    (h0 : 0 < p.length) (hle : p.length ≤ t.nDims)
    (hb : ∀ j, j < p.length → p.getD j 0 < t.shape.getD j 0) :
    ∃ r, t.at p = .ok r ∧
      r.nDims = t.nDims - p.length ∧
      r.shape = t.shape.drop p.length ∧
      r.value = (t.value.drop (specOffset p t.shape)).take (t.shape.drop p.length).prod ∧
      r.value.length = (t.shape.drop p.length).prod ∧
      r.totalNumOfElements = (t.shape.drop p.length).prod ∧
      specOffset p t.shape + (t.shape.drop p.length).prod ≤ t.value.length ∧
      (∀ q, q.length = r.nDims → (∀ j, j < q.length → q.getD j 0 < r.shape.getD j 0) →
        ∃ v, r.operatorCall q = .ok v ∧ t.operatorCall (p ++ q) = .ok v) := by
  have hlen : p.length ≤ t.shape.length := by rw [← hwf.1]; exact hle
  have hin : InBounds p t.shape := inBounds_of_getD p t.shape hlen hb
  obtain ⟨hat, hrwf⟩ := at_eq_subTensor t p hwf h0 hin
  have hoff : specOffset p t.shape = rowOffset p t.shape := specOffset_eq_rowOffset p _ hlen
  have hp64 : t.shape.prod < SIZE_MOD := lt_trans hwf.2.2.2.1 (by norm_num)
  have hbound := (loopRec_exact hin hp64).2
  refine ⟨subTensor t p, hat, rfl, rfl, ?_, hrwf.2.2.2.2.2, rfl, ?_, ?_⟩
  · rw [hoff]; rfl
  · rw [hoff, hwf.2.2.2.2.2]; exact hbound
  · intro q hq hqb
    have hqlen : q.length ≤ (subTensor t p).shape.length := by rw [← hrwf.1, hq]
    have hqin : InBounds q (subTensor t p).shape := inBounds_of_getD q _ hqlen hqb
    obtain ⟨v, hv, hcall⟩ := operatorCall_eq (subTensor t p) q hrwf hq hqin
    refine ⟨v, hcall, ?_⟩
    have hpqin : InBounds (p ++ q) t.shape := (inBounds_append p q t.shape).mpr ⟨hin, hqin⟩
    have hpqlen : (p ++ q).length = t.nDims := by
      rw [List.length_append, hq]
      show p.length + (t.nDims - p.length) = t.nDims
      omega
    obtain ⟨w, hw, hcall2⟩ := operatorCall_eq t (p ++ q) hwf hpqlen hpqin
    rw [hcall2]
    have hqbound := (loopRec_exact hqin (lt_trans hrwf.2.2.2.1 (by norm_num))).2
    have hqlt : rowOffset q (t.shape.drop p.length) < (t.shape.drop p.length).prod := by
      have hd : (subTensor t p).shape = t.shape.drop p.length := rfl
      rw [hd] at hqbound
      have hq2 : List.drop q.length (List.drop p.length t.shape) = [] := by
        have : q.length = (List.drop p.length t.shape).length := by
          rw [hq, List.length_drop, ← hwf.1]; rfl
        exact List.drop_eq_nil_of_le (le_of_eq this.symm)
      rw [hq2] at hqbound
      simp only [List.prod_nil] at hqbound
      omega
    have hv2 : (subTensor t p).value[rowOffset q (t.shape.drop p.length)]?
        = t.value[rowOffset p t.shape + rowOffset q (t.shape.drop p.length)]? := by
      show ((t.value.drop (rowOffset p t.shape)).take (t.shape.drop p.length).prod)[
        rowOffset q (t.shape.drop p.length)]? = _
      rw [List.getElem?_take_of_lt hqlt, List.getElem?_drop]
    rw [rowOffset_append p q t.shape hlen] at hw
    have hv3 : (subTensor t p).value[rowOffset q (subTensor t p).shape]? = some v := hv
    have hd : (subTensor t p).shape = t.shape.drop p.length := rfl
    rw [hd, hv2, hw] at hv3
    rw [Option.some.inj hv3]

/-- C9: the tensor `Tensor({65536, 65536}, {})`, which the constructor accepts, and the
prefix index `[0]`: the index is not empty, not longer than `nDims` and its coordinate is
below the dimension, and `at` reads the block of `65536` elements at offset 0 of an empty
`value_` (undefined behaviour) instead of returning a sub-tensor.  On every tensor with
`values.length == elementCount == product(shape)`, the exact product being below `2^32`,
`at` does what the claim says: it succeeds, the result has the shape of `t` without its
first `len(p)` entries, its values are the contiguous block of `product(remaining shape)`
elements that starts at the flat offset `sum_j p[j] * prod_{m>j} shape[m]`, and every element
`q` of the result is the element `p ++ q` of `t` as `operator()` reads it. -/
theorem at_prefix_of_wrapped_shape :
    (wrappedTensor = .ok ⟨2, [65536, 65536], 0, []⟩ ∧
      0 < ([0] : List Nat).length ∧
      ([0] : List Nat).length ≤ (⟨2, [65536, 65536], 0, []⟩ : Tensor).nDims ∧
      (∀ j, j < ([0] : List Nat).length →
        ([0] : List Nat).getD j 0 < (⟨2, [65536, 65536], 0, []⟩ : Tensor).shape.getD j 0) ∧
      Tensor.at ⟨2, [65536, 65536], 0, []⟩ [0] = .error .outOfRange) ∧
    (∀ (t : Tensor) (p : List Nat), t.WellFormed → 0 < p.length → p.length ≤ t.nDims →
      (∀ j, j < p.length → p.getD j 0 < t.shape.getD j 0) →
      ∃ r, t.at p = .ok r ∧
        r.nDims = t.nDims - p.length ∧
        r.shape = t.shape.drop p.length ∧
        r.value = (t.value.drop (specOffset p t.shape)).take (t.shape.drop p.length).prod ∧
        r.value.length = (t.shape.drop p.length).prod ∧
        r.totalNumOfElements = (t.shape.drop p.length).prod ∧
        specOffset p t.shape + (t.shape.drop p.length).prod ≤ t.value.length ∧
        (∀ q, q.length = r.nDims → (∀ j, j < q.length → q.getD j 0 < r.shape.getD j 0) →
          ∃ v, r.operatorCall q = .ok v ∧ t.operatorCall (p ++ q) = .ok v)) :=
  ⟨⟨by decide, by decide, by decide, by decide, by decide⟩,
   fun t p hwf h0 hle hb => at_prefix_subtensor t p hwf h0 hle hb⟩

/-- Witness of C9: the 2x3 tensor `[[1,2,3],[4,5,6]]` and the prefix index `[1]`. -/
theorem at_prefix_of_wrapped_shape_witness :
    ∃ r, (Tensor.mk 2 [2, 3] 6 [1, 2, 3, 4, 5, 6]).at [1] = .ok r ∧
      r.nDims = 2 - 1 ∧
      r.shape = ([2, 3] : List Nat).drop 1 ∧
      r.value = (([1, 2, 3, 4, 5, 6] : List F32).drop (specOffset [1] [2, 3])).take
        (([2, 3] : List Nat).drop 1).prod ∧
      r.value.length = (([2, 3] : List Nat).drop 1).prod ∧
      r.totalNumOfElements = (([2, 3] : List Nat).drop 1).prod ∧
      specOffset [1] [2, 3] + (([2, 3] : List Nat).drop 1).prod
        ≤ ([1, 2, 3, 4, 5, 6] : List F32).length ∧
      (∀ q, q.length = r.nDims → (∀ j, j < q.length → q.getD j 0 < r.shape.getD j 0) →
        ∃ v, r.operatorCall q = .ok v ∧
          (Tensor.mk 2 [2, 3] 6 [1, 2, 3, 4, 5, 6]).operatorCall ([1] ++ q) = .ok v) :=
  at_prefix_of_wrapped_shape.2 (Tensor.mk 2 [2, 3] 6 [1, 2, 3, 4, 5, 6]) [1] (by decide)
    (by decide) (by decide) (by decide)

/-- On a tensor that satisfies the data-model invariant, for non-empty indices `p` and `q`
with `len(p) + len(q) <= nDims` and every coordinate in bounds, `at(p ++ q)` and
`at(p).at(q)` both succeed and return the same tensor; on the 2x2 tensor built from
`[1,2,3,4]`, `at([0]).at([0]).item()` is 1, `at([0]).at([1]).item()` is 2 and
`at([1,1]).item()` is 4. -/
theorem at_append_eq_at_at :
    (∀ (t : Tensor) (p q : List Nat), t.WellFormed → 0 < p.length → 0 < q.length →
      p.length + q.length ≤ t.nDims →
      (∀ j, j < p.length + q.length → (p ++ q).getD j 0 < t.shape.getD j 0) →
      ∃ r s, t.at p = .ok r ∧ r.at q = .ok s ∧ t.at (p ++ q) = .ok s) ∧
    (do let t ← test_Tensor_t1; let u ← t.at [0]; let v ← u.at [0]; v.item) = .ok 1 ∧
    (do let t ← test_Tensor_t1; let u ← t.at [0]; let v ← u.at [1]; v.item) = .ok 2 ∧
    (do let t ← test_Tensor_t1; let u ← t.at [1, 1]; u.item) = .ok 4 := by
  refine ⟨?_, rfl, rfl, rfl⟩
  intro t p q hwf hp0 hq0 hle hb
  have hlen : (p ++ q).length ≤ t.shape.length := by
    rw [List.length_append, ← hwf.1]; exact hle
  have hin : InBounds (p ++ q) t.shape :=
    inBounds_of_getD (p ++ q) t.shape hlen (by rw [List.length_append]; exact hb)
  obtain ⟨hpin, hqin⟩ := (inBounds_append p q t.shape).mp hin
  have hplen : p.length ≤ t.shape.length := inBounds_length hpin
  obtain ⟨hatp, hrwf⟩ := at_eq_subTensor t p hwf hp0 hpin
  obtain ⟨hatq, _⟩ := at_eq_subTensor (subTensor t p) q hrwf hq0 hqin
  obtain ⟨hatpq, _⟩ := at_eq_subTensor t (p ++ q) hwf
    (by rw [List.length_append]; omega) hin
  refine ⟨subTensor t p, subTensor (subTensor t p) q, hatp, hatq, ?_⟩
  rw [hatpq]
  congr 1
  have hqbound := (loopRec_exact hqin (lt_trans hrwf.2.2.2.1 (by norm_num))).2
  unfold subTensor
  simp only [List.length_append, List.drop_drop, rowOffset_append p q t.shape hplen,
    Tensor.mk.injEq]
  refine ⟨by omega, trivial, trivial, ?_⟩
  rw [List.drop_take, List.drop_drop, List.take_take]
  congr 1
  simp only [List.drop_drop] at hqbound
  omega

/-- C10: the tensor `Tensor({65536, 65536}, {})`, which the constructor accepts, with
`p = [0]` and `q = [0]`: both indices are non-empty, `len(p) + len(q) <= nDims` and every
coordinate is below its dimension, and neither `at(p)` nor `at(p ++ q)` returns a tensor:
each reads a block of an empty `value_` (undefined behaviour).  On every tensor with
`values.length == elementCount == product(shape)`, the exact product being below `2^32`,
`at(p ++ q)` and `at(p).at(q)` both succeed and return the same tensor; on the 2x2 tensor
built from `[1,2,3,4]`, `at([0]).at([0]).item()` is 1, `at([0]).at([1]).item()` is 2 and
`at([1,1]).item()` is 4. -/
theorem at_composition_of_wrapped_shape :
    (wrappedTensor = .ok ⟨2, [65536, 65536], 0, []⟩ ∧
      0 < ([0] : List Nat).length ∧
      ([0] : List Nat).length + ([0] : List Nat).length
        ≤ (⟨2, [65536, 65536], 0, []⟩ : Tensor).nDims ∧
      (∀ j, j < ([0] : List Nat).length + ([0] : List Nat).length →
        ([0] ++ [0] : List Nat).getD j 0
          < (⟨2, [65536, 65536], 0, []⟩ : Tensor).shape.getD j 0) ∧
      Tensor.at ⟨2, [65536, 65536], 0, []⟩ [0] = .error .outOfRange ∧
      Tensor.at ⟨2, [65536, 65536], 0, []⟩ ([0] ++ [0]) = .error .outOfRange) ∧
    (∀ (t : Tensor) (p q : List Nat), t.WellFormed → 0 < p.length → 0 < q.length →
      p.length + q.length ≤ t.nDims →
      (∀ j, j < p.length + q.length → (p ++ q).getD j 0 < t.shape.getD j 0) →
      ∃ r s, t.at p = .ok r ∧ r.at q = .ok s ∧ t.at (p ++ q) = .ok s) ∧
    (do let t ← test_Tensor_t1; let u ← t.at [0]; let v ← u.at [0]; v.item) = .ok 1 ∧
    (do let t ← test_Tensor_t1; let u ← t.at [0]; let v ← u.at [1]; v.item) = .ok 2 ∧
    (do let t ← test_Tensor_t1; let u ← t.at [1, 1]; u.item) = .ok 4 :=
  ⟨⟨by decide, by decide, by decide, by decide, by decide, by decide⟩,
   at_append_eq_at_at.1, at_append_eq_at_at.2.1, at_append_eq_at_at.2.2.1,
   at_append_eq_at_at.2.2.2⟩

/-- Witness of C10: the 2x2 tensor of the test program with `p = [1]` and `q = [1]`. -/
theorem at_composition_of_wrapped_shape_witness :
    ∃ r s, (Tensor.mk 2 [2, 2] 4 [1, 2, 3, 4]).at [1] = .ok r ∧ r.at [1] = .ok s ∧
      (Tensor.mk 2 [2, 2] 4 [1, 2, 3, 4]).at ([1] ++ [1]) = .ok s :=
  at_composition_of_wrapped_shape.2.1 (Tensor.mk 2 [2, 2] 4 [1, 2, 3, 4]) [1] [1]
    (by decide) (by decide) (by decide) (by decide) (by decide)

/-! ## The dot chain of the test program -/

/-- C1 (as stated, refuted): the program of `test_autograd.cpp` does not end with
`gradient(a).item() == 4` and `gradient(b).item() == 3`. -/
theorem test_autograd_not_4_3 : ¬ (test_autograd 3 = .ok (4, 3)) := by
  decide

/-- C1 (amended): with leaves `a = 3`, `b = 4`, `c = dot(a, b)`, leaf `d = 5` and
`e = dot(c, d)`, after `backward(e)` the stored gradients are `gradient(a).item() == 20`
and `gradient(b).item() == 15`, for every recursion budget of at least 3. -/
theorem test_autograd_20_15 (n : Nat) : test_autograd (n + 3) = .ok (20, 15) := by
  rfl

/-! ## Failure of the builders -/

theorem addFunctionNode_outcome (g : Graph) (f : Function) (x y : Nat) :
    (g.addFunctionNode f x y).1 = .ok () ∨
      (g.addFunctionNode f x y) = (.error .notRegistered, g) := by
  unfold Graph.addFunctionNode
  split
  · exact Or.inl rfl
  · exact Or.inr rfl

theorem wire_outcome (g : Graph) (f1 f2 : Function) (res : Tensor) (a b : Nat) :
    (∃ c, (Autograd.wire g f1 f2 res a b).1 = .ok c) ∨
      (Autograd.wire g f1 f2 res a b).1 = .error .notRegistered := by
  unfold Autograd.wire
  simp only
  rcases addFunctionNode_outcome (g.addTensorNode res false false).2 f1
      (g.addTensorNode res false false).1 a with h1 | h1
  · rcases hm : (g.addTensorNode res false false).2.addFunctionNode f1
        (g.addTensorNode res false false).1 a with ⟨r1, g1⟩
    rw [hm] at h1
    simp only at h1
    subst h1
    simp only
    rcases addFunctionNode_outcome g1 f2 (g.addTensorNode res false false).1 b with h2 | h2
    · rcases hm2 : g1.addFunctionNode f2 (g.addTensorNode res false false).1 b with ⟨r2, g2⟩
      rw [hm2] at h2
      simp only at h2
      subst h2
      exact Or.inl ⟨_, rfl⟩
    · rw [h2]
      exact Or.inr rfl
  · rw [h1]
    exact Or.inr rfl

theorem mult_eq_wire (g : Graph) (a b : Nat) (ta tb res : Tensor)
    (ha : g.tensorOf a = some ta) (hb : g.tensorOf b = some tb)
    (hs : Tensor.checkShapes ta tb = true) (hf : Mult.forward tb ta = .ok res) :
    Autograd.mult g a b = Autograd.wire g (.Mult b) (.Mult a) res a b := by
  unfold Autograd.mult Autograd.wire
  simp only [ha, hb, hs, hf, Bool.not_true, Bool.false_eq_true, if_false]

theorem dot_eq_wire (g : Graph) (a b : Nat) (ta tb res : Tensor)
    (ha : g.tensorOf a = some ta) (hb : g.tensorOf b = some tb)
    (hn : ¬ ta.nDims < tb.nDims) (hs : Autograd.dotShapesDiffer ta tb = false)
    (hf : Dot.forward tb ta = .ok res) :
    Autograd.dot g a b = Autograd.wire g (.Dot b) (.Dot a) res a b := by
  unfold Autograd.dot Autograd.wire
  simp only [ha, hb, hn, hs, hf, Bool.false_eq_true, if_false]

/-- The ways `mult` can end: unchanged graph, or the registration of the result. -/
theorem mult_cases (g : Graph) (a b : Nat) :
    (Autograd.mult g a b).2 = g ∨ (∃ c, (Autograd.mult g a b).1 = .ok c) ∨
      (Autograd.mult g a b).1 = .error .notRegistered := by
  rcases ha : g.tensorOf a with _ | ta
  · left; unfold Autograd.mult; simp only [ha]
  rcases hb : g.tensorOf b with _ | tb
  · left; unfold Autograd.mult; simp only [ha, hb]
  rcases hs : Tensor.checkShapes ta tb with _ | _
  · left; unfold Autograd.mult; simp [ha, hb, hs]
  rcases hf : Mult.forward tb ta with e | res
  · left; unfold Autograd.mult; simp [ha, hb, hs, hf]
  · right
    rw [mult_eq_wire g a b ta tb res ha hb hs hf]
    exact wire_outcome _ _ _ _ _ _

/-- The ways `dot` can end: unchanged graph, or the registration of the result. -/
theorem dot_cases (g : Graph) (a b : Nat) :
    (Autograd.dot g a b).2 = g ∨ (∃ c, (Autograd.dot g a b).1 = .ok c) ∨
      (Autograd.dot g a b).1 = .error .notRegistered := by
  rcases ha : g.tensorOf a with _ | ta
  · left; unfold Autograd.dot; simp only [ha]
  rcases hb : g.tensorOf b with _ | tb
  · left; unfold Autograd.dot; simp only [ha, hb]
  by_cases hn : ta.nDims < tb.nDims
  · left; unfold Autograd.dot; simp [ha, hb, hn]
  rcases hs : Autograd.dotShapesDiffer ta tb with _ | _
  · rcases hf : Dot.forward tb ta with e | res
    · left; unfold Autograd.dot; simp [ha, hb, hn, hs, hf]
    · right
      rw [dot_eq_wire g a b ta tb res ha hb hn hs hf]
      exact wire_outcome _ _ _ _ _ _
  · left; unfold Autograd.dot; simp [ha, hb, hn, hs]

/-- C7: when `mult` throws its shape error, when `dot` throws one of its two dimension
errors, or when `MakeTensor(shape, values)` throws the number-of-elements error, the graph
after the call is the graph before it: the node lists, every edge list and every gradient
slot are the same. -/
theorem failed_builder_leaves_graph (g : Graph) (a b : Nat) (shape : List Nat)
    (value : List F32) (requiresGrad : Bool) :
    ((Autograd.mult g a b).1 = .error .multShapes → (Autograd.mult g a b).2 = g) ∧
    ((Autograd.dot g a b).1 = .error .dotNDims ∨ (Autograd.dot g a b).1 = .error .dotShapes →
      (Autograd.dot g a b).2 = g) ∧
    ((Autograd.MakeTensor g shape value requiresGrad).1 = .error .numberOfElements →
      (Autograd.MakeTensor g shape value requiresGrad).2 = g) := by
  refine ⟨?_, ?_, ?_⟩
  · intro h
    rcases mult_cases g a b with h1 | ⟨c, h1⟩ | h1
    · exact h1
    · rw [h1] at h; cases h
    · rw [h1] at h; cases h
  · intro h
    rcases dot_cases g a b with h1 | ⟨c, h1⟩ | h1
    · exact h1
    · rw [h1] at h; rcases h with h | h <;> cases h
    · rw [h1] at h; rcases h with h | h <;> cases h
  · intro h
    unfold Autograd.MakeTensor at h ⊢
    rcases hc : Tensor.construct shape value with e | t
    · rfl
    · rw [hc] at h
      cases h

/-- Witness of C7: on three leaves of shapes `[2]`, `[]` and `[3]`, `mult` of the first
two, `dot` of the second with the first, `dot` of the first with the third and
`MakeTensor([2], [1])` all throw and leave the graph as it was. -/
theorem failed_builder_leaves_graph_witness :
    ((Autograd.mult exampleLeaves 0 1).1 = .error .multShapes ∧
      (Autograd.mult exampleLeaves 0 1).2 = exampleLeaves) ∧
    ((Autograd.dot exampleLeaves 1 0).1 = .error .dotNDims ∧
      (Autograd.dot exampleLeaves 1 0).2 = exampleLeaves) ∧
    ((Autograd.dot exampleLeaves 0 2).1 = .error .dotShapes ∧
      (Autograd.dot exampleLeaves 0 2).2 = exampleLeaves) ∧
    ((Autograd.MakeTensor exampleLeaves [2] [1] false).1 = .error .numberOfElements ∧
      (Autograd.MakeTensor exampleLeaves [2] [1] false).2 = exampleLeaves) :=
  ⟨⟨by decide, (failed_builder_leaves_graph exampleLeaves 0 1 [2] [1] false).1 (by decide)⟩,
   ⟨by decide,
    (failed_builder_leaves_graph exampleLeaves 1 0 [2] [1] false).2.1 (Or.inl (by decide))⟩,
   ⟨by decide,
    (failed_builder_leaves_graph exampleLeaves 0 2 [2] [1] false).2.1 (Or.inr (by decide))⟩,
   ⟨by decide, (failed_builder_leaves_graph exampleLeaves 0 1 [2] [1] false).2.2 (by decide)⟩⟩

/-! ## The loops of the operations -/

theorem zipWith_take_right (f : F32 → F32 → F32) (value other : List F32) :
    List.zipWith f value (other.take value.length) = List.zipWith f value other := by
  induction value generalizing other with
  | nil => simp
  | cons x xs ih =>
    cases other with
    | nil => simp
    | cons y ys => simp [ih ys]

/-- The state of `elementLoop` after `k` rounds. -/
theorem elementLoop_rounds (f : F32 → F32 → F32) (value other : List F32) (k : Nat)
    (hk : k ≤ value.length) (hko : k ≤ other.length) :
    (List.range k).foldlM
      (fun v i =>
        match v[i]?, other[i]? with
        | some a, some b => (.ok (v.set i (f a b)) : Except Error (List F32))
        | _, _ => .error .outOfRange)
      value
      = .ok (List.zipWith f (value.take k) (other.take k) ++ value.drop k) := by
  induction k with
  | zero => simp [pure, Except.pure]
  | succ k ih =>
    have hk1 : k < value.length := hk
    have hk2 : k < other.length := hko
    rw [List.range_succ, List.foldlM_append, ih (le_of_lt hk1) (le_of_lt hk2)]
    have hlen : (List.zipWith f (value.take k) (other.take k)).length = k := by
      simp [List.length_zipWith, List.length_take]
      omega
    have hget : (List.zipWith f (value.take k) (other.take k) ++ value.drop k)[k]?
        = some value[k] := by
      rw [List.getElem?_append_right (by rw [hlen]), hlen, Nat.sub_self,
        List.drop_eq_getElem_cons hk1]
      simp
    have hnext : List.zipWith f (value.take (k + 1)) (other.take (k + 1))
        = List.zipWith f (value.take k) (other.take k) ++ [f value[k] other[k]] := by
      rw [List.take_succ, List.take_succ, List.getElem?_eq_getElem hk1,
        List.getElem?_eq_getElem hk2]
      simp only [Option.toList_some]
      rw [List.zipWith_append]
      · rfl
      · simp [List.length_take]; omega
    have hset : (List.zipWith f (value.take k) (other.take k) ++ value.drop k).set k
          (f value[k] other[k])
        = List.zipWith f (value.take (k + 1)) (other.take (k + 1)) ++ value.drop (k + 1) := by
      rw [List.set_append_right _ _ (by rw [hlen]), hlen, Nat.sub_self,
        List.drop_eq_getElem_cons hk1, hnext]
      simp only [List.set_cons_zero, List.append_assoc, List.singleton_append]
    simp only [bind, Except.bind, List.foldlM_cons, List.foldlM_nil, pure, Except.pure]
    rw [hget, List.getElem?_eq_getElem hk2]
    simp only
    rw [hset]

/-- The loop `value[i] = f(value[i], other[i])` runs through when `other` is at least as
long as `value`, and then leaves the position-wise combination. -/
theorem elementLoop_ok (f : F32 → F32 → F32) (value other : List F32)
    (h : value.length ≤ other.length) :
    elementLoop f value other = .ok (List.zipWith f value other) := by
  unfold elementLoop
  rw [elementLoop_rounds f value other value.length (le_refl _) h]
  simp only [List.take_length, List.drop_length, List.append_nil]
  rw [zipWith_take_right]

/-- The loop stops with an out-of-range read when `other` is shorter than `value`. -/
theorem elementLoop_short (f : F32 → F32 → F32) (value other : List F32)
    (h : other.length < value.length) :
    elementLoop f value other = .error .outOfRange := by
  unfold elementLoop
  have e : List.range value.length
      = List.range other.length ++ List.range' other.length (value.length - other.length) := by
    have h1 := List.range'_append_1 0 other.length (value.length - other.length)
    rw [Nat.zero_add] at h1
    rw [List.range_eq_range', List.range_eq_range', h1]
    congr 1
    omega
  rw [e, List.foldlM_append, elementLoop_rounds f value other other.length (le_of_lt h)
    (le_refl _)]
  obtain ⟨m, hm⟩ : ∃ m, value.length - other.length = m + 1 := ⟨value.length - other.length - 1, by omega⟩
  rw [hm, List.range'_succ]
  simp only [bind, Except.bind, List.foldlM_cons]
  have hnone : other[other.length]? = none := List.getElem?_eq_none (le_refl _)
  rw [hnone]
  split <;> simp_all

/-- The accumulation loop of `Dot::forward` from position `s` on, where `px` and `pm` are
the `s` elements already passed. -/
theorem dotLoop_ok (xs ms : List F32) (h : xs.length ≤ ms.length) :
    ∀ (px pm : List F32) (acc : F32), px.length = pm.length →
    (List.range' px.length xs.length).foldlM
      (fun (res : F32) i =>
        match (px ++ xs)[i]?, (pm ++ ms)[i]? with
        | some a, some b => (.ok (res + a * b) : Except Error F32)
        | _, _ => .error .outOfRange)
      acc
      = .ok (dotAccumulate acc xs ms) := by
  induction xs generalizing ms with
  | nil => intro px pm acc _; simp [dotAccumulate, pure, Except.pure]
  | cons x1 xs ih =>
    intro px pm acc hp
    cases ms with
    | nil => simp at h
    | cons m1 ms =>
      have h2 : xs.length ≤ ms.length := by simpa using h
      have ih2 := ih ms h2 (px ++ [x1]) (pm ++ [m1]) (acc + x1 * m1) (by simp [hp])
      rw [List.length_cons, List.range'_succ]
      simp only [List.foldlM_cons, bind, Except.bind]
      have g1 : (px ++ x1 :: xs)[px.length]? = some x1 := by
        rw [List.getElem?_append_right (le_refl _)]; simp
      have g2 : (pm ++ m1 :: ms)[px.length]? = some m1 := by
        rw [hp, List.getElem?_append_right (le_refl _)]; simp
      rw [g1, g2]
      simp only
      have e1 : px ++ x1 :: xs = (px ++ [x1]) ++ xs := by simp
      have e2 : pm ++ m1 :: ms = (pm ++ [m1]) ++ ms := by simp
      have e3 : (px ++ [x1]).length = px.length + 1 := by simp
      rw [e1, e2, ← e3, ih2]
      simp only [dotAccumulate, List.zipWith_cons_cons, List.foldl_cons]

/-- The reads of the accumulation loop fail, if at all, with an out-of-range access. -/
theorem dotLoop_error (x m : List F32) (l : List Nat) (acc : F32) (e : Error)
    (h : l.foldlM
      (fun (res : F32) i =>
        match x[i]?, m[i]? with
        | some a, some b => (.ok (res + a * b) : Except Error F32)
        | _, _ => .error .outOfRange)
      acc = .error e) : e = .outOfRange := by
  induction l generalizing acc with
  | nil => simp [pure, Except.pure] at h
  | cons i l ih =>
    simp only [List.foldlM_cons, bind, Except.bind] at h
    split at h
    · rename_i err heq
      split at heq
      · cases heq
      · cases heq; cases h; rfl
    · rename_i v heq
      exact ih v h

/-- When it succeeds, `Dot::forward` returns a 0-dimensional tensor; every failure is an
out-of-range read. -/
theorem dotForward_error (m x : Tensor) (e : Error) (h : Dot.forward m x = .error e) :
    e = .outOfRange := by
  unfold Dot.forward at h
  split at h
  · split at h
    · rename_i err heq
      cases h
      exact dotLoop_error _ _ _ _ _ heq
    · cases h
  · cases h; rfl

/-- With at least one element in `x` and at least as many in the captured operand,
`Dot::forward` returns the scalar tensor of the products accumulated from left to right. -/
theorem dotForward_ok (m x : Tensor) (h0 : 0 < x.value.length)
    (h : x.value.length ≤ m.value.length) :
    Dot.forward m x = .ok (Tensor.ofValue (dotValue x.value m.value)) := by
  unfold Dot.forward
  rcases hx : x.value with _ | ⟨x0, xs⟩
  · rw [hx] at h0; simp at h0
  rcases hm : m.value with _ | ⟨m0, ms⟩
  · rw [hx, hm] at h; simp at h
  have hlen : xs.length ≤ ms.length := by rw [hx, hm] at h; simpa using h
  have key := dotLoop_ok xs ms hlen [x0] [m0] (x0 * m0) rfl
  simp only [List.length_singleton, List.singleton_append] at key
  simp only [List.getElem?_cons_zero, List.length_cons, Nat.add_sub_cancel]
  rw [key]
  simp [dotValue]

/-! ## Looking up nodes after the graph operations -/

theorem updateNode_functionNodes (g : Graph) (h : Nat) (f : TensorNode → TensorNode) :
    (g.updateNode h f).functionNodes_ = g.functionNodes_ := by
  unfold Graph.updateNode
  split <;> rfl

theorem updateNode_length (g : Graph) (h : Nat) (f : TensorNode → TensorNode) :
    (g.updateNode h f).tensorNodes_.length = g.tensorNodes_.length := by
  unfold Graph.updateNode
  split
  · simp
  · rfl

theorem updateNode_getElem? (g : Graph) (h : Nat) (f : TensorNode → TensorNode) (j : Nat) :
    (g.updateNode h f).tensorNodes_[j]?
      = if j = h then (g.tensorNodes_[j]?).map f else g.tensorNodes_[j]? := by
  unfold Graph.updateNode
  rcases hh : g.tensorNodes_[h]? with _ | n
  · by_cases hj : j = h
    · subst hj; simp [hh]
    · simp [hj]
  · have hlt : h < g.tensorNodes_.length := by
      rcases List.getElem?_eq_some.mp hh with ⟨hlt, _⟩
      exact hlt
    simp only [List.getElem?_set]
    by_cases hj : j = h
    · subst hj; simp [hh, hlt]
    · have hj2 : ¬ h = j := fun e => hj e.symm
      simp [hj, hj2]

theorem setGrad_functionNodes (g : Graph) (h : Nat) (t : Tensor) :
    (g.setGrad h t).functionNodes_ = g.functionNodes_ :=
  updateNode_functionNodes _ _ _

theorem setGrad_getElem? (g : Graph) (h : Nat) (t : Tensor) (j : Nat) :
    (g.setGrad h t).tensorNodes_[j]?
      = if j = h then (g.tensorNodes_[j]?).map (fun n => { n with grad_ := some t })
        else g.tensorNodes_[j]? :=
  updateNode_getElem? _ _ _ _

theorem setGrad_tensorOf (g : Graph) (h : Nat) (t : Tensor) (j : Nat) :
    (g.setGrad h t).tensorOf j = g.tensorOf j := by
  unfold Graph.tensorOf
  rw [setGrad_getElem?]
  by_cases hj : j = h
  · rw [if_pos hj]
    rcases g.tensorNodes_[j]? with _ | n <;> rfl
  · rw [if_neg hj]

theorem tensorOf_eq_some {g : Graph} {h : Nat} {t : Tensor} (ht : g.tensorOf h = some t) :
    ∃ n, g.tensorNodes_[h]? = some n ∧ n.tensor_ = t ∧ h < g.tensorNodes_.length := by
  unfold Graph.tensorOf at ht
  rcases hn : g.tensorNodes_[h]? with _ | n
  · rw [hn] at ht; cases ht
  · rw [hn] at ht
    rcases List.getElem?_eq_some.mp hn with ⟨hlt, _⟩
    exact ⟨n, rfl, Option.some.inj ht, hlt⟩

theorem addFunctionNode_ok (g : Graph) (f : Function) (x y : Nat)
    (hx : x < g.tensorNodes_.length) (hy : y < g.tensorNodes_.length) :
    g.addFunctionNode f x y = (.ok (), (g.addFunctionNode f x y).2) ∧
    (g.addFunctionNode f x y).2.functionNodes_
      = g.functionNodes_ ++ [(⟨f, x, y⟩ : FunctionNode)] ∧
    (g.addFunctionNode f x y).2.tensorNodes_.length = g.tensorNodes_.length ∧
    ∀ j : Nat, (g.addFunctionNode f x y).2.tensorNodes_[j]?
      = (g.tensorNodes_[j]?).map (fun (nd : TensorNode) =>
          { nd with
            prevFunctions_ := nd.prevFunctions_ ++
              (if j = x then [g.functionNodes_.length] else []),
            nextFunctions_ := nd.nextFunctions_ ++
              (if j = y then [g.functionNodes_.length] else []) }) := by
  unfold Graph.addFunctionNode
  rw [if_pos ⟨hx, hy⟩]
  refine ⟨rfl, ?_, ?_, ?_⟩
  · simp only [updateNode_functionNodes]
  · simp only [updateNode_length]
  · intro j
    simp only [updateNode_getElem?]
    rcases g.tensorNodes_[j]? with _ | nd
    · simp
    · by_cases h1 : j = x
      · subst h1
        by_cases h2 : j = y
        · subst h2; simp
        · simp [h2]
      · by_cases h2 : j = y
        · subst h2; simp [h1]
        · simp [h1, h2]

/-- The graph `wire` leaves when both operands are registered: the result node is last,
has the two new edges as producers and no gradient; every older node keeps everything
but gains the edge as a consumer where it is an operand. -/
theorem wire_spec (g : Graph) (f1 f2 : Function) (res : Tensor) (a b : Nat)
    (ha : a < g.tensorNodes_.length) (hb : b < g.tensorNodes_.length) :
    Autograd.wire g f1 f2 res a b
      = (.ok g.tensorNodes_.length, (Autograd.wire g f1 f2 res a b).2) ∧
    (Autograd.wire g f1 f2 res a b).2.functionNodes_
      = g.functionNodes_ ++
        [(⟨f1, g.tensorNodes_.length, a⟩ : FunctionNode), ⟨f2, g.tensorNodes_.length, b⟩] ∧
    (Autograd.wire g f1 f2 res a b).2.tensorNodes_.length = g.tensorNodes_.length + 1 ∧
    (Autograd.wire g f1 f2 res a b).2.tensorNodes_[g.tensorNodes_.length]?
      = some (⟨res, [], [g.functionNodes_.length, g.functionNodes_.length + 1],
               false, false, none⟩ : TensorNode) ∧
    ∀ j : Nat, j < g.tensorNodes_.length →
      (Autograd.wire g f1 f2 res a b).2.tensorNodes_[j]?
        = (g.tensorNodes_[j]?).map (fun (nd : TensorNode) =>
            { nd with nextFunctions_ := nd.nextFunctions_ ++
                (if j = a then [g.functionNodes_.length] else []) ++
                (if j = b then [g.functionNodes_.length + 1] else []) }) := by
  have hn0 : (g.addTensorNode res false false).1 = g.tensorNodes_.length := rfl
  have ht0 : (g.addTensorNode res false false).2.tensorNodes_
      = g.tensorNodes_ ++ [(⟨res, [], [], false, false, none⟩ : TensorNode)] := rfl
  have hf0 : (g.addTensorNode res false false).2.functionNodes_ = g.functionNodes_ := rfl
  have hl0 : (g.addTensorNode res false false).2.tensorNodes_.length
      = g.tensorNodes_.length + 1 := by rw [ht0]; simp
  obtain ⟨e1, f1', l1, n1⟩ := addFunctionNode_ok (g.addTensorNode res false false).2 f1
    g.tensorNodes_.length a (by rw [hl0]; omega) (by rw [hl0]; omega)
  obtain ⟨e2, f2', l2, n2⟩ := addFunctionNode_ok
    ((g.addTensorNode res false false).2.addFunctionNode f1 g.tensorNodes_.length a).2 f2
    g.tensorNodes_.length b (by rw [l1, hl0]; omega) (by rw [l1, hl0]; omega)
  have hw : Autograd.wire g f1 f2 res a b = (.ok g.tensorNodes_.length,
      (((g.addTensorNode res false false).2.addFunctionNode f1 g.tensorNodes_.length a).2
        |>.addFunctionNode f2 g.tensorNodes_.length b).2) := by
    unfold Autograd.wire
    simp only [hn0]
    rw [e1]
    simp only
    rw [e2]
  rw [hw]
  refine ⟨rfl, ?_, ?_, ?_, ?_⟩
  · simp only [f2', f1', hf0, List.append_assoc, List.singleton_append]
  · simp only [l2, l1, hl0]
  · simp only [n2, n1, ht0, f1', hf0]
    rw [List.getElem?_append_right (le_refl _)]
    have hane : ¬ g.tensorNodes_.length = a := by omega
    have hbne : ¬ g.tensorNodes_.length = b := by omega
    simp [hane, hbne]
  · intro j hj
    simp only [n2, n1, ht0, f1', hf0]
    rw [List.getElem?_append_left hj]
    have hjne : ¬ j = g.tensorNodes_.length := by omega
    rcases g.tensorNodes_[j]? with _ | nd
    · simp
    · simp [hjne]

theorem wire_tensorOf (g : Graph) (f1 f2 : Function) (res : Tensor) (a b : Nat)
    (ha : a < g.tensorNodes_.length) (hb : b < g.tensorNodes_.length) :
    (Autograd.wire g f1 f2 res a b).2.tensorOf g.tensorNodes_.length = some res ∧
    ∀ j : Nat, j < g.tensorNodes_.length →
      (Autograd.wire g f1 f2 res a b).2.tensorOf j = g.tensorOf j := by
  obtain ⟨_, _, _, hn, hj⟩ := wire_spec g f1 f2 res a b ha hb
  refine ⟨?_, ?_⟩
  · unfold Graph.tensorOf; rw [hn]
  · intro j hlt
    unfold Graph.tensorOf
    rw [hj j hlt]
    rcases g.tensorNodes_[j]? with _ | nd <;> rfl

/-! ## Shape checks -/

theorem list_eq_of_getD (l1 l2 : List Nat) (hl : l1.length = l2.length)
    (h : ∀ i, i < l1.length → l1.getD i 0 = l2.getD i 0) : l1 = l2 := by
  apply List.ext_getElem hl
  intro i h1 h2
  have := h i h1
  simpa [List.getD_eq_getElem?_getD, List.getElem?_eq_getElem h1,
    List.getElem?_eq_getElem h2] using this

/-- For tensors that satisfy the constructor invariant `checkShapes` is shape equality. -/
theorem checkShapes_iff (ta tb : Tensor) (hva : ta.Valid) (hvb : tb.Valid) :
    Tensor.checkShapes ta tb = true ↔ ta.shape = tb.shape := by
  unfold Tensor.checkShapes
  constructor
  · intro h
    by_cases hn : ta.nDims = tb.nDims
    · rw [if_neg (not_not.mpr hn)] at h
      rw [List.all_eq_true] at h
      apply list_eq_of_getD
      · rw [← hva.1, ← hvb.1, hn]
      · intro i hi
        have := h i (List.mem_range.mpr (by rw [hva.1]; exact hi))
        simpa using this
    · rw [if_pos hn] at h
      cases h
  · intro h
    have hn : ta.nDims = tb.nDims := by rw [hva.1, hvb.1, h]
    rw [if_neg (not_not.mpr hn), List.all_eq_true]
    intro i _
    rw [h]
    simp

theorem valid_length_eq (ta tb : Tensor) (hva : ta.Valid) (hvb : tb.Valid)
    (h : ta.shape = tb.shape) : ta.value.length = tb.value.length := by
  rw [hva.2.2, hva.2.1, hvb.2.2, hvb.2.1, h]

/-- The validation loop of `dot` compares the shape of `b` with the first `b.nDims`
entries of the shape of `a`. -/
theorem dotShapesDiffer_iff (ta tb : Tensor) (hva : ta.Valid) (hvb : tb.Valid)
    (hn : ¬ ta.nDims < tb.nDims) :
    Autograd.dotShapesDiffer ta tb = true ↔ ta.shape.take tb.nDims ≠ tb.shape := by
  have hle : tb.nDims ≤ ta.shape.length := by rw [← hva.1]; omega
  have hlen : (ta.shape.take tb.nDims).length = tb.shape.length := by
    rw [List.length_take, ← hvb.1]; omega
  unfold Autograd.dotShapesDiffer
  rw [← not_iff_not]
  simp only [Bool.not_eq_true, List.any_eq_false, not_not, List.mem_range,
    decide_eq_true_eq]
  constructor
  · intro h
    apply list_eq_of_getD _ _ hlen
    intro j hj
    have hj2 : j < tb.nDims := by rw [hlen, ← hvb.1] at hj; exact hj
    have := h (tb.nDims - j - 1) (by omega)
    have e : tb.nDims - (tb.nDims - j - 1) - 1 = j := by omega
    rw [e] at this
    simp only [List.getD_eq_getElem?_getD] at this ⊢
    rw [List.getElem?_take_of_lt hj2]
    exact this
  · intro h i hi
    have hlt : tb.nDims - i - 1 < tb.nDims := by omega
    rw [← h]
    simp only [List.getD_eq_getElem?_getD]
    rw [List.getElem?_take_of_lt hlt]

/-! ## The builders `dot` and `mult` -/

/-- C3 (as stated, refuted): for `a` of shape `[2,3]` and `b` of shape `[3]` the last entry
of the shape of `a` is the shape of `b` and `a.nDims >= b.nDims`, yet `dot(a, b)` throws the
shape error of its validation loop. -/
theorem dot_trailing_aligned_counterexample :
    ¬ (((Autograd.dot (exampleMatrixVector [2, 3]) 0 1).1 = .error .dotNDims ∨
        (Autograd.dot (exampleMatrixVector [2, 3]) 0 1).1 = .error .dotShapes) ↔
       specDotMismatch (Tensor.mk 2 [2, 3] 6 [1, 2, 3, 4, 5, 6]) (Tensor.mk 1 [3] 3 [1, 2, 3])) := by
  decide

/-- C3 (amended): for registered tensors `a` and `b`, `dot(a, b)` throws one of its two
dimension errors exactly when `a.nDims < b.nDims` or the first `b.nDims` entries of the
shape of `a` differ from the shape of `b` (the loop compares both shapes at the same
position); when neither holds and `a` has at least one element and `b` at least as many
as `a`, the call succeeds.  For `a` of shape `[3,2]` and `b` of shape `[3]` the validation
passes (and `Dot::forward` then reads past the end of `b`); for `a` of shape `[2,3]` and
`b` of shape `[3]` the shape error is thrown. -/
theorem dot_validation_leading_aligned :
    (∀ (g : Graph) (a b : Nat) (ta tb : Tensor),
      g.tensorOf a = some ta → g.tensorOf b = some tb → ta.Valid → tb.Valid →
      ((((Autograd.dot g a b).1 = .error .dotNDims ∨
          (Autograd.dot g a b).1 = .error .dotShapes) ↔
        (ta.nDims < tb.nDims ∨ ta.shape.take tb.nDims ≠ tb.shape)) ∧
       (¬ (ta.nDims < tb.nDims ∨ ta.shape.take tb.nDims ≠ tb.shape) →
        0 < ta.value.length → ta.value.length ≤ tb.value.length →
        ∃ c g1, Autograd.dot g a b = (.ok c, g1)))) ∧
    (Autograd.dot (exampleMatrixVector [3, 2]) 0 1).1 = .error .outOfRange ∧
    (Autograd.dot (exampleMatrixVector [2, 3]) 0 1).1 = .error .dotShapes := by
  refine ⟨?_, by decide, by decide⟩
  intro g a b ta tb ha hb hva hvb
  obtain ⟨_, _, _, halt⟩ := tensorOf_eq_some ha
  obtain ⟨_, _, _, hblt⟩ := tensorOf_eq_some hb
  by_cases hn : ta.nDims < tb.nDims
  · have hd : Autograd.dot g a b = (.error .dotNDims, g) := by
      unfold Autograd.dot; simp only [ha, hb, if_pos hn]
    refine ⟨?_, fun h => absurd (Or.inl hn) h⟩
    rw [hd]
    exact ⟨fun _ => Or.inl hn, fun _ => Or.inl rfl⟩
  · rcases hs : Autograd.dotShapesDiffer ta tb with _ | _
    · have hne : ¬ ta.shape.take tb.nDims ≠ tb.shape := by
        rw [← dotShapesDiffer_iff ta tb hva hvb hn, hs]; simp
      have hcond : ¬ (ta.nDims < tb.nDims ∨ ta.shape.take tb.nDims ≠ tb.shape) := by
        rintro (h | h)
        · exact hn h
        · exact hne h
      constructor
      · constructor
        · intro h
          exfalso
          rcases hf : Dot.forward tb ta with e | res
          · have he := dotForward_error tb ta e hf
            have hd : Autograd.dot g a b = (.error e, g) := by
              unfold Autograd.dot
              simp only [ha, hb, if_neg hn, hs, hf, Bool.false_eq_true, if_false]
            rw [hd, he] at h
            rcases h with h | h <;> cases h
          · rw [dot_eq_wire g a b ta tb res ha hb hn hs hf,
              (wire_spec g _ _ res a b halt hblt).1] at h
            rcases h with h | h <;> cases h
        · intro h; exact absurd h hcond
      · intro _ h0 hle
        rw [dot_eq_wire g a b ta tb _ ha hb hn hs (dotForward_ok tb ta h0 hle),
          (wire_spec g _ _ _ a b halt hblt).1]
        exact ⟨_, _, rfl⟩
    · have hne : ta.shape.take tb.nDims ≠ tb.shape :=
        (dotShapesDiffer_iff ta tb hva hvb hn).mp hs
      have hd : Autograd.dot g a b = (.error .dotShapes, g) := by
        unfold Autograd.dot; simp only [ha, hb, if_neg hn, hs, if_true]
      refine ⟨?_, fun h => absurd (Or.inr hne) h⟩
      rw [hd]
      exact ⟨fun _ => Or.inr hne, fun _ => Or.inr rfl⟩

/-- Witness of C3: on the vectors `[2,3]` and `[4,5]` of shape `[2]` the loop compares one
entry, the validation passes and `dot` succeeds; on `a` of shape `[2,3]` and `b` of shape
`[3]` the loop compares `a.shape[0] = 2` with `b.shape[0] = 3` and the shape error is
thrown; on `a` of shape `[3,2]` and `b` of shape `[3]` it compares 3 with 3 and no
dimension error is thrown. -/
theorem dot_validation_leading_aligned_witness :
    (∃ c g1, Autograd.dot exampleVectors 0 1 = (.ok c, g1)) ∧
    (((Autograd.dot (exampleMatrixVector [2, 3]) 0 1).1 = .error .dotNDims ∨
        (Autograd.dot (exampleMatrixVector [2, 3]) 0 1).1 = .error .dotShapes) ∧
      ((2 : Nat) < 1 ∨ ([2, 3] : List Nat).take 1 ≠ [3])) ∧
    (¬ ((Autograd.dot (exampleMatrixVector [3, 2]) 0 1).1 = .error .dotNDims ∨
        (Autograd.dot (exampleMatrixVector [3, 2]) 0 1).1 = .error .dotShapes) ∧
      ¬ ((2 : Nat) < 1 ∨ ([3, 2] : List Nat).take 1 ≠ [3])) :=
  ⟨(dot_validation_leading_aligned.1 exampleVectors 0 1 (Tensor.mk 1 [2] 2 [2, 3])
      (Tensor.mk 1 [2] 2 [4, 5]) rfl rfl (by decide) (by decide)).2
      (by decide) (by decide) (by decide),
   ⟨(dot_validation_leading_aligned.1 (exampleMatrixVector [2, 3]) 0 1
      (Tensor.mk 2 [2, 3] 6 [1, 2, 3, 4, 5, 6]) (Tensor.mk 1 [3] 3 [1, 2, 3]) rfl rfl
      (by decide) (by decide)).1.mpr (by decide), by decide⟩,
   ⟨fun h => absurd ((dot_validation_leading_aligned.1 (exampleMatrixVector [3, 2]) 0 1
      (Tensor.mk 2 [3, 2] 6 [1, 2, 3, 4, 5, 6]) (Tensor.mk 1 [3] 3 [1, 2, 3]) rfl rfl
      (by decide) (by decide)).1.mp h) (by decide), by decide⟩⟩

/-- A finite `float` whose magnitude is the integer `k` has the exact value `k` or `-k`. -/
theorem toRat_of_magnitude (s : Bool) (e : Fin 255) (f : Fin 8388608) (k : Nat)
    (h : F32.magnitude e f = k * 2 ^ 149) :
    F32.toRat (.finite s e f) = some ((if s then -1 else 1) * (k : ℚ)) := by
  simp only [F32.toRat, h]
  congr 1
  push_cast
  rw [mul_div_assoc, mul_div_assoc]
  norm_num

/-- C4 (as stated, refuted): for the leaves `a = [16777216, 1]` and `b = [1, 1]` the sum of
products in exact arithmetic is `16777217`; `dot(a, b)` holds the `float` `16777216`, the
sum `16777216 + 1` rounded to the nearest `float` (a tie, resolved to the even one). -/
theorem dot_exact_sum_counterexample :
    Autograd.dot exampleLargeVectors 0 1
      = (.ok 2, (Autograd.dot exampleLargeVectors 0 1).2) ∧
    (Autograd.dot exampleLargeVectors 0 1).2.tensorOf 2 = some (Tensor.ofValue 16777216) ∧
    F32.toRat 16777216 = some 16777216 ∧
    specDotSum [16777216, 1] [1, 1] = some 16777217 ∧
    ¬ (∃ c g1 v, Autograd.dot exampleLargeVectors 0 1 = (.ok c, g1) ∧
        g1.tensorOf c = some (Tensor.ofValue v) ∧
        v.toRat = specDotSum [16777216, 1] [1, 1]) := by
  have h1 : Autograd.dot exampleLargeVectors 0 1
      = (.ok 2, (Autograd.dot exampleLargeVectors 0 1).2) := by decide
  have h2 : (Autograd.dot exampleLargeVectors 0 1).2.tensorOf 2
      = some (Tensor.ofValue 16777216) := by decide
  have e1 : (16777216 : F32) = .finite false 151 0 := by decide
  have e2 : (1 : F32) = .finite false 127 0 := by decide
  have h3 : F32.toRat 16777216 = some 16777216 := by
    rw [e1, toRat_of_magnitude false 151 0 16777216 (by decide)]
    simp
  have h4 : specDotSum [16777216, 1] [1, 1] = some 16777217 := by
    rw [e1, e2]
    simp only [specDotSum, List.zipWith_cons_cons, List.zipWith_nil_right, List.foldr_cons,
      List.foldr_nil, toRat_of_magnitude false 151 0 16777216 (by decide),
      toRat_of_magnitude false 127 0 1 (by decide)]
    norm_num
  refine ⟨h1, h2, h3, h4, ?_⟩
  rintro ⟨c, g1, v, hd, ht, hv⟩
  rw [h1] at hd
  have hc : c = 2 := by
    have := congrArg Prod.fst hd
    simp only [Except.ok.injEq] at this
    exact this.symm
  have hg : g1 = (Autograd.dot exampleLargeVectors 0 1).2 := (congrArg Prod.snd hd).symm
  subst hc hg
  rw [h2] at ht
  have hvv : v = 16777216 := by
    have := Option.some.inj ht
    simp only [Tensor.ofValue, Tensor.mk.injEq, List.cons.injEq, and_true, true_and] at this
    exact this.symm
  subst hvv
  rw [h3, h4] at hv
  have := Option.some.inj hv
  norm_num at this

/-- C4 (amended): for registered tensors `a` and `b` of identical shape with at least one
element, `dot(a, b)` returns a tensor with `nDims = 0`, empty shape and one element,
registered under the returned handle; the element is `a[0] * b[0]` with the later products
`a[i] * b[i]` added from left to right, every product and every sum being a `float`
operation that rounds to nearest; the tensors of both operands are the same after the
call; the scalars 3 and 4 give 12, and 12 and 5 give 60. -/
theorem dot_forward_value :
    (∀ (g : Graph) (a b : Nat) (ta tb : Tensor),
      g.tensorOf a = some ta → g.tensorOf b = some tb → ta.Valid → tb.Valid →
      ta.shape = tb.shape → 0 < ta.value.length →
      ∃ c g1, Autograd.dot g a b = (.ok c, g1) ∧
        g1.tensorOf c = some { nDims := 0, shape := [], totalNumOfElements := 1,
                               value := [dotValue ta.value tb.value] } ∧
        g1.tensorOf a = some ta ∧ g1.tensorOf b = some tb) ∧
    (∀ (x0 m0 : F32) (xs ms : List F32),
      dotValue (x0 :: xs) (m0 :: ms)
        = (List.zipWith (fun x m => x * m) xs ms).foldl (fun res p => res + p) (x0 * m0)) ∧
    Dot.forward (Tensor.ofValue 4) (Tensor.ofValue 3) = .ok (Tensor.ofValue 12) ∧
    Dot.forward (Tensor.ofValue 5) (Tensor.ofValue 12) = .ok (Tensor.ofValue 60) := by
  refine ⟨?_, fun _ _ _ _ => rfl, by decide, by decide⟩
  intro g a b ta tb ha hb hva hvb hshape h0
  obtain ⟨_, _, _, halt⟩ := tensorOf_eq_some ha
  obtain ⟨_, _, _, hblt⟩ := tensorOf_eq_some hb
  have hlen := valid_length_eq ta tb hva hvb hshape
  have hnd : ta.nDims = tb.nDims := by rw [hva.1, hvb.1, hshape]
  have hn : ¬ ta.nDims < tb.nDims := by omega
  have hs : Autograd.dotShapesDiffer ta tb = false := by
    rcases h : Autograd.dotShapesDiffer ta tb with _ | _
    · rfl
    · have := (dotShapesDiffer_iff ta tb hva hvb hn).mp h
      exfalso
      apply this
      rw [hshape, hvb.1, List.take_length]
  have hf := dotForward_ok tb ta h0 (le_of_eq hlen)
  obtain ⟨hw, _⟩ := wire_spec g (.Dot b) (.Dot a) _ a b halt hblt
  obtain ⟨hres, hold⟩ := wire_tensorOf g (.Dot b) (.Dot a)
    (Tensor.ofValue (dotValue ta.value tb.value)) a b halt hblt
  rw [dot_eq_wire g a b ta tb _ ha hb hn hs hf, hw]
  refine ⟨_, _, rfl, hres, ?_, ?_⟩
  · rw [hold a halt, ha]
  · rw [hold b hblt, hb]

/-- Witness of C4: the leaves `[2,3]` and `[4,5]` of shape `[2]`, whose `dot` is
`2 * 4 + 3 * 5 = 23`. -/
theorem dot_forward_value_witness :
    (∃ c g1, Autograd.dot exampleVectors 0 1 = (.ok c, g1) ∧
      g1.tensorOf c = some { nDims := 0, shape := [], totalNumOfElements := 1,
                             value := [dotValue [2, 3] [4, 5]] } ∧
      g1.tensorOf 0 = some (Tensor.mk 1 [2] 2 [2, 3]) ∧
      g1.tensorOf 1 = some (Tensor.mk 1 [2] 2 [4, 5])) ∧
    dotValue [2, 3] [4, 5] = 2 * 4 + 3 * 5 ∧ dotValue [2, 3] [4, 5] = 23 :=
  ⟨dot_forward_value.1 exampleVectors 0 1 (Tensor.mk 1 [2] 2 [2, 3])
    (Tensor.mk 1 [2] 2 [4, 5]) rfl rfl (by decide) (by decide) rfl (by decide),
   dot_forward_value.2.1 2 4 [3] [5], by decide⟩

/-- C5: for registered tensors `a` and `b`, `mult(a, b)` throws its shape error exactly
when `checkShapes(a, b)` is false, that is when the shapes differ; otherwise it returns a
tensor with the shape of `a` whose `i`-th flat value is `a[i] * b[i]` for every position,
and the node registered for it is not a leaf. -/
theorem mult_forward_and_failure (g : Graph) (a b : Nat) (ta tb : Tensor)
    (ha : g.tensorOf a = some ta) (hb : g.tensorOf b = some tb)
    (hva : ta.Valid) (hvb : tb.Valid) :
    ((Autograd.mult g a b).1 = .error .multShapes ↔ Tensor.checkShapes ta tb = false) ∧
    (Tensor.checkShapes ta tb = false ↔
      (ta.nDims ≠ tb.nDims ∨ ∃ i, i < ta.nDims ∧ ta.shape.getD i 0 ≠ tb.shape.getD i 0)) ∧
    (Tensor.checkShapes ta tb = true →
      ∃ c g1 node, Autograd.mult g a b = (.ok c, g1) ∧
        g1.tensorNodes_[c]? = some node ∧ node.isLeaf_ = false ∧
        node.tensor_.nDims = ta.nDims ∧ node.tensor_.shape = ta.shape ∧
        node.tensor_.totalNumOfElements = ta.totalNumOfElements ∧
        node.tensor_.value.length = ta.value.length ∧
        tb.value.length = ta.value.length ∧
        node.tensor_.value = List.zipWith (fun x y => x * y) ta.value tb.value ∧
        ∀ (i : Nat) (x y : F32), ta.value[i]? = some x → tb.value[i]? = some y →
          node.tensor_.value[i]? = some (x * y)) := by
  obtain ⟨_, _, _, halt⟩ := tensorOf_eq_some ha
  obtain ⟨_, _, _, hblt⟩ := tensorOf_eq_some hb
  have hsucc : Tensor.checkShapes ta tb = true →
      ta.value.length = tb.value.length ∧
      Autograd.mult g a b = Autograd.wire g (.Mult b) (.Mult a)
        { ta with value := List.zipWith (fun x y => x * y) ta.value tb.value } a b := by
    intro hs
    have hshape := (checkShapes_iff ta tb hva hvb).mp hs
    have hlen := valid_length_eq ta tb hva hvb hshape
    have hf : Mult.forward tb ta
        = .ok { ta with value := List.zipWith (fun x y => x * y) ta.value tb.value } := by
      unfold Mult.forward
      rw [elementLoop_ok _ _ _ (le_of_eq hlen)]
    exact ⟨hlen, mult_eq_wire g a b ta tb _ ha hb hs hf⟩
  refine ⟨?_, ?_, ?_⟩
  · constructor
    · intro h
      rcases hs : Tensor.checkShapes ta tb with _ | _
      · rfl
      · rw [(hsucc hs).2, (wire_spec g _ _ _ a b halt hblt).1] at h
        cases h
    · intro hs
      unfold Autograd.mult
      simp [ha, hb, hs]
  · unfold Tensor.checkShapes
    by_cases hn : ta.nDims = tb.nDims
    · rw [if_neg (not_not.mpr hn)]
      simp only [List.all_eq_false, List.mem_range, hn, ne_eq, not_true_eq_false, false_or]
      constructor
      · rintro ⟨i, hi, h⟩
        exact ⟨i, hi, by simpa using h⟩
      · rintro ⟨i, hi, h⟩
        exact ⟨i, hi, by simpa using h⟩
    · rw [if_pos hn]
      simp [hn]
  · intro hs
    obtain ⟨hlen, hm⟩ := hsucc hs
    obtain ⟨hw, _, _, hnode, _⟩ := wire_spec g (.Mult b) (.Mult a)
      { ta with value := List.zipWith (fun x y => x * y) ta.value tb.value } a b halt hblt
    rw [hm, hw]
    refine ⟨_, _, _, rfl, hnode, rfl, rfl, rfl, rfl, ?_, hlen.symm, rfl, ?_⟩
    · simp [List.length_zipWith, hlen]
    · intro i x y hx hy
      simp only [List.getElem?_zipWith, hx, hy]

/-- Witness of C5: the leaves `[2,3]` and `[4,5]` of shape `[2]`. -/
theorem mult_forward_and_failure_witness :
    ∃ c g1 node, Autograd.mult exampleVectors 0 1 = (.ok c, g1) ∧
      g1.tensorNodes_[c]? = some node ∧ node.isLeaf_ = false ∧
      node.tensor_.value = List.zipWith (fun x y => x * y) [2, 3] [4, 5] := by
  obtain ⟨c, g1, node, h1, h2, h3, _, _, _, _, _, h4, _⟩ :=
    (mult_forward_and_failure exampleVectors 0 1 (Tensor.mk 1 [2] 2 [2, 3])
      (Tensor.mk 1 [2] 2 [4, 5]) rfl rfl (by decide) (by decide)).2.2 (by decide)
  exact ⟨c, g1, node, h1, h2, h3, h4⟩

/-! ## The backward walk -/

theorem onesLoop_rounds (l : List F32) (k : Nat) (hk : k ≤ l.length) :
    (List.range k).foldl (fun v i => v.set i 1) l = List.replicate k 1 ++ l.drop k := by
  induction k with
  | zero => simp
  | succ k ih =>
    have hk1 : k < l.length := hk
    rw [List.range_succ, List.foldl_append, ih (le_of_lt hk1)]
    simp only [List.foldl_cons, List.foldl_nil]
    rw [List.set_append_right _ _ (by simp), List.length_replicate, Nat.sub_self,
      List.drop_eq_getElem_cons hk1, List.replicate_succ']
    simp only [List.set_cons_zero, List.append_assoc, List.singleton_append]

/-- The seed of `calcGradients` has the shape of the tensor and the value 1 everywhere. -/
theorem onesAs_eq (t : Tensor) :
    t.onesAs = { t with value := List.replicate t.value.length 1 } := by
  unfold Tensor.onesAs
  rw [onesLoop_rounds t.value t.value.length (le_refl _)]
  simp

theorem zipWith_snd (x m : List F32) (h : x.length = m.length) :
    List.zipWith (fun _ b => b) x m = m := by
  induction x generalizing m with
  | nil =>
    cases m with
    | nil => rfl
    | cons y ys => simp at h
  | cons a xs ih =>
    cases m with
    | nil => simp at h
    | cons y ys =>
      simp only [List.zipWith_cons_cons]
      rw [ih ys (by simpa using h)]

/-- With operands of equal length the backward step of `Mult` returns a copy of `x` that
holds the values of the captured operand. -/
theorem multBackward_eq (m x : Tensor) (h : x.value.length = m.value.length) :
    Mult.backward m x = .ok { x with value := m.value } := by
  unfold Mult.backward
  rw [elementLoop_ok _ _ _ (le_of_eq h), zipWith_snd _ _ h]

/-- With operands of equal length the backward step of `Dot` returns a copy of `x` that
holds the values of the captured operand. -/
theorem dotBackward_eq (m x : Tensor) (h : x.value.length = m.value.length) :
    Dot.backward m x = .ok { x with value := m.value } := by
  unfold Dot.backward
  rw [elementLoop_ok _ _ _ (le_of_eq h), zipWith_snd _ _ h]

/-- Scaling by a gradient whose first element is 1 changes nothing. -/
theorem scaleFirst_one (t grad : Tensor) (h0 : 0 < t.value.length)
    (hg : grad.value[0]? = some 1) : scaleFirst t grad = .ok t := by
  unfold scaleFirst
  rcases hv : t.value with _ | ⟨v0, vs⟩
  · rw [hv] at h0; simp at h0
  · rw [hg]
    simp only [List.getElem?_cons_zero, List.set_cons_zero, F32.mul_one]
    congr 1
    cases t
    simp only at hv
    subst hv
    rfl

/-- The walk returns at once at a leaf. -/
theorem calcGradientsImpl_leaf (fuel : Nat) (g : Graph) (h : Nat) (grad : Tensor)
    (n : TensorNode) (hn : g.tensorNodes_[h]? = some n) (hl : n.isLeaf_ = true) :
    Graph.calcGradientsImpl (fuel + 1) g h grad = (.ok (), g) := by
  unfold Graph.calcGradientsImpl
  simp only [hn, hl, if_true]

/-- One round of the loop of the walk for an edge whose input is a leaf: the gradient of
the input is assigned and the recursive call returns at once. -/
theorem edgeStep_leaf (fuel : Nat) (g : Graph) (grad : Tensor) (fid : Nat)
    (fn : FunctionNode) (x newGrad0 newGrad : Tensor) (pnode : TensorNode)
    (hfn : g.functionNodes_[fid]? = some fn)
    (hx : g.tensorNodes_[fn.prevTensor_]? = some pnode) (hxt : pnode.tensor_ = x)
    (hl : pnode.isLeaf_ = true)
    (hback : fn.f_.backward g x = .ok newGrad0)
    (hscale : scaleFirst newGrad0 grad = .ok newGrad) :
    Graph.edgeStep (fun g1 h t => Graph.calcGradientsImpl (fuel + 1) g1 h t) grad
        (.ok (), g) fid
      = (.ok (), g.setGrad fn.prevTensor_ newGrad) := by
  have htx : g.tensorOf fn.prevTensor_ = some x := by
    unfold Graph.tensorOf; rw [hx]; simp only [hxt]
  unfold Graph.edgeStep
  simp only [hfn, FunctionNode.backward, htx, hback, hscale]
  apply calcGradientsImpl_leaf fuel _ _ _ { pnode with grad_ := some newGrad }
  · rw [setGrad_getElem?, if_pos rfl, hx]; rfl
  · exact hl

theorem calcGradientsImpl_nonleaf (fuel : Nat) (g : Graph) (h : Nat) (grad : Tensor)
    (n : TensorNode) (hn : g.tensorNodes_[h]? = some n) (hl : n.isLeaf_ = false) :
    Graph.calcGradientsImpl (fuel + 1) g h grad
      = n.prevFunctions_.foldl
          (Graph.edgeStep (fun g1 h t => Graph.calcGradientsImpl fuel g1 h t) grad)
          (.ok (), g) := by
  rw [Graph.calcGradientsImpl]
  simp only [hn, hl, Bool.false_eq_true, if_false]

/-- Assigning a gradient keeps a node in place with its tensor, flags and edges. -/
theorem setGrad_node (g : Graph) (h : Nat) (t : Tensor) (j : Nat) (n : TensorNode)
    (hn : g.tensorNodes_[j]? = some n) :
    ∃ n1, (g.setGrad h t).tensorNodes_[j]? = some n1 ∧ n1.tensor_ = n.tensor_ ∧
      n1.isLeaf_ = n.isLeaf_ ∧ n1.prevFunctions_ = n.prevFunctions_ ∧
      n1.grad_ = if j = h then some t else n.grad_ := by
  rw [setGrad_getElem?, hn]
  by_cases hj : j = h
  · rw [if_pos hj, if_pos hj]; exact ⟨_, rfl, rfl, rfl, rfl, rfl⟩
  · rw [if_neg hj, if_neg hj]; exact ⟨_, rfl, rfl, rfl, rfl, rfl⟩

theorem getGradient_of_node (g : Graph) (j : Nat) (n : TensorNode)
    (hn : g.tensorNodes_[j]? = some n) : Autograd.gradient g j = .ok n.grad_ := by
  unfold Autograd.gradient Graph.getGradient
  rw [hn]

/-- The walk over the result of a builder whose two operands are leaves with equally many
values, at least one: the edge for `a` assigns to `a` a copy of its tensor with the values
of `b`, the edge for `b` assigns to `b` a copy of its tensor with the values of `a` (the
seed has the first element 1, which scales nothing), and the later assignment stays. -/
theorem wire_backward_leaves (g : Graph) (a b : Nat) (na nb : TensorNode) (res : Tensor)
    (f1 f2 : Function)
    (hf : (f1 = .Mult b ∧ f2 = .Mult a) ∨ (f1 = .Dot b ∧ f2 = .Dot a))
    (hna : g.tensorNodes_[a]? = some na) (hnb : g.tensorNodes_[b]? = some nb)
    (hla : na.isLeaf_ = true) (hlb : nb.isLeaf_ = true)
    (hlen : na.tensor_.value.length = nb.tensor_.value.length)
    (h0 : 0 < na.tensor_.value.length) (hreslen : 0 < res.value.length) (fuel : Nat) :
    ∃ g2, Autograd.backward (fuel + 2) (Autograd.wire g f1 f2 res a b).2
          g.tensorNodes_.length = (.ok (), g2) ∧
      Autograd.gradient g2 a = .ok (some { na.tensor_ with value := nb.tensor_.value }) ∧
      Autograd.gradient g2 b = .ok (some { nb.tensor_ with value := na.tensor_.value }) := by
  have hta : g.tensorOf a = some na.tensor_ := by unfold Graph.tensorOf; rw [hna]
  have htb : g.tensorOf b = some nb.tensor_ := by unfold Graph.tensorOf; rw [hnb]
  obtain ⟨_, _, _, halt⟩ := tensorOf_eq_some hta
  obtain ⟨_, _, _, hblt⟩ := tensorOf_eq_some htb
  obtain ⟨_, hfns, _, hnode, hold⟩ := wire_spec g f1 f2 res a b halt hblt
  obtain ⟨hres, htold⟩ := wire_tensorOf g f1 f2 res a b halt hblt
  generalize (Autograd.wire g f1 f2 res a b).2 = G at hfns hnode hold hres htold
  unfold Autograd.backward Graph.calcGradients
  rw [hres]
  simp only
  generalize hgr : Tensor.onesAs res = grad
  have hg0 : grad.value[0]? = some 1 := by
    rw [← hgr, onesAs_eq]
    simp only
    rw [List.getElem?_replicate_of_lt hreslen]
  -- the nodes of the graph with the seed assigned
  obtain ⟨n0, hn0, _, hn0l, hn0p, _⟩ := setGrad_node G g.tensorNodes_.length grad _ _ hnode
  have hGa : ∃ pa, G.tensorNodes_[a]? = some pa ∧ pa.tensor_ = na.tensor_ ∧
      pa.isLeaf_ = true := by
    rw [hold a halt, hna]; exact ⟨_, rfl, rfl, hla⟩
  have hGb : ∃ pb, G.tensorNodes_[b]? = some pb ∧ pb.tensor_ = nb.tensor_ ∧
      pb.isLeaf_ = true := by
    rw [hold b hblt, hnb]; exact ⟨_, rfl, rfl, hlb⟩
  obtain ⟨pa, hpa, hpat, hpal⟩ := hGa
  obtain ⟨pb, hpb, hpbt, hpbl⟩ := hGb
  obtain ⟨pa0, hpa0, hpa0t, hpa0l, _, _⟩ := setGrad_node G g.tensorNodes_.length grad _ _ hpa
  obtain ⟨pb0, hpb0, hpb0t, hpb0l, _, _⟩ := setGrad_node G g.tensorNodes_.length grad _ _ hpb
  rw [calcGradientsImpl_nonleaf (fuel + 1) _ _ _ n0 hn0 (by rw [hn0l])]
  rw [hn0p]
  simp only [List.foldl_cons, List.foldl_nil]
  -- first edge: the gradient of `a`
  have hf1 : (G.setGrad g.tensorNodes_.length grad).functionNodes_[g.functionNodes_.length]?
      = some ⟨f1, g.tensorNodes_.length, a⟩ := by
    rw [setGrad_functionNodes, hfns, List.getElem?_append_right (le_refl _)]
    simp
  have hb1 : Function.backward (G.setGrad g.tensorNodes_.length grad) f1 na.tensor_
      = .ok { na.tensor_ with value := nb.tensor_.value } := by
    rcases hf with ⟨e1, _⟩ | ⟨e1, _⟩
    · rw [e1]
      unfold Function.backward
      simp only [setGrad_tensorOf, htold b hblt, htb]
      exact multBackward_eq _ _ hlen
    · rw [e1]
      unfold Function.backward
      simp only [setGrad_tensorOf, htold b hblt, htb]
      exact dotBackward_eq _ _ hlen
  have hs1 : scaleFirst { na.tensor_ with value := nb.tensor_.value } grad
      = .ok { na.tensor_ with value := nb.tensor_.value } :=
    scaleFirst_one _ _ (by show 0 < nb.tensor_.value.length; omega) hg0
  rw [edgeStep_leaf fuel _ grad _ ⟨f1, g.tensorNodes_.length, a⟩ na.tensor_ _ _ pa0
    hf1 hpa0 (by rw [hpa0t, hpat]) (by rw [hpa0l, hpal]) hb1 hs1]
  -- second edge: the gradient of `b`
  obtain ⟨pa1, hpa1, _, _, _, hpa1g⟩ := setGrad_node (G.setGrad g.tensorNodes_.length grad) a
    { na.tensor_ with value := nb.tensor_.value } _ _ hpa0
  obtain ⟨pb1, hpb1, hpb1t, hpb1l, _, _⟩ := setGrad_node (G.setGrad g.tensorNodes_.length grad)
    a { na.tensor_ with value := nb.tensor_.value } _ _ hpb0
  have hf2 : ((G.setGrad g.tensorNodes_.length grad).setGrad a
        { na.tensor_ with value := nb.tensor_.value }).functionNodes_[
          g.functionNodes_.length + 1]?
      = some ⟨f2, g.tensorNodes_.length, b⟩ := by
    rw [setGrad_functionNodes, setGrad_functionNodes, hfns,
      List.getElem?_append_right (by omega)]
    simp
  have hb2 : Function.backward ((G.setGrad g.tensorNodes_.length grad).setGrad a
        { na.tensor_ with value := nb.tensor_.value }) f2 nb.tensor_
      = .ok { nb.tensor_ with value := na.tensor_.value } := by
    rcases hf with ⟨_, e2⟩ | ⟨_, e2⟩
    · rw [e2]
      unfold Function.backward
      simp only [setGrad_tensorOf, htold a halt, hta]
      exact multBackward_eq _ _ hlen.symm
    · rw [e2]
      unfold Function.backward
      simp only [setGrad_tensorOf, htold a halt, hta]
      exact dotBackward_eq _ _ hlen.symm
  have hs2 : scaleFirst { nb.tensor_ with value := na.tensor_.value } grad
      = .ok { nb.tensor_ with value := na.tensor_.value } :=
    scaleFirst_one _ _ h0 hg0
  rw [edgeStep_leaf fuel _ grad _ ⟨f2, g.tensorNodes_.length, b⟩ nb.tensor_ _ _ pb1
    hf2 hpb1 (by rw [hpb1t, hpb0t, hpbt]) (by rw [hpb1l, hpb0l, hpbl]) hb2 hs2]
  -- reading the gradients
  obtain ⟨pa2, hpa2, _, _, _, hpa2g⟩ := setGrad_node
    ((G.setGrad g.tensorNodes_.length grad).setGrad a
      { na.tensor_ with value := nb.tensor_.value }) b
    { nb.tensor_ with value := na.tensor_.value } _ _ hpa1
  obtain ⟨pb2, hpb2, _, _, _, hpb2g⟩ := setGrad_node
    ((G.setGrad g.tensorNodes_.length grad).setGrad a
      { na.tensor_ with value := nb.tensor_.value }) b
    { nb.tensor_ with value := na.tensor_.value } _ _ hpb1
  refine ⟨_, rfl, ?_, ?_⟩
  · rw [getGradient_of_node _ _ _ hpa2, hpa2g, hpa1g, if_pos rfl]
    by_cases hab : a = b
    · rw [if_pos hab]
      subst hab
      rw [hna] at hnb
      cases hnb
      rfl
    · rw [if_neg hab]
  · rw [getGradient_of_node _ _ _ hpb2, hpb2g, if_pos rfl]

/-- C2: for leaves `a` and `b` of identical shape with at least one element, `mult(a, b)`
succeeds and `backward` of its result (with a recursion budget of at least 2) leaves
`gradient(a)` equal to the tensor of `a` with the values of `b`, and `gradient(b)` equal to
the tensor of `b` with the values of `a`; for `a = [2,3]` and `b = [4,5]` the gradients are
`[4,5]` and `[2,3]`. -/
theorem mult_gradient :
    (∀ (g : Graph) (a b : Nat) (na nb : TensorNode),
      g.tensorNodes_[a]? = some na → g.tensorNodes_[b]? = some nb →
      na.isLeaf_ = true → nb.isLeaf_ = true → na.tensor_.Valid → nb.tensor_.Valid →
      na.tensor_.shape = nb.tensor_.shape → 0 < na.tensor_.value.length →
      ∃ c g1, Autograd.mult g a b = (.ok c, g1) ∧
        ∀ fuel : Nat, ∃ g2, Autograd.backward (fuel + 2) g1 c = (.ok (), g2) ∧
          Autograd.gradient g2 a
            = .ok (some { na.tensor_ with value := nb.tensor_.value }) ∧
          Autograd.gradient g2 b
            = .ok (some { nb.tensor_ with value := na.tensor_.value })) ∧
    Autograd.gradient
        (Autograd.backward 2 (Autograd.mult exampleVectors 0 1).2 2).2 0
      = .ok (some (Tensor.mk 1 [2] 2 [4, 5])) ∧
    Autograd.gradient
        (Autograd.backward 2 (Autograd.mult exampleVectors 0 1).2 2).2 1
      = .ok (some (Tensor.mk 1 [2] 2 [2, 3])) := by
  refine ⟨?_, by decide, by decide⟩
  intro g a b na nb hna hnb hla hlb hva hvb hshape h0
  have hta : g.tensorOf a = some na.tensor_ := by unfold Graph.tensorOf; rw [hna]
  have htb : g.tensorOf b = some nb.tensor_ := by unfold Graph.tensorOf; rw [hnb]
  obtain ⟨_, _, _, halt⟩ := tensorOf_eq_some hta
  obtain ⟨_, _, _, hblt⟩ := tensorOf_eq_some htb
  have hlen := valid_length_eq _ _ hva hvb hshape
  have hs : Tensor.checkShapes na.tensor_ nb.tensor_ = true :=
    (checkShapes_iff _ _ hva hvb).mpr hshape
  have hf : Mult.forward nb.tensor_ na.tensor_
      = .ok { na.tensor_ with
              value := List.zipWith (fun x y => x * y) na.tensor_.value nb.tensor_.value } := by
    unfold Mult.forward
    rw [elementLoop_ok _ _ _ (le_of_eq hlen)]
  have hreslen : 0 < (List.zipWith (fun x y => x * y) na.tensor_.value
      nb.tensor_.value).length := by
    rw [List.length_zipWith, ← hlen]; simpa using h0
  have hw := (wire_spec g (.Mult b) (.Mult a)
    { na.tensor_ with
      value := List.zipWith (fun x y => x * y) na.tensor_.value nb.tensor_.value }
    a b halt hblt).1
  refine ⟨g.tensorNodes_.length, (Autograd.mult g a b).2, ?_, ?_⟩
  · rw [mult_eq_wire g a b _ _ _ hta htb hs hf, hw]
  · intro fuel
    rw [mult_eq_wire g a b _ _ _ hta htb hs hf]
    exact wire_backward_leaves g a b na nb _ _ _ (Or.inl ⟨rfl, rfl⟩) hna hnb hla hlb hlen h0
      hreslen fuel

/-- Witness of C2: the leaves `[2,3]` and `[4,5]`. -/
theorem mult_gradient_witness :
    ∃ c g1, Autograd.mult exampleVectors 0 1 = (.ok c, g1) ∧
      ∀ fuel : Nat, ∃ g2, Autograd.backward (fuel + 2) g1 c = (.ok (), g2) ∧
        Autograd.gradient g2 0 = .ok (some (Tensor.mk 1 [2] 2 [4, 5])) ∧
        Autograd.gradient g2 1 = .ok (some (Tensor.mk 1 [2] 2 [2, 3])) :=
  mult_gradient.1 exampleVectors 0 1
    ⟨Tensor.mk 1 [2] 2 [2, 3], [], [], true, false, none⟩
    ⟨Tensor.mk 1 [2] 2 [4, 5], [], [], true, false, none⟩
    rfl rfl rfl rfl (by decide) (by decide) rfl (by decide)

/-! ## The shape of reachable graphs and the frame of the walk -/

theorem skeleton_functionNodes {g1 g : Graph} (h : g1.skeleton = g.skeleton) :
    g1.functionNodes_ = g.functionNodes_ := by
  have := congrArg Graph.functionNodes_ h
  exact this

theorem skeleton_node {g1 g : Graph} (h : g1.skeleton = g.skeleton) (j : Nat)
    (n1 : TensorNode) (hn : g1.tensorNodes_[j]? = some n1) :
    ∃ n, g.tensorNodes_[j]? = some n ∧ n.tensor_ = n1.tensor_ ∧
      n.prevFunctions_ = n1.prevFunctions_ ∧ n.nextFunctions_ = n1.nextFunctions_ ∧
      n.isLeaf_ = n1.isLeaf_ ∧ n.requiresGrad_ = n1.requiresGrad_ := by
  have h2 : g1.tensorNodes_.map (fun n => ({ n with grad_ := none } : TensorNode))
      = g.tensorNodes_.map (fun n => ({ n with grad_ := none } : TensorNode)) :=
    congrArg Graph.tensorNodes_ h
  have h3 := congrArg (fun l => l[j]?) h2
  simp only [List.getElem?_map, hn, Option.map_some'] at h3
  rcases hg : g.tensorNodes_[j]? with _ | n
  · rw [hg] at h3; cases h3
  · rw [hg] at h3
    simp only [Option.map_some', Option.some.injEq, TensorNode.mk.injEq] at h3
    obtain ⟨a1, a2, a3, a4, a5, _⟩ := h3
    exact ⟨n, rfl, a1.symm, a3.symm, a2.symm, a4.symm, a5.symm⟩

theorem setGrad_skeleton (g : Graph) (h : Nat) (t : Tensor) :
    (g.setGrad h t).skeleton = g.skeleton := by
  unfold Graph.skeleton
  have hf := setGrad_functionNodes g h t
  have hn : (g.setGrad h t).tensorNodes_.map
        (fun n => ({ n with grad_ := none } : TensorNode))
      = g.tensorNodes_.map (fun n => ({ n with grad_ := none } : TensorNode)) := by
    apply List.ext_getElem?
    intro j
    simp only [List.getElem?_map, setGrad_getElem?]
    by_cases hj : j = h
    · rw [if_pos hj]
      rcases g.tensorNodes_[j]? with _ | n <;> rfl
    · rw [if_neg hj]
  rw [hf, hn]

theorem ordered_of_skeleton {g1 g : Graph} (h : g1.skeleton = g.skeleton)
    (ho : g.Ordered) : g1.Ordered := by
  intro j n1 hn1 fid hfid
  obtain ⟨n, hn, _, hp, _⟩ := skeleton_node h j n1 hn1
  rw [skeleton_functionNodes h]
  exact ho j n hn fid (by rw [hp]; exact hfid)

theorem elementLoop_error (f : F32 → F32 → F32) (value other : List F32) (e : Error)
    (h : elementLoop f value other = .error e) : e = .outOfRange := by
  by_cases hl : value.length ≤ other.length
  · rw [elementLoop_ok f value other hl] at h; cases h
  · rw [elementLoop_short f value other (by omega)] at h; cases h; rfl

theorem functionNode_backward_error (g : Graph) (fn : FunctionNode) (e : Error)
    (h : fn.backward g = .error e) : e = .outOfRange ∨ e = .notRegistered := by
  unfold FunctionNode.backward at h
  split at h
  · unfold Function.backward at h
    split at h
    · split at h
      · unfold Mult.backward at h
        split at h
        · rename_i err he
          cases h
          exact Or.inl (elementLoop_error _ _ _ _ he)
        · cases h
      · cases h; exact Or.inr rfl
    · split at h
      · unfold Dot.backward at h
        split at h
        · rename_i err he
          cases h
          exact Or.inl (elementLoop_error _ _ _ _ he)
        · cases h
      · cases h; exact Or.inr rfl
  · cases h; exact Or.inr rfl

theorem scaleFirst_error (a b : Tensor) (e : Error) (h : scaleFirst a b = .error e) :
    e = .outOfRange := by
  unfold scaleFirst at h
  split at h
  · cases h
  · cases h; rfl

/-- The frame of the walk started at node `k` of a graph whose edges point backwards:
only gradient slots change, no slot at position `k` or later changes, and a recursion
budget above `k` is never used up. -/
theorem calcGradientsImpl_frame (fuel : Nat) :
    ∀ (g : Graph) (k : Nat) (grad : Tensor), g.Ordered →
      (Graph.calcGradientsImpl fuel g k grad).2.skeleton = g.skeleton ∧
      (∀ j : Nat, k ≤ j →
        (Graph.calcGradientsImpl fuel g k grad).2.tensorNodes_[j]? = g.tensorNodes_[j]?) ∧
      (k < fuel → (Graph.calcGradientsImpl fuel g k grad).1 ≠ .error .fuel) := by
  induction fuel with
  | zero =>
    intro g k grad _
    exact ⟨rfl, fun _ _ => rfl, fun h => absurd h (Nat.not_lt_zero _)⟩
  | succ fuel ih =>
    intro g k grad ho
    rw [Graph.calcGradientsImpl]
    rcases hn : g.tensorNodes_[k]? with _ | n
    · exact ⟨rfl, fun _ _ => rfl, fun _ h => by cases h⟩
    · simp only
      by_cases hl : n.isLeaf_ = true
      · rw [if_pos hl]
        exact ⟨rfl, fun _ _ => rfl, fun _ h => by cases h⟩
      · rw [if_neg hl]
        have hfs : ∀ fid ∈ n.prevFunctions_, ∀ fn : FunctionNode,
            g.functionNodes_[fid]? = some fn → fn.prevTensor_ < k := by
          intro fid hfid fn hfn
          obtain ⟨fn2, hfn2, hlt⟩ := ho k n hn fid hfid
          rw [hfn] at hfn2
          cases hfn2
          exact hlt
        have inner : ∀ (fs : List Nat),
            (∀ fid ∈ fs, ∀ fn : FunctionNode,
              g.functionNodes_[fid]? = some fn → fn.prevTensor_ < k) →
            ∀ st : Except Error Unit × Graph,
              (st.2.skeleton = g.skeleton ∧
                (∀ j : Nat, k ≤ j → st.2.tensorNodes_[j]? = g.tensorNodes_[j]?) ∧
                (k < fuel + 1 → st.1 ≠ .error .fuel)) →
              ((fs.foldl (Graph.edgeStep
                  (fun g1 h t => Graph.calcGradientsImpl fuel g1 h t) grad) st).2.skeleton
                  = g.skeleton ∧
                (∀ j : Nat, k ≤ j →
                  (fs.foldl (Graph.edgeStep
                    (fun g1 h t => Graph.calcGradientsImpl fuel g1 h t) grad)
                    st).2.tensorNodes_[j]? = g.tensorNodes_[j]?) ∧
                (k < fuel + 1 →
                  (fs.foldl (Graph.edgeStep
                    (fun g1 h t => Graph.calcGradientsImpl fuel g1 h t) grad) st).1
                    ≠ .error .fuel)) := by
          intro fs
          induction fs with
          | nil => intro _ st hst; exact hst
          | cons fid fs ihfs =>
            intro hall st hst
            rw [List.foldl_cons]
            apply ihfs (fun fid2 h2 => hall fid2 (List.mem_cons_of_mem _ h2))
            obtain ⟨r, g1⟩ := st
            obtain ⟨hsk, hfr, hfu⟩ := hst
            simp only at hsk hfr hfu
            unfold Graph.edgeStep
            rcases r with e | u
            · exact ⟨hsk, hfr, hfu⟩
            · simp only
              rcases hfn : g1.functionNodes_[fid]? with _ | fn
              · exact ⟨hsk, hfr, fun _ h => by cases h⟩
              · simp only
                rcases hb : fn.backward g1 with e | newGrad0
                · refine ⟨hsk, hfr, fun _ h => ?_⟩
                  rcases functionNode_backward_error g1 fn e hb with h1 | h1 <;>
                    (rw [h1] at h; cases h)
                · simp only
                  rcases hsc : scaleFirst newGrad0 grad with e | newGrad
                  · refine ⟨hsk, hfr, fun _ h => ?_⟩
                    rw [scaleFirst_error _ _ e hsc] at h
                    cases h
                  · simp only
                    have hp : fn.prevTensor_ < k := by
                      apply hall fid (List.mem_cons_self _ _) fn
                      rw [← skeleton_functionNodes hsk]
                      exact hfn
                    have hsk1 : (g1.setGrad fn.prevTensor_ newGrad).skeleton = g.skeleton := by
                      rw [setGrad_skeleton]; exact hsk
                    obtain ⟨i1, i2, i3⟩ := ih (g1.setGrad fn.prevTensor_ newGrad)
                      fn.prevTensor_ newGrad (ordered_of_skeleton hsk1 ho)
                    refine ⟨by rw [i1]; exact hsk1, ?_, fun hk => i3 (by omega)⟩
                    intro j hj
                    rw [i2 j (by omega), setGrad_getElem?, if_neg (by omega)]
                    exact hfr j hj
        exact inner n.prevFunctions_ hfs (.ok (), g)
          ⟨rfl, fun _ _ => rfl, fun _ h => by cases h⟩

theorem addTensorNode_ordered (g : Graph) (t : Tensor) (l r : Bool) (ho : g.Ordered) :
    (g.addTensorNode t l r).2.Ordered := by
  intro j n hn fid hfid
  have ht : (g.addTensorNode t l r).2.tensorNodes_
      = g.tensorNodes_ ++ [(⟨t, [], [], l, r, none⟩ : TensorNode)] := rfl
  have hf : (g.addTensorNode t l r).2.functionNodes_ = g.functionNodes_ := rfl
  rw [ht] at hn
  rw [hf]
  by_cases hj : j < g.tensorNodes_.length
  · rw [List.getElem?_append_left hj] at hn
    exact ho j n hn fid hfid
  · rw [List.getElem?_append_right (by omega)] at hn
    rcases hjj : j - g.tensorNodes_.length with _ | m
    · rw [hjj] at hn
      simp only [List.getElem?_cons_zero, Option.some.injEq] at hn
      subst hn
      simp at hfid
    · rw [hjj] at hn
      simp at hn

theorem wire_ordered (g : Graph) (f1 f2 : Function) (res : Tensor) (a b : Nat)
    (ha : a < g.tensorNodes_.length) (hb : b < g.tensorNodes_.length) (ho : g.Ordered) :
    (Autograd.wire g f1 f2 res a b).2.Ordered := by
  obtain ⟨_, hfns, hlen, hnode, hold⟩ := wire_spec g f1 f2 res a b ha hb
  intro j n hn fid hfid
  rw [hfns]
  rcases Nat.lt_trichotomy j g.tensorNodes_.length with hj | hj | hj
  · rw [hold j hj] at hn
    rcases hg : g.tensorNodes_[j]? with _ | n0
    · rw [hg] at hn; cases hn
    · rw [hg] at hn
      simp only [Option.map_some', Option.some.injEq] at hn
      subst hn
      obtain ⟨fn, hfn, hlt⟩ := ho j n0 hg fid hfid
      have hfl : fid < g.functionNodes_.length := by
        rcases List.getElem?_eq_some.mp hfn with ⟨h1, _⟩
        exact h1
      exact ⟨fn, by rw [List.getElem?_append_left hfl]; exact hfn, hlt⟩
  · subst hj
    rw [hnode] at hn
    simp only [Option.some.injEq] at hn
    subst hn
    simp only [List.mem_cons, List.mem_singleton, List.not_mem_nil, or_false] at hfid
    rcases hfid with h | h
    · subst h
      refine ⟨⟨f1, g.tensorNodes_.length, a⟩, ?_, ha⟩
      rw [List.getElem?_append_right (le_refl _)]; simp
    · subst h
      refine ⟨⟨f2, g.tensorNodes_.length, b⟩, ?_, hb⟩
      rw [List.getElem?_append_right (by omega)]; simp
  · have : (Autograd.wire g f1 f2 res a b).2.tensorNodes_[j]? = none :=
      List.getElem?_eq_none (by rw [hlen]; omega)
    rw [this] at hn
    cases hn

theorem mult_graph (g : Graph) (a b : Nat) :
    (Autograd.mult g a b).2 = g ∨
      ∃ res, a < g.tensorNodes_.length ∧ b < g.tensorNodes_.length ∧
        Autograd.mult g a b = Autograd.wire g (.Mult b) (.Mult a) res a b := by
  rcases ha : g.tensorOf a with _ | ta
  · left; unfold Autograd.mult; simp only [ha]
  rcases hb : g.tensorOf b with _ | tb
  · left; unfold Autograd.mult; simp only [ha, hb]
  rcases hs : Tensor.checkShapes ta tb with _ | _
  · left; unfold Autograd.mult; simp [ha, hb, hs]
  rcases hf : Mult.forward tb ta with e | res
  · left; unfold Autograd.mult; simp [ha, hb, hs, hf]
  · right
    obtain ⟨_, _, _, halt⟩ := tensorOf_eq_some ha
    obtain ⟨_, _, _, hblt⟩ := tensorOf_eq_some hb
    exact ⟨res, halt, hblt, mult_eq_wire g a b ta tb res ha hb hs hf⟩

theorem dot_graph (g : Graph) (a b : Nat) :
    (Autograd.dot g a b).2 = g ∨
      ∃ res, a < g.tensorNodes_.length ∧ b < g.tensorNodes_.length ∧
        Autograd.dot g a b = Autograd.wire g (.Dot b) (.Dot a) res a b := by
  rcases ha : g.tensorOf a with _ | ta
  · left; unfold Autograd.dot; simp only [ha]
  rcases hb : g.tensorOf b with _ | tb
  · left; unfold Autograd.dot; simp only [ha, hb]
  by_cases hn : ta.nDims < tb.nDims
  · left; unfold Autograd.dot; simp [ha, hb, hn]
  rcases hs : Autograd.dotShapesDiffer ta tb with _ | _
  · rcases hf : Dot.forward tb ta with e | res
    · left; unfold Autograd.dot; simp [ha, hb, hn, hs, hf]
    · right
      obtain ⟨_, _, _, halt⟩ := tensorOf_eq_some ha
      obtain ⟨_, _, _, hblt⟩ := tensorOf_eq_some hb
      exact ⟨res, halt, hblt, dot_eq_wire g a b ta tb res ha hb hn hs hf⟩
  · left; unfold Autograd.dot; simp [ha, hb, hn, hs]

theorem calcGradients_skeleton (fuel : Nat) (g : Graph) (t : Nat) (ho : g.Ordered) :
    (g.calcGradients fuel t).2.skeleton = g.skeleton := by
  unfold Graph.calcGradients
  rcases ht : g.tensorOf t with _ | tt
  · rfl
  · simp only
    rw [(calcGradientsImpl_frame fuel _ t _
      (ordered_of_skeleton (setGrad_skeleton g t _) ho)).1, setGrad_skeleton]

/-- In every graph an engine can hold, each producer edge of a node has an input node that
was registered strictly before the node. -/
theorem reachable_ordered (g : Graph) (h : g.Reachable) : g.Ordered := by
  induction h with
  | empty =>
    intro j n hn
    simp [Graph.empty] at hn
  | makeTensorCopy _ t ih => exact addTensorNode_ordered _ _ _ _ ih
  | makeTensorValue _ v r ih => exact addTensorNode_ordered _ _ _ _ ih
  | @makeTensor g0 _ shape value r ih =>
    unfold Autograd.MakeTensor
    rcases Tensor.construct shape value with e | t
    · exact ih
    · exact addTensorNode_ordered _ _ _ _ ih
  | @mult g0 _ a b ih =>
    rcases mult_graph g0 a b with h1 | ⟨res, ha, hb, h1⟩
    · rw [h1]; exact ih
    · rw [h1]; exact wire_ordered _ _ _ _ _ _ ha hb ih
  | @dot g0 _ a b ih =>
    rcases dot_graph g0 a b with h1 | ⟨res, ha, hb, h1⟩
    · rw [h1]; exact ih
    · rw [h1]; exact wire_ordered _ _ _ _ _ _ ha hb ih
  | @backward g0 _ fuel t ih =>
    exact ordered_of_skeleton (calcGradients_skeleton fuel g0 t ih) ih

/-- C6: in every graph built through the engine, for every registered tensor `t` (a leaf or
the result of an operation) the graph left by `backward(t)` holds for `t` a gradient with
the `nDims`, shape and element count of `t` whose every element is 1; the walk after the
seeding leaves the node of `t` as the seeding left it, and a recursion budget above the
handle is never used up. -/
theorem seed_gradient (g : Graph) (hr : g.Reachable) (t : Nat) (tt : Tensor)
    (ht : g.tensorOf t = some tt) (fuel : Nat) :
    Autograd.gradient (Autograd.backward fuel g t).2 t
      = .ok (some { nDims := tt.nDims, shape := tt.shape,
                    totalNumOfElements := tt.totalNumOfElements,
                    value := List.replicate tt.value.length 1 }) ∧
    (Autograd.backward fuel g t).2.tensorNodes_[t]?
      = (g.setGrad t tt.onesAs).tensorNodes_[t]? ∧
    (t < fuel → (Autograd.backward fuel g t).1 ≠ .error .fuel) := by
  have ho := reachable_ordered g hr
  obtain ⟨n, hn, hnt, _⟩ := tensorOf_eq_some ht
  obtain ⟨_, h2, h3⟩ := calcGradientsImpl_frame fuel (g.setGrad t tt.onesAs) t tt.onesAs
    (ordered_of_skeleton (setGrad_skeleton g t _) ho)
  have hb : Autograd.backward fuel g t
      = Graph.calcGradientsImpl fuel (g.setGrad t tt.onesAs) t tt.onesAs := by
    unfold Autograd.backward Graph.calcGradients
    rw [ht]
  rw [hb]
  refine ⟨?_, h2 t (le_refl _), h3⟩
  obtain ⟨n1, hn1, _, _, _, hg⟩ := setGrad_node g t tt.onesAs t n hn
  rw [getGradient_of_node _ t n1 (by rw [h2 t (le_refl _)]; exact hn1), hg, if_pos rfl,
    onesAs_eq]

/-- Witness of C6: the result `[8,15]` of `mult` on the leaves `[2,3]` and `[4,5]`. -/
theorem seed_gradient_witness :
    Autograd.gradient (Autograd.backward 3 (Autograd.mult exampleVectors 0 1).2 2).2 2
      = .ok (some { nDims := 1, shape := [2], totalNumOfElements := 2,
                    value := List.replicate 2 1 }) ∧
    (Autograd.backward 3 (Autograd.mult exampleVectors 0 1).2 2).1 ≠ .error .fuel :=
  ⟨(seed_gradient (Autograd.mult exampleVectors 0 1).2
      (Graph.Reachable.mult (Graph.Reachable.makeTensorCopy
        (Graph.Reachable.makeTensorCopy Graph.Reachable.empty _) _) 0 1)
      2 (Tensor.mk 1 [2] 2 [8, 15]) rfl 3).1,
   (seed_gradient (Autograd.mult exampleVectors 0 1).2
      (Graph.Reachable.mult (Graph.Reachable.makeTensorCopy
        (Graph.Reachable.makeTensorCopy Graph.Reachable.empty _) _) 0 1)
      2 (Tensor.mk 1 [2] 2 [8, 15]) rfl 3).2.2 (by decide)⟩

/-! ## Unchecked coordinates of `at` -/

/-- C11 (the code at the failing input): on the 2x2 tensor built from `[1,2,3,4]`,
`at([0, 2])` returns the scalar tensor 3 (the element at `[1, 0]`) and `at([1, 2])` takes a
block that starts past the end of the values; only the empty index and an index longer than
`nDims` are stopped, by the assertion.  The element access `operator()` rejects the same
coordinates through `checkIndexValidity`. -/
theorem at_unchecked_coordinate :
    (do let t ← test_Tensor_t1; t.at [0, 2]) = .ok (Tensor.ofValue 3) ∧
    (do let t ← test_Tensor_t1; t.at [1, 2]) = .error .outOfRange ∧
    (do let t ← test_Tensor_t1; t.at []) = .error .assertion ∧
    (do let t ← test_Tensor_t1; t.at [0, 0, 0]) = .error .assertion ∧
    (do let t ← test_Tensor_t1; t.operatorCall [0, 2]) = .error .indexInvalid ∧
    (do let t ← test_Tensor_t1; t.operatorCall [1, 2]) = .error .indexInvalid := by
  decide

/-! ## Out-of-range reads of `Dot` -/

/-- C20 (the code at the failing inputs): for `a` of shape `[3,2]` and `b` of shape `[3]`
the validation of `dot` accepts the pair, and `Dot(b).forward(a)` and `Dot(b).backward(a)`
read `b` past its end; for two tensors of shape `[0]` the validation accepts the pair and
`Dot::forward` reads position 0 of an empty vector. -/
theorem dot_reads_out_of_range :
    (¬ (Tensor.mk 2 [3, 2] 6 [1, 2, 3, 4, 5, 6]).nDims < (Tensor.mk 1 [3] 3 [1, 2, 3]).nDims ∧
      Autograd.dotShapesDiffer (Tensor.mk 2 [3, 2] 6 [1, 2, 3, 4, 5, 6])
        (Tensor.mk 1 [3] 3 [1, 2, 3]) = false) ∧
    Dot.forward (Tensor.mk 1 [3] 3 [1, 2, 3]) (Tensor.mk 2 [3, 2] 6 [1, 2, 3, 4, 5, 6])
      = .error .outOfRange ∧
    Dot.backward (Tensor.mk 1 [3] 3 [1, 2, 3]) (Tensor.mk 2 [3, 2] 6 [1, 2, 3, 4, 5, 6])
      = .error .outOfRange ∧
    Autograd.dot (exampleMatrixVector [3, 2]) 0 1
      = (.error .outOfRange, exampleMatrixVector [3, 2]) ∧
    (¬ (Tensor.mk 1 [0] 0 []).nDims < (Tensor.mk 1 [0] 0 []).nDims ∧
      Autograd.dotShapesDiffer (Tensor.mk 1 [0] 0 []) (Tensor.mk 1 [0] 0 []) = false) ∧
    Dot.forward (Tensor.mk 1 [0] 0 []) (Tensor.mk 1 [0] 0 []) = .error .outOfRange ∧
    Autograd.dot exampleEmptyVectors 0 1 = (.error .outOfRange, exampleEmptyVectors) := by
  decide

/-! ## Scaling in the backward walk -/

/-- C13 (as stated, refuted): for leaves `a = [1,2]`, `b = [3,4]`, `c = dot(a, b)`, scalar
leaf `d = 2` and `e = dot(c, d)`, `backward(e)` does not leave `gradient(a) = [6, 8]`. -/
theorem vectorChain_not_6_8 :
    ¬ (vectorChain 3 = .ok (some (Tensor.mk 1 [2] 2 [6, 8]))) := by
  decide

/-- C13 (amended): the walk over a non-leaf node is the loop over its producer edges, and
for every producer edge the gradient assigned to the input of the edge (and handed to the
recursive call) is `localGrad = f_->backward(prevTensor_->tensor_)` with its first element
multiplied by the first element of the gradient of the node; the other elements are those
of `localGrad`.  For leaves `a = [1,2]`, `b = [3,4]`, `c = dot(a, b)`, scalar leaf `d = 2`
and `e = dot(c, d)`, `backward(e)` leaves `gradient(a) = [6, 4]`. -/
theorem first_element_scaling :
    (∀ (fuel : Nat) (g : Graph) (k : Nat) (grad : Tensor) (n : TensorNode),
      g.tensorNodes_[k]? = some n → n.isLeaf_ = false →
      Graph.calcGradientsImpl (fuel + 1) g k grad
        = n.prevFunctions_.foldl
            (Graph.edgeStep (fun g1 h t => Graph.calcGradientsImpl fuel g1 h t) grad)
            (.ok (), g)) ∧
    (∀ (walk : Graph → Nat → Tensor → Except Error Unit × Graph) (grad : Tensor)
      (g1 : Graph) (fid : Nat) (fn : FunctionNode) (localGrad : Tensor) (l0 g0 : F32)
      (ls gs : List F32),
      g1.functionNodes_[fid]? = some fn → fn.backward g1 = .ok localGrad →
      localGrad.value = l0 :: ls → grad.value = g0 :: gs →
      Graph.edgeStep walk grad (.ok (), g1) fid
        = walk (g1.setGrad fn.prevTensor_ { localGrad with value := (l0 * g0) :: ls })
            fn.prevTensor_ { localGrad with value := (l0 * g0) :: ls }) ∧
    (∀ n : Nat, vectorChain (n + 3) = .ok (some (Tensor.mk 1 [2] 2 [6, 4]))) := by
  refine ⟨?_, ?_, fun _ => rfl⟩
  · intro fuel g k grad n hn hl
    rw [Graph.calcGradientsImpl]
    simp only [hn, hl, Bool.false_eq_true, if_false]
  · intro walk grad g1 fid fn localGrad l0 g0 ls gs hfn hb hl hg
    unfold Graph.edgeStep scaleFirst
    simp only [hfn, hb, hl, hg, List.getElem?_cons_zero, List.set_cons_zero]

/-- Witness of C13: the edge of `c = dot(a, b)` for the operand `a = [1,2]` (captured
operand `b = [3,4]`) under the gradient `[2]` of `c`. -/
theorem first_element_scaling_witness :
    Graph.edgeStep (fun g _ _ => (.ok (), g)) (Tensor.ofValue 2)
        (.ok (), (Autograd.dot exampleVectors 0 1).2) 0
      = (.ok (), (Autograd.dot exampleVectors 0 1).2.setGrad 0 (Tensor.mk 1 [2] 2 [4 * 2, 5])) :=
  first_element_scaling.2.1 (fun g _ _ => (.ok (), g)) (Tensor.ofValue 2)
    (Autograd.dot exampleVectors 0 1).2 0 ⟨.Dot 1, 2, 0⟩ (Tensor.mk 1 [2] 2 [4, 5])
    4 2 [5] [] rfl rfl rfl rfl

/-! ## Scalar chains -/

/-- C14 (as stated, refuted): for the scalar leaves `a = b = 4097` and `d = 3` the chain
ends with `gradient(d) = 16785408`, the `float` nearest to `4097 * 4097 = 16785409`, not
the exact product. -/
theorem scalarChain_exact_counterexample :
    scalarChain 4097 4097 3 3 = .ok (1, 3, 16785408, 12291, 12291) ∧
    F32.toRat 4097 = some 4097 ∧ F32.toRat 16785408 = some 16785408 ∧
    ¬ F32.ExactProduct 16785408 4097 4097 := by
  have e1 : (4097 : F32) = .finite false 139 2048 := by decide
  have e2 : (16785408 : F32) = .finite false 151 4096 := by decide
  have h1 : F32.toRat 4097 = some 4097 := by
    rw [e1, toRat_of_magnitude false 139 2048 4097 (by decide)]
    simp
  have h2 : F32.toRat 16785408 = some 16785408 := by
    rw [e2, toRat_of_magnitude false 151 4096 16785408 (by decide)]
    simp
  refine ⟨by decide, h1, h2, ?_⟩
  rintro ⟨qa, qb, ha, hb, hr⟩
  rw [h1] at ha hb
  rw [h2] at hr
  have ea := Option.some.inj ha
  have eb := Option.some.inj hb
  have er := Option.some.inj hr
  rw [← ea, ← eb] at er
  norm_num at er

/-- C14 (amended): for all scalar leaves `a`, `b`, `d` with `c = dot(a, b)` and
`e = dot(c, d)`, after `backward(e)` (recursion budget at least 3) the stored gradients are
`gradient(e) = 1`, `gradient(c) = d`, `gradient(d) = a*b`, `gradient(a) = b*d` and
`gradient(b) = a*d`, each product being one `float` multiplication that rounds to nearest;
for `a = 3`, `b = 4`, `d = 5` they are 1, 5, 12, 20 and 15. -/
theorem scalar_chain_gradients (va vb vd : F32) (n : Nat) :
    scalarChain va vb vd (n + 3) = .ok (1, vd, va * vb, vb * vd, va * vd) ∧
    scalarChain 3 4 5 (n + 3) = .ok (1, 5, 12, 20, 15) := by
  have e : n + 3 = ((n + 1) + 1) + 1 := rfl
  refine ⟨?_, rfl⟩
  rw [e]
  simp [scalarChain, Autograd.dot, Autograd.MakeTensorValue, Graph.addTensorNode, Graph.empty,
    Graph.tensorOf, Tensor.ofValue, Autograd.dotShapesDiffer, Dot.forward, Graph.addFunctionNode,
    Graph.updateNode, pure, Except.pure, Autograd.backward, Graph.calcGradients,
    Graph.calcGradientsImpl, Graph.edgeStep, FunctionNode.backward, Function.backward,
    Dot.backward, elementLoop_ok, scaleFirst, Graph.setGrad, onesAs_eq, F32.mul_one,
    Autograd.gradientItem, Autograd.gradient, Graph.getGradient, Tensor.item, bind, Except.bind]

/-! ## Addition -/

/-- The state of the loop of `operator+=` after `k` rounds. -/
theorem addLoop_rounds (value other : List F32) (k : Nat)
    (hk : k ≤ value.length) (hko : k ≤ other.length) :
    addLoop k value other
      = (.ok (), List.zipWith (fun a b => a + b) (value.take k) (other.take k)
          ++ value.drop k) := by
  unfold addLoop
  induction k with
  | zero => simp
  | succ k ih =>
    have hk1 : k < value.length := hk
    have hk2 : k < other.length := hko
    rw [List.range_succ, List.foldl_append, ih (le_of_lt hk1) (le_of_lt hk2)]
    have hlen : (List.zipWith (fun a b => a + b) (value.take k) (other.take k)).length = k := by
      simp [List.length_zipWith, List.length_take]
      omega
    have hget : (List.zipWith (fun a b => a + b) (value.take k) (other.take k)
        ++ value.drop k)[k]? = some value[k] := by
      rw [List.getElem?_append_right (by rw [hlen]), hlen, Nat.sub_self,
        List.drop_eq_getElem_cons hk1]
      simp
    have hnext : List.zipWith (fun a b => a + b) (value.take (k + 1)) (other.take (k + 1))
        = List.zipWith (fun a b => a + b) (value.take k) (other.take k)
          ++ [value[k] + other[k]] := by
      rw [List.take_succ, List.take_succ, List.getElem?_eq_getElem hk1,
        List.getElem?_eq_getElem hk2]
      simp only [Option.toList_some]
      rw [List.zipWith_append]
      · rfl
      · simp [List.length_take]; omega
    have hset : (List.zipWith (fun a b => a + b) (value.take k) (other.take k)
          ++ value.drop k).set k (value[k] + other[k])
        = List.zipWith (fun a b => a + b) (value.take (k + 1)) (other.take (k + 1))
          ++ value.drop (k + 1) := by
      rw [List.set_append_right _ _ (by rw [hlen]), hlen, Nat.sub_self,
        List.drop_eq_getElem_cons hk1, hnext]
      simp only [List.set_cons_zero, List.append_assoc, List.singleton_append]
    simp only [List.foldl_cons, List.foldl_nil]
    rw [hget, List.getElem?_eq_getElem hk2]
    simp only
    rw [hset]

/-- C12: for tensors `a` and `b` that satisfy the constructor invariant, `a + b` and
`a += b` throw the shape error exactly when `checkShapes(a, b)` is false, and a throwing
`+=` leaves the receiver as it was; when the shapes are equal, `a + b` returns the tensor
of `a` with the values `a[i] + b[i]` and `a += b` leaves in the receiver exactly that
tensor.  (Both take `b` by `const` reference and `+` is a `const` member: in the model
they are functions of `a` and `b`, which stay as they are.) -/
theorem add_and_addAssign (a b : Tensor) (hva : a.Valid) (hvb : b.Valid) :
    (a.add b = .error .shapesNotEqual ↔ Tensor.checkShapes a b = false) ∧
    ((a.addAssign b).1 = .error .shapesNotEqual ↔ Tensor.checkShapes a b = false) ∧
    (Tensor.checkShapes a b = false → a.addAssign b = (.error .shapesNotEqual, a)) ∧
    (Tensor.checkShapes a b = true →
      a.value.length = b.value.length ∧
      a.add b = .ok { a with value := List.zipWith (fun x y => x + y) a.value b.value } ∧
      a.addAssign b
        = (.ok (), { a with value := List.zipWith (fun x y => x + y) a.value b.value }) ∧
      (∀ (i : Nat) (x y : F32), a.value[i]? = some x → b.value[i]? = some y →
        (List.zipWith (fun x y => x + y) a.value b.value)[i]? = some (x + y))) := by
  have hfalse : Tensor.checkShapes a b = false →
      a.addAssign b = (.error .shapesNotEqual, a) := by
    intro h
    unfold Tensor.addAssign
    simp [h]
  have htrue : Tensor.checkShapes a b = true →
      a.value.length = b.value.length ∧
      a.addAssign b
        = (.ok (), { a with value := List.zipWith (fun x y => x + y) a.value b.value }) := by
    intro h
    have hshape := (checkShapes_iff a b hva hvb).mp h
    have hlen := valid_length_eq a b hva hvb hshape
    refine ⟨hlen, ?_⟩
    unfold Tensor.addAssign
    simp only [h, Bool.not_true, Bool.false_eq_true, if_false]
    rw [← hva.2.2, addLoop_rounds a.value b.value a.value.length (le_refl _) (le_of_eq hlen)]
    simp only [List.take_length, List.drop_length, List.append_nil]
    rw [zipWith_take_right]
  refine ⟨?_, ?_, hfalse, ?_⟩
  · constructor
    · intro h
      rcases hs : Tensor.checkShapes a b with _ | _
      · rfl
      · unfold Tensor.add at h
        rw [(htrue hs).2] at h
        cases h
    · intro hs
      unfold Tensor.add
      rw [hfalse hs]
  · constructor
    · intro h
      rcases hs : Tensor.checkShapes a b with _ | _
      · rfl
      · rw [(htrue hs).2] at h
        cases h
    · intro hs
      rw [hfalse hs]
  · intro hs
    obtain ⟨hlen, hadd⟩ := htrue hs
    refine ⟨hlen, ?_, hadd, ?_⟩
    · unfold Tensor.add
      rw [hadd]
    · intro i x y hx hy
      simp only [List.getElem?_zipWith, hx, hy]

/-- Witness of C12: `[1,2,3] + [10,20,30]` for two tensors of shape `[3]`. -/
theorem add_and_addAssign_witness :
    (Tensor.mk 1 [3] 3 [1, 2, 3]).add (Tensor.mk 1 [3] 3 [10, 20, 30])
      = .ok { (Tensor.mk 1 [3] 3 [1, 2, 3]) with
              value := List.zipWith (fun x y => x + y) [1, 2, 3] [10, 20, 30] } :=
  ((add_and_addAssign (Tensor.mk 1 [3] 3 [1, 2, 3]) (Tensor.mk 1 [3] 3 [10, 20, 30])
    (by decide) (by decide)).2.2.2 (by decide)).2.1

/-! ## Acyclicity and termination -/

theorem skeleton_length {g1 g : Graph} (h : g1.skeleton = g.skeleton) :
    g1.tensorNodes_.length = g.tensorNodes_.length := by
  have h2 := congrArg (fun x => x.tensorNodes_.length) h
  simpa [Graph.skeleton] using h2

theorem built_of_skeleton {g1 g : Graph} (h : g1.skeleton = g.skeleton) (hb : g.Built) :
    g1.Built := by
  obtain ⟨he, hn⟩ := hb
  refine ⟨?_, ?_⟩
  · intro fid fn hfn
    rw [skeleton_functionNodes h] at hfn
    rw [skeleton_length h]
    exact he fid fn hfn
  · intro j n1 hn1
    obtain ⟨n, hg, _, hp, _, hl, _⟩ := skeleton_node h j n1 hn1
    rw [skeleton_functionNodes h, ← hp, ← hl]
    exact hn j n hg

theorem addTensorNode_built (g : Graph) (t : Tensor) (r : Bool) (hb : g.Built) :
    (g.addTensorNode t true r).2.Built := by
  obtain ⟨he, hn⟩ := hb
  have ht : (g.addTensorNode t true r).2.tensorNodes_
      = g.tensorNodes_ ++ [(⟨t, [], [], true, r, none⟩ : TensorNode)] := rfl
  have hf : (g.addTensorNode t true r).2.functionNodes_ = g.functionNodes_ := rfl
  refine ⟨?_, ?_⟩
  · intro fid fn hfn
    rw [hf] at hfn
    obtain ⟨h1, h2⟩ := he fid fn hfn
    refine ⟨h1, ?_⟩
    rw [ht, List.length_append]
    simp only [List.length_singleton]
    omega
  · intro j n hj
    rw [hf]
    rw [ht] at hj
    by_cases hlt : j < g.tensorNodes_.length
    · rw [List.getElem?_append_left hlt] at hj
      exact hn j n hj
    · rw [List.getElem?_append_right (by omega)] at hj
      rcases hjj : j - g.tensorNodes_.length with _ | m
      · rw [hjj] at hj
        simp only [List.getElem?_cons_zero, Option.some.injEq] at hj
        subst hj
        exact ⟨fun _ => rfl, fun h => by cases h⟩
      · rw [hjj] at hj
        simp at hj

theorem wire_built (g : Graph) (f1 f2 : Function) (res : Tensor) (a b : Nat)
    (ha : a < g.tensorNodes_.length) (hb : b < g.tensorNodes_.length)
    (hf : (f1 = .Mult b ∧ f2 = .Mult a) ∨ (f1 = .Dot b ∧ f2 = .Dot a)) (hg : g.Built) :
    (Autograd.wire g f1 f2 res a b).2.Built := by
  obtain ⟨he, hn⟩ := hg
  obtain ⟨_, hfns, hlen, hnode, hold⟩ := wire_spec g f1 f2 res a b ha hb
  have hF0 : (g.functionNodes_ ++ [(⟨f1, g.tensorNodes_.length, a⟩ : FunctionNode),
      ⟨f2, g.tensorNodes_.length, b⟩])[g.functionNodes_.length]?
      = some ⟨f1, g.tensorNodes_.length, a⟩ := by
    rw [List.getElem?_append_right (le_refl _)]; simp
  have hF1 : (g.functionNodes_ ++ [(⟨f1, g.tensorNodes_.length, a⟩ : FunctionNode),
      ⟨f2, g.tensorNodes_.length, b⟩])[g.functionNodes_.length + 1]?
      = some ⟨f2, g.tensorNodes_.length, b⟩ := by
    rw [List.getElem?_append_right (by omega)]; simp
  refine ⟨?_, ?_⟩
  · intro fid fn hfn
    rw [hfns] at hfn
    rw [hlen]
    rcases Nat.lt_trichotomy fid g.functionNodes_.length with hlt | heq | hgt
    · rw [List.getElem?_append_left hlt] at hfn
      obtain ⟨h1, h2⟩ := he fid fn hfn
      exact ⟨h1, by omega⟩
    · subst heq
      rw [hF0] at hfn
      cases hfn
      exact ⟨ha, by simp⟩
    · rcases Nat.lt_trichotomy fid (g.functionNodes_.length + 1) with hlt2 | heq2 | hgt2
      · omega
      · subst heq2
        rw [hF1] at hfn
        cases hfn
        exact ⟨hb, by simp⟩
      · have : (g.functionNodes_ ++ [(⟨f1, g.tensorNodes_.length, a⟩ : FunctionNode),
            ⟨f2, g.tensorNodes_.length, b⟩])[fid]? = none :=
          List.getElem?_eq_none (by simp; omega)
        rw [this] at hfn
        cases hfn
  · intro j n hj
    rw [hfns]
    rcases Nat.lt_trichotomy j g.tensorNodes_.length with hlt | heq | hgt
    · rw [hold j hlt] at hj
      rcases hg0 : g.tensorNodes_[j]? with _ | n0
      · rw [hg0] at hj; cases hj
      · rw [hg0] at hj
        simp only [Option.map_some', Option.some.injEq] at hj
        subst hj
        obtain ⟨hleaf, hnon⟩ := hn j n0 hg0
        refine ⟨hleaf, ?_⟩
        intro hl
        obtain ⟨e1, e2, fn1, fn2, hp, h1, h2, h3, h4, h5⟩ := hnon hl
        have l1 : e1 < g.functionNodes_.length := by
          rcases List.getElem?_eq_some.mp h1 with ⟨x, _⟩
          exact x
        have l2 : e2 < g.functionNodes_.length := by
          rcases List.getElem?_eq_some.mp h2 with ⟨x, _⟩
          exact x
        exact ⟨e1, e2, fn1, fn2, hp, by rw [List.getElem?_append_left l1]; exact h1,
          by rw [List.getElem?_append_left l2]; exact h2, h3, h4, h5⟩
    · subst heq
      rw [hnode] at hj
      simp only [Option.some.injEq] at hj
      subst hj
      refine ⟨fun h => (by cases h), fun _ => ?_⟩
      exact ⟨_, _, _, _, rfl, hF0, hF1, rfl, rfl, hf⟩
    · have : (Autograd.wire g f1 f2 res a b).2.tensorNodes_[j]? = none :=
        List.getElem?_eq_none (by rw [hlen]; omega)
      rw [this] at hj
      cases hj

/-- Every graph an engine can hold has the shape the builders leave. -/
theorem reachable_built (g : Graph) (h : g.Reachable) : g.Built := by
  induction h with
  | empty =>
    refine ⟨?_, ?_⟩
    · intro fid fn hfn; simp [Graph.empty] at hfn
    · intro j n hn; simp [Graph.empty] at hn
  | makeTensorCopy _ t ih => exact addTensorNode_built _ _ _ ih
  | makeTensorValue _ v r ih => exact addTensorNode_built _ _ _ ih
  | @makeTensor g0 _ shape value r ih =>
    unfold Autograd.MakeTensor
    rcases Tensor.construct shape value with e | t
    · exact ih
    · exact addTensorNode_built _ _ _ ih
  | @mult g0 _ a b ih =>
    rcases mult_graph g0 a b with h1 | ⟨res, ha, hb, h1⟩
    · rw [h1]; exact ih
    · rw [h1]; exact wire_built _ _ _ _ _ _ ha hb (Or.inl ⟨rfl, rfl⟩) ih
  | @dot g0 _ a b ih =>
    rcases dot_graph g0 a b with h1 | ⟨res, ha, hb, h1⟩
    · rw [h1]; exact ih
    · rw [h1]; exact wire_built _ _ _ _ _ _ ha hb (Or.inr ⟨rfl, rfl⟩) ih
  | @backward g0 hr fuel t ih =>
    exact built_of_skeleton
      (calcGradients_skeleton fuel g0 t (reachable_ordered g0 hr)) ih

/-- In a graph whose edges point backwards every path along producer edges descends. -/
theorem upstream_lt {g : Graph} (ho : g.Ordered) {k j : Nat} (h : g.Upstream k j) : j < k := by
  induction h with
  | @edge k n fid fn hn hfid hfn =>
    obtain ⟨fn2, hfn2, hlt⟩ := ho k n hn fid hfid
    rw [hfn] at hfn2
    cases hfn2
    exact hlt
  | @step k n fid fn j hn hfid hfn _ ih =>
    obtain ⟨fn2, hfn2, hlt⟩ := ho k n hn fid hfid
    rw [hfn] at hfn2
    cases hfn2
    omega

/-! ## Producer edges in operand order -/

theorem mult_ok_wire (g : Graph) (a b c : Nat) (g1 : Graph)
    (h : Autograd.mult g a b = (.ok c, g1)) :
    ∃ res, a < g.tensorNodes_.length ∧ b < g.tensorNodes_.length ∧
      Autograd.wire g (.Mult b) (.Mult a) res a b = (.ok c, g1) := by
  rcases ha : g.tensorOf a with _ | ta
  · unfold Autograd.mult at h; simp [ha] at h
  rcases hb : g.tensorOf b with _ | tb
  · unfold Autograd.mult at h; simp [ha, hb] at h
  rcases hs : Tensor.checkShapes ta tb with _ | _
  · unfold Autograd.mult at h; simp [ha, hb, hs] at h
  rcases hf : Mult.forward tb ta with e | res
  · unfold Autograd.mult at h; simp [ha, hb, hs, hf] at h
  · obtain ⟨_, _, _, halt⟩ := tensorOf_eq_some ha
    obtain ⟨_, _, _, hblt⟩ := tensorOf_eq_some hb
    exact ⟨res, halt, hblt, by rw [← mult_eq_wire g a b ta tb res ha hb hs hf]; exact h⟩

theorem dot_ok_wire (g : Graph) (a b c : Nat) (g1 : Graph)
    (h : Autograd.dot g a b = (.ok c, g1)) :
    ∃ res, a < g.tensorNodes_.length ∧ b < g.tensorNodes_.length ∧
      Autograd.wire g (.Dot b) (.Dot a) res a b = (.ok c, g1) := by
  rcases ha : g.tensorOf a with _ | ta
  · unfold Autograd.dot at h; simp [ha] at h
  rcases hb : g.tensorOf b with _ | tb
  · unfold Autograd.dot at h; simp [ha, hb] at h
  by_cases hn : ta.nDims < tb.nDims
  · unfold Autograd.dot at h; simp [ha, hb, hn] at h
  rcases hs : Autograd.dotShapesDiffer ta tb with _ | _
  · rcases hf : Dot.forward tb ta with e | res
    · unfold Autograd.dot at h; simp [ha, hb, hn, hs, hf] at h
    · obtain ⟨_, _, _, halt⟩ := tensorOf_eq_some ha
      obtain ⟨_, _, _, hblt⟩ := tensorOf_eq_some hb
      exact ⟨res, halt, hblt, by rw [← dot_eq_wire g a b ta tb res ha hb hn hs hf]; exact h⟩
  · unfold Autograd.dot at h; simp [ha, hb, hn, hs] at h

/-- The wiring shared by `mult` and `dot` appends the edge of the first operand, then the
edge of the second, and lists them in that order at the new node. -/
theorem wire_producersInOrder (g : Graph) (op : Nat → Function) (res : Tensor) (a b c : Nat)
    (g1 : Graph) (ha : a < g.tensorNodes_.length) (hb : b < g.tensorNodes_.length)
    (h : Autograd.wire g (op b) (op a) res a b = (.ok c, g1)) :
    c = g.tensorNodes_.length ∧ g1.ProducersInOrder op c a b := by
  obtain ⟨hw, hf, _, hn, _⟩ := wire_spec g (op b) (op a) res a b ha hb
  rw [h] at hw hf hn
  simp only at hf hn
  have hc : c = g.tensorNodes_.length := by
    have := congrArg Prod.fst hw
    simpa using this
  subst hc
  refine ⟨rfl, _, g.functionNodes_.length, g.functionNodes_.length + 1, hn, rfl, rfl, ?_, ?_⟩
  · rw [hf, List.getElem?_append_right (le_refl _)]
    simp
  · rw [hf, List.getElem?_append_right (by omega)]
    simp

theorem keepsProducers_refl (g : Graph) : g.KeepsProducers g :=
  ⟨fun _ _ h => h, fun _ n h => ⟨n, h, rfl, rfl, rfl⟩⟩

theorem keepsProducers_addTensorNode (g : Graph) (t : Tensor) (l r : Bool) :
    g.KeepsProducers (g.addTensorNode t l r).2 := by
  refine ⟨fun _ _ h => h, fun j n h => ⟨n, ?_, rfl, rfl, rfl⟩⟩
  have hlt : j < g.tensorNodes_.length := (List.getElem?_eq_some.mp h).1
  show (g.tensorNodes_ ++ _)[j]? = some n
  rw [List.getElem?_append_left hlt, h]

theorem keepsProducers_wire (g : Graph) (f1 f2 : Function) (res : Tensor) (a b : Nat)
    (ha : a < g.tensorNodes_.length) (hb : b < g.tensorNodes_.length) :
    g.KeepsProducers (Autograd.wire g f1 f2 res a b).2 := by
  obtain ⟨_, hf, _, _, hj⟩ := wire_spec g f1 f2 res a b ha hb
  refine ⟨?_, ?_⟩
  · intro fid fn h
    have hlt : fid < g.functionNodes_.length := (List.getElem?_eq_some.mp h).1
    rw [hf, List.getElem?_append_left hlt, h]
  · intro j n h
    have hlt : j < g.tensorNodes_.length := (List.getElem?_eq_some.mp h).1
    rw [hj j hlt, h]
    exact ⟨_, rfl, rfl, rfl, rfl⟩

theorem keepsProducers_of_skeleton {g g1 : Graph} (h : g1.skeleton = g.skeleton) :
    g.KeepsProducers g1 := by
  refine ⟨?_, ?_⟩
  · intro fid fn hfn
    rw [skeleton_functionNodes h]; exact hfn
  · intro j n hn
    obtain ⟨n1, h1, h2, h3, _, h5, _⟩ := skeleton_node h.symm j n hn
    exact ⟨n1, h1, h3, h5, h2⟩

/-- Every call of the engine leaves the edges and the producer lists that are there. -/
theorem run_keepsProducers (g : Graph) (ho : g.Ordered) (c : Call) :
    g.KeepsProducers (c.run g).2 := by
  cases c with
  | makeTensorCopy t => exact keepsProducers_addTensorNode g t true false
  | makeTensorValue v r => exact keepsProducers_addTensorNode g _ true r
  | makeTensor s v r =>
    show g.KeepsProducers (Output.ofHandle (Autograd.MakeTensor g s v r)).2
    unfold Autograd.MakeTensor
    rcases Tensor.construct s v with e | t
    · exact keepsProducers_refl g
    · exact keepsProducers_addTensorNode g t true r
  | mult a b =>
    have e : ((Call.mult a b).run g).2 = (Autograd.mult g a b).2 := by
      show (Output.ofHandle (Autograd.mult g a b)).2 = _
      unfold Output.ofHandle; split <;> rfl
    rw [e]
    rcases mult_graph g a b with h | ⟨res, ha, hb, h⟩
    · rw [h]; exact keepsProducers_refl g
    · rw [h]; exact keepsProducers_wire g _ _ res a b ha hb
  | dot a b =>
    have e : ((Call.dot a b).run g).2 = (Autograd.dot g a b).2 := by
      show (Output.ofHandle (Autograd.dot g a b)).2 = _
      unfold Output.ofHandle; split <;> rfl
    rw [e]
    rcases dot_graph g a b with h | ⟨res, ha, hb, h⟩
    · rw [h]; exact keepsProducers_refl g
    · rw [h]; exact keepsProducers_wire g _ _ res a b ha hb
  | backward fuel t => exact keepsProducers_of_skeleton (calcGradients_skeleton fuel g t ho)
  | gradient t => exact keepsProducers_refl g

/-- C17: in every graph an engine can hold, the input node of each edge was registered
strictly before its output node, a leaf has no producer edge and a node that is not a leaf
has exactly two; a call `mult(a, b)` or `dot(a, b)` that returns the handle `c` leaves at
`c` the producer list `[edge of a, edge of b]`, the edge of the first operand first, each
edge capturing the other operand, and every later call of the engine keeps the edges and
the producer lists that are there; every path along producer edges descends, so no node is
reachable from itself, and for every registered `t` the walk of `backward(t)` returns with
any recursion budget above `t`. -/
theorem acyclic_and_terminates (g : Graph) (hr : g.Reachable) :
    g.Built ∧
    (∀ (a b c : Nat) (g1 : Graph), Autograd.mult g a b = (.ok c, g1) →
      c = g.tensorNodes_.length ∧ g1.ProducersInOrder .Mult c a b) ∧
    (∀ (a b c : Nat) (g1 : Graph), Autograd.dot g a b = (.ok c, g1) →
      c = g.tensorNodes_.length ∧ g1.ProducersInOrder .Dot c a b) ∧
    (∀ call : Call, g.KeepsProducers (call.run g).2) ∧
    (∀ k j : Nat, g.Upstream k j → j < k) ∧
    (∀ k : Nat, ¬ g.Upstream k k) ∧
    (∀ t fuel : Nat, t < g.tensorNodes_.length → t < fuel →
      (Autograd.backward fuel g t).1 ≠ .error .fuel) := by
  have ho := reachable_ordered g hr
  refine ⟨reachable_built g hr, ?_, ?_, run_keepsProducers g ho,
    fun k j h => upstream_lt ho h, ?_, ?_⟩
  · intro a b c g1 h
    obtain ⟨res, ha, hb, hw⟩ := mult_ok_wire g a b c g1 h
    exact wire_producersInOrder g .Mult res a b c g1 ha hb hw
  · intro a b c g1 h
    obtain ⟨res, ha, hb, hw⟩ := dot_ok_wire g a b c g1 h
    exact wire_producersInOrder g .Dot res a b c g1 ha hb hw
  · intro k h
    exact Nat.lt_irrefl _ (upstream_lt ho h)
  · intro t fuel ht hf
    unfold Autograd.backward Graph.calcGradients
    rcases htt : g.tensorOf t with _ | tt
    · intro h; cases h
    · simp only
      exact (calcGradientsImpl_frame fuel _ t _
        (ordered_of_skeleton (setGrad_skeleton g t _) ho)).2.2 hf

/-- Witness of C17: on the leaves `0 = [2,3]` and `1 = [4,5]`, `mult(0, 1)` returns the node
2 with the producer list `[0, 1]`, edge 0 being `(Mult capturing 1, input 0)` and edge 1
being `(Mult capturing 0, input 1)`; `dot(1, 0)` on the same leaves lists the edge of its
first operand 1 first; the graph of the `mult` is built, a later `dot(2, 2)` keeps its
edges, and its result node is walked with the budget 3. -/
theorem acyclic_and_terminates_witness :
    (Autograd.mult exampleVectors 0 1).2.Built ∧
    (∃ node, (Autograd.mult exampleVectors 0 1).2.tensorNodes_[2]? = some node ∧
      node.isLeaf_ = false ∧ node.prevFunctions_ = [0, 1]) ∧
    (Autograd.mult exampleVectors 0 1).2.functionNodes_
      = [⟨.Mult 1, 2, 0⟩, ⟨.Mult 0, 2, 1⟩] ∧
    (Autograd.mult exampleVectors 0 1).2.ProducersInOrder .Mult 2 0 1 ∧
    (Autograd.dot exampleVectors 1 0).2.ProducersInOrder .Dot 2 1 0 ∧
    (Autograd.dot exampleVectors 1 0).2.functionNodes_
      = [⟨.Dot 0, 2, 1⟩, ⟨.Dot 1, 2, 0⟩] ∧
    (Autograd.mult exampleVectors 0 1).2.KeepsProducers
      ((Call.dot 2 2).run (Autograd.mult exampleVectors 0 1).2).2 ∧
    (Autograd.backward 3 (Autograd.mult exampleVectors 0 1).2 2).1 ≠ .error .fuel :=
  ⟨(acyclic_and_terminates (Autograd.mult exampleVectors 0 1).2
      (Graph.Reachable.mult (Graph.Reachable.makeTensorCopy
        (Graph.Reachable.makeTensorCopy Graph.Reachable.empty _) _) 0 1)).1,
   ⟨_, rfl, rfl, rfl⟩, rfl,
   ((acyclic_and_terminates exampleVectors
      (Graph.Reachable.makeTensorCopy
        (Graph.Reachable.makeTensorCopy Graph.Reachable.empty _) _)).2.1 0 1 2
      (Autograd.mult exampleVectors 0 1).2 rfl).2,
   ((acyclic_and_terminates exampleVectors
      (Graph.Reachable.makeTensorCopy
        (Graph.Reachable.makeTensorCopy Graph.Reachable.empty _) _)).2.2.1 1 0 2
      (Autograd.dot exampleVectors 1 0).2 rfl).2,
   rfl,
   (acyclic_and_terminates (Autograd.mult exampleVectors 0 1).2
      (Graph.Reachable.mult (Graph.Reachable.makeTensorCopy
        (Graph.Reachable.makeTensorCopy Graph.Reachable.empty _) _) 0 1)).2.2.2.1 (.dot 2 2),
   (acyclic_and_terminates (Autograd.mult exampleVectors 0 1).2
      (Graph.Reachable.mult (Graph.Reachable.makeTensorCopy
        (Graph.Reachable.makeTensorCopy Graph.Reachable.empty _) _) 0 1)).2.2.2.2.2.2 2 3
      (by decide) (by decide)⟩

/-! ## The shape of gradients -/

theorem elementLoop_length (f : F32 → F32 → F32) (value other r : List F32)
    (h : elementLoop f value other = .ok r) : r.length = value.length := by
  by_cases hl : value.length ≤ other.length
  · rw [elementLoop_ok f value other hl] at h
    cases h
    rw [List.length_zipWith]
    omega
  · rw [elementLoop_short f value other (by omega)] at h
    cases h

/-- The local gradient of an edge is shaped like the tensor of the input of the edge. -/
theorem functionNode_backward_sameShape (g : Graph) (fn : FunctionNode) (l : Tensor)
    (h : fn.backward g = .ok l) :
    ∃ x, g.tensorOf fn.prevTensor_ = some x ∧ l.SameShape x := by
  unfold FunctionNode.backward at h
  rcases hx : g.tensorOf fn.prevTensor_ with _ | x
  · rw [hx] at h; cases h
  · rw [hx] at h
    simp only at h
    refine ⟨x, rfl, ?_⟩
    unfold Function.backward at h
    rcases hf : fn.f_ with m | m
    · rw [hf] at h
      simp only at h
      rcases hm : g.tensorOf m with _ | mt
      · rw [hm] at h; cases h
      · rw [hm] at h
        simp only at h
        unfold Mult.backward at h
        rcases he : elementLoop (fun _ b => b) x.value mt.value with e | r
        · rw [he] at h; cases h
        · rw [he] at h
          cases h
          exact ⟨rfl, rfl, rfl, elementLoop_length _ _ _ _ he⟩
    · rw [hf] at h
      simp only at h
      rcases hm : g.tensorOf m with _ | mt
      · rw [hm] at h; cases h
      · rw [hm] at h
        simp only at h
        unfold Dot.backward at h
        rcases he : elementLoop (fun _ b => b) x.value mt.value with e | r
        · rw [he] at h; cases h
        · rw [he] at h
          cases h
          exact ⟨rfl, rfl, rfl, elementLoop_length _ _ _ _ he⟩

theorem scaleFirst_sameShape (l grad r : Tensor) (h : scaleFirst l grad = .ok r) :
    r.SameShape l := by
  unfold scaleFirst at h
  split at h
  · cases h
    exact ⟨rfl, rfl, rfl, by simp⟩
  · cases h

theorem setGrad_gradShaped (g : Graph) (p : Nat) (gr x : Tensor) (hg : g.GradShaped)
    (hx : g.tensorOf p = some x) (hs : gr.SameShape x) : (g.setGrad p gr).GradShaped := by
  intro j n1 gr1 hn1 hgr1
  rw [setGrad_getElem?] at hn1
  by_cases hj : j = p
  · rw [if_pos hj] at hn1
    subst hj
    obtain ⟨n, hn, hnt, _⟩ := tensorOf_eq_some hx
    rw [hn] at hn1
    simp only [Option.map_some', Option.some.injEq] at hn1
    subst hn1
    simp only [Option.some.injEq] at hgr1
    subst hgr1
    show gr.SameShape n.tensor_
    rw [hnt]
    exact hs
  · rw [if_neg hj] at hn1
    exact hg j n1 gr1 hn1 hgr1

/-- The walk keeps every assigned gradient shaped like the tensor of its node. -/
theorem calcGradientsImpl_gradShaped (fuel : Nat) :
    ∀ (g : Graph) (k : Nat) (grad : Tensor), g.GradShaped →
      (Graph.calcGradientsImpl fuel g k grad).2.GradShaped := by
  induction fuel with
  | zero => intro g k grad hg; exact hg
  | succ fuel ih =>
    intro g k grad hg
    rw [Graph.calcGradientsImpl]
    rcases hn : g.tensorNodes_[k]? with _ | n
    · exact hg
    · simp only
      by_cases hl : n.isLeaf_ = true
      · rw [if_pos hl]; exact hg
      · rw [if_neg hl]
        have inner : ∀ (fs : List Nat) (st : Except Error Unit × Graph), st.2.GradShaped →
            (fs.foldl (Graph.edgeStep
              (fun g1 h t => Graph.calcGradientsImpl fuel g1 h t) grad) st).2.GradShaped := by
          intro fs
          induction fs with
          | nil => intro st hst; exact hst
          | cons fid fs ihfs =>
            intro st hst
            rw [List.foldl_cons]
            apply ihfs
            obtain ⟨r, g1⟩ := st
            simp only at hst
            unfold Graph.edgeStep
            rcases r with e | u
            · exact hst
            · simp only
              rcases hfn : g1.functionNodes_[fid]? with _ | fn
              · exact hst
              · simp only
                rcases hb : fn.backward g1 with e | l
                · exact hst
                · simp only
                  rcases hsc : scaleFirst l grad with e | newGrad
                  · exact hst
                  · simp only
                    obtain ⟨x, hx, hlx⟩ := functionNode_backward_sameShape g1 fn l hb
                    have hsx : newGrad.SameShape x := by
                      obtain ⟨a1, a2, a3, a4⟩ := scaleFirst_sameShape l grad newGrad hsc
                      obtain ⟨b1, b2, b3, b4⟩ := hlx
                      exact ⟨a1.trans b1, a2.trans b2, a3.trans b3, a4.trans b4⟩
                    exact ih _ _ _ (setGrad_gradShaped g1 _ _ x hst hx hsx)
        exact inner n.prevFunctions_ (.ok (), g) hg

theorem onesAs_sameShape (t : Tensor) : t.onesAs.SameShape t := by
  rw [onesAs_eq]
  exact ⟨rfl, rfl, rfl, by simp⟩

theorem addTensorNode_gradShaped (g : Graph) (t : Tensor) (l r : Bool) (hg : g.GradShaped) :
    (g.addTensorNode t l r).2.GradShaped := by
  intro j n gr hn hgr
  have ht : (g.addTensorNode t l r).2.tensorNodes_
      = g.tensorNodes_ ++ [(⟨t, [], [], l, r, none⟩ : TensorNode)] := rfl
  rw [ht] at hn
  by_cases hj : j < g.tensorNodes_.length
  · rw [List.getElem?_append_left hj] at hn
    exact hg j n gr hn hgr
  · rw [List.getElem?_append_right (by omega)] at hn
    rcases hjj : j - g.tensorNodes_.length with _ | m
    · rw [hjj] at hn
      simp only [List.getElem?_cons_zero, Option.some.injEq] at hn
      subst hn
      cases hgr
    · rw [hjj] at hn
      simp at hn

theorem wire_gradShaped (g : Graph) (f1 f2 : Function) (res : Tensor) (a b : Nat)
    (ha : a < g.tensorNodes_.length) (hb : b < g.tensorNodes_.length) (hg : g.GradShaped) :
    (Autograd.wire g f1 f2 res a b).2.GradShaped := by
  obtain ⟨_, _, hlen, hnode, hold⟩ := wire_spec g f1 f2 res a b ha hb
  intro j n gr hn hgr
  rcases Nat.lt_trichotomy j g.tensorNodes_.length with hj | hj | hj
  · rw [hold j hj] at hn
    rcases hg0 : g.tensorNodes_[j]? with _ | n0
    · rw [hg0] at hn; cases hn
    · rw [hg0] at hn
      simp only [Option.map_some', Option.some.injEq] at hn
      subst hn
      exact hg j n0 gr hg0 hgr
  · subst hj
    rw [hnode] at hn
    simp only [Option.some.injEq] at hn
    subst hn
    cases hgr
  · have : (Autograd.wire g f1 f2 res a b).2.tensorNodes_[j]? = none :=
      List.getElem?_eq_none (by rw [hlen]; omega)
    rw [this] at hn
    cases hn

/-- In every graph an engine can hold the assigned gradients are shaped like the tensors of
their nodes. -/
theorem reachable_gradShaped (g : Graph) (hr : g.Reachable) : g.GradShaped := by
  induction hr with
  | empty =>
    intro j n gr hn _
    simp [Graph.empty] at hn
  | makeTensorCopy _ t ih => exact addTensorNode_gradShaped _ _ _ _ ih
  | makeTensorValue _ v r ih => exact addTensorNode_gradShaped _ _ _ _ ih
  | @makeTensor g0 _ shape value r ih =>
    unfold Autograd.MakeTensor
    rcases Tensor.construct shape value with e | t
    · exact ih
    · exact addTensorNode_gradShaped _ _ _ _ ih
  | @mult g0 _ a b ih =>
    rcases mult_graph g0 a b with h1 | ⟨res, ha, hb, h1⟩
    · rw [h1]; exact ih
    · rw [h1]; exact wire_gradShaped _ _ _ _ _ _ ha hb ih
  | @dot g0 _ a b ih =>
    rcases dot_graph g0 a b with h1 | ⟨res, ha, hb, h1⟩
    · rw [h1]; exact ih
    · rw [h1]; exact wire_gradShaped _ _ _ _ _ _ ha hb ih
  | @backward g0 _ fuel t ih =>
    unfold Autograd.backward Graph.calcGradients
    rcases ht : g0.tensorOf t with _ | tt
    · exact ih
    · simp only
      exact calcGradientsImpl_gradShaped fuel _ _ _
        (setGrad_gradShaped g0 t _ tt ih ht (onesAs_sameShape tt))

/-- C19: in every graph an engine can hold, after any number of `backward` calls, every
node whose gradient slot has been assigned holds a gradient with the `nDims`, the shape,
the element count and the number of values of the tensor of the node.  (This needs no
assumption on the shapes of the operands: a gradient is the seed, a copy of the tensor of
its node, or a copy of the tensor of the input of an edge with values overwritten in place.) -/
theorem gradient_shape_invariant (g : Graph) (hr : g.Reachable) (j : Nat) (n : TensorNode)
    (gr : Tensor) (hn : g.tensorNodes_[j]? = some n) (hgr : n.grad_ = some gr) :
    gr.nDims = n.tensor_.nDims ∧ gr.shape = n.tensor_.shape ∧
    gr.totalNumOfElements = n.tensor_.totalNumOfElements ∧
    gr.value.length = n.tensor_.value.length :=
  reachable_gradShaped g hr j n gr hn hgr

/-- Witness of C19: the gradient `[4,5]` of the leaf `[2,3]` after `mult` with `[4,5]` and
`backward` of the result. -/
theorem gradient_shape_invariant_witness :
    (Tensor.mk 1 [2] 2 [4, 5]).nDims = (Tensor.mk 1 [2] 2 [2, 3]).nDims ∧
    (Tensor.mk 1 [2] 2 [4, 5]).shape = (Tensor.mk 1 [2] 2 [2, 3]).shape ∧
    (Tensor.mk 1 [2] 2 [4, 5]).totalNumOfElements
      = (Tensor.mk 1 [2] 2 [2, 3]).totalNumOfElements ∧
    (Tensor.mk 1 [2] 2 [4, 5]).value.length = (Tensor.mk 1 [2] 2 [2, 3]).value.length :=
  gradient_shape_invariant
    (Autograd.backward 2 (Autograd.mult exampleVectors 0 1).2 2).2
    (Graph.Reachable.backward (Graph.Reachable.mult (Graph.Reachable.makeTensorCopy
      (Graph.Reachable.makeTensorCopy Graph.Reachable.empty _) _) 0 1) 2 2)
    0 ⟨Tensor.mk 1 [2] 2 [2, 3], [0], [], true, false, some (Tensor.mk 1 [2] 2 [4, 5])⟩
    (Tensor.mk 1 [2] 2 [4, 5]) (by decide) rfl

/-! ## The frame of `backward` and of the builders -/

theorem upstream_of_skeleton {g1 g : Graph} (h : g1.skeleton = g.skeleton) {k j : Nat}
    (hu : g1.Upstream k j) : g.Upstream k j := by
  induction hu with
  | @edge k n1 fid fn hn hfid hfn =>
    obtain ⟨n, hg, _, hp, _⟩ := skeleton_node h k n1 hn
    rw [skeleton_functionNodes h] at hfn
    exact Graph.Upstream.edge hg (by rw [hp]; exact hfid) hfn
  | @step k n1 fid fn j hn hfid hfn _ ih =>
    obtain ⟨n, hg, _, hp, _⟩ := skeleton_node h k n1 hn
    rw [skeleton_functionNodes h] at hfn
    exact Graph.Upstream.step hg (by rw [hp]; exact hfid) hfn ih

/-- The walk started at node `k` changes gradient slots only, and only of nodes that are
reachable from `k` through producer edges. -/
theorem calcGradientsImpl_upstream (fuel : Nat) :
    ∀ (g : Graph) (k : Nat) (grad : Tensor),
      (Graph.calcGradientsImpl fuel g k grad).2.skeleton = g.skeleton ∧
      (∀ j : Nat, ¬ g.Upstream k j →
        (Graph.calcGradientsImpl fuel g k grad).2.tensorNodes_[j]? = g.tensorNodes_[j]?) := by
  induction fuel with
  | zero => intro g k grad; exact ⟨rfl, fun _ _ => rfl⟩
  | succ fuel ih =>
    intro g k grad
    rw [Graph.calcGradientsImpl]
    rcases hn : g.tensorNodes_[k]? with _ | n
    · exact ⟨rfl, fun _ _ => rfl⟩
    · simp only
      by_cases hl : n.isLeaf_ = true
      · rw [if_pos hl]; exact ⟨rfl, fun _ _ => rfl⟩
      · rw [if_neg hl]
        have inner : ∀ (fs : List Nat), (∀ fid ∈ fs, fid ∈ n.prevFunctions_) →
            ∀ st : Except Error Unit × Graph,
              (st.2.skeleton = g.skeleton ∧
                ∀ j : Nat, ¬ g.Upstream k j → st.2.tensorNodes_[j]? = g.tensorNodes_[j]?) →
              ((fs.foldl (Graph.edgeStep
                  (fun g1 h t => Graph.calcGradientsImpl fuel g1 h t) grad) st).2.skeleton
                  = g.skeleton ∧
                ∀ j : Nat, ¬ g.Upstream k j →
                  (fs.foldl (Graph.edgeStep
                    (fun g1 h t => Graph.calcGradientsImpl fuel g1 h t) grad)
                    st).2.tensorNodes_[j]? = g.tensorNodes_[j]?) := by
          intro fs
          induction fs with
          | nil => intro _ st hst; exact hst
          | cons fid fs ihfs =>
            intro hall st hst
            rw [List.foldl_cons]
            apply ihfs (fun fid2 h2 => hall fid2 (List.mem_cons_of_mem _ h2))
            obtain ⟨r, g1⟩ := st
            obtain ⟨hsk, hfr⟩ := hst
            simp only at hsk hfr
            unfold Graph.edgeStep
            rcases r with e | u
            · exact ⟨hsk, hfr⟩
            · simp only
              rcases hfn : g1.functionNodes_[fid]? with _ | fn
              · exact ⟨hsk, hfr⟩
              · simp only
                rcases hb : fn.backward g1 with e | newGrad0
                · exact ⟨hsk, hfr⟩
                · simp only
                  rcases hsc : scaleFirst newGrad0 grad with e | newGrad
                  · exact ⟨hsk, hfr⟩
                  · simp only
                    have hfg : g.functionNodes_[fid]? = some fn := by
                      rw [← skeleton_functionNodes hsk]; exact hfn
                    have hup : g.Upstream k fn.prevTensor_ :=
                      Graph.Upstream.edge hn (hall fid (List.mem_cons_self _ _)) hfg
                    have hsk1 : (g1.setGrad fn.prevTensor_ newGrad).skeleton = g.skeleton := by
                      rw [setGrad_skeleton]; exact hsk
                    obtain ⟨i1, i2⟩ := ih (g1.setGrad fn.prevTensor_ newGrad)
                      fn.prevTensor_ newGrad
                    refine ⟨by rw [i1]; exact hsk1, ?_⟩
                    intro j hj
                    have hjp : j ≠ fn.prevTensor_ := by
                      intro e
                      rw [e] at hj
                      exact hj hup
                    have hnot : ¬ (g1.setGrad fn.prevTensor_ newGrad).Upstream
                        fn.prevTensor_ j := by
                      intro hu
                      exact hj (Graph.Upstream.step hn (hall fid (List.mem_cons_self _ _))
                        hfg (upstream_of_skeleton hsk1 hu))
                    rw [i2 j hnot, setGrad_getElem?, if_neg hjp]
                    exact hfr j hj
        exact inner n.prevFunctions_ (fun _ h => h) (.ok (), g) ⟨rfl, fun _ _ => rfl⟩

/-- C16: `backward(t)` changes gradient slots only: the function nodes, the number of
tensor nodes, and of every node the tensor (shape and values), both edge lists and both
flags are the same after the call, and a node other than `t` that is not reachable from
`t` through producer edges keeps its gradient slot too; `mult` and `dot` leave the tensor
of every registered handle as it was.  (`forward` and `backward` of `Mult` and `Dot` work
on a fresh copy and only read their operands: in the model they are functions of the
operand values.) -/
theorem backward_frame (g : Graph) (fuel t : Nat) :
    (Autograd.backward fuel g t).2.skeleton = g.skeleton ∧
    (Autograd.backward fuel g t).2.functionNodes_ = g.functionNodes_ ∧
    (Autograd.backward fuel g t).2.tensorNodes_.length = g.tensorNodes_.length ∧
    (∀ (j : Nat) (n1 : TensorNode),
      (Autograd.backward fuel g t).2.tensorNodes_[j]? = some n1 →
      ∃ n, g.tensorNodes_[j]? = some n ∧ n.tensor_ = n1.tensor_ ∧
        n.prevFunctions_ = n1.prevFunctions_ ∧ n.nextFunctions_ = n1.nextFunctions_ ∧
        n.isLeaf_ = n1.isLeaf_ ∧ n.requiresGrad_ = n1.requiresGrad_) ∧
    (∀ j : Nat, j ≠ t → ¬ g.Upstream t j →
      (Autograd.backward fuel g t).2.tensorNodes_[j]? = g.tensorNodes_[j]?) ∧
    (∀ a b j : Nat, j < g.tensorNodes_.length →
      (Autograd.mult g a b).2.tensorOf j = g.tensorOf j ∧
      (Autograd.dot g a b).2.tensorOf j = g.tensorOf j) := by
  have hsk : (Autograd.backward fuel g t).2.skeleton = g.skeleton ∧
      (∀ j : Nat, j ≠ t → ¬ g.Upstream t j →
        (Autograd.backward fuel g t).2.tensorNodes_[j]? = g.tensorNodes_[j]?) := by
    unfold Autograd.backward Graph.calcGradients
    rcases ht : g.tensorOf t with _ | tt
    · exact ⟨rfl, fun _ _ _ => rfl⟩
    · simp only
      obtain ⟨i1, i2⟩ := calcGradientsImpl_upstream fuel (g.setGrad t tt.onesAs) t tt.onesAs
      refine ⟨by rw [i1, setGrad_skeleton], ?_⟩
      intro j hjt hj
      rw [i2 j (fun hu => hj (upstream_of_skeleton (setGrad_skeleton g t _) hu)),
        setGrad_getElem?, if_neg hjt]
  refine ⟨hsk.1, skeleton_functionNodes hsk.1, skeleton_length hsk.1,
    fun j n1 h => skeleton_node hsk.1 j n1 h, hsk.2, ?_⟩
  intro a b j hj
  constructor
  · rcases mult_graph g a b with h1 | ⟨res, ha, hb, h1⟩
    · rw [h1]
    · rw [h1]; exact (wire_tensorOf g _ _ res a b ha hb).2 j hj
  · rcases dot_graph g a b with h1 | ⟨res, ha, hb, h1⟩
    · rw [h1]
    · rw [h1]; exact (wire_tensorOf g _ _ res a b ha hb).2 j hj

/-- Witness of C16: after `c = mult(a, b)` on the leaves `[2,3]` and `[4,5]` and a further
leaf `7`, `backward(c)` leaves the node of the leaf `7` as it was. -/
theorem backward_frame_witness :
    (Autograd.backward 2
        (Autograd.MakeTensorValue (Autograd.mult exampleVectors 0 1).2 7 false).2
        2).2.tensorNodes_[3]?
      = (Autograd.MakeTensorValue (Autograd.mult exampleVectors 0 1).2 7
          false).2.tensorNodes_[3]? :=
  (backward_frame (Autograd.MakeTensorValue (Autograd.mult exampleVectors 0 1).2 7 false).2
    2 2).2.2.2.2.1 3 (by decide) (by
      intro h
      have h2 := upstream_lt (reachable_ordered _
        (Graph.Reachable.makeTensorValue (Graph.Reachable.mult
          (Graph.Reachable.makeTensorCopy
            (Graph.Reachable.makeTensorCopy Graph.Reachable.empty _) _) 0 1) 7 false)) h
      omega)

/-! ## Overwriting of gradients -/

theorem tensorOf_of_skeleton {g1 g : Graph} (h : g1.skeleton = g.skeleton) (j : Nat) :
    g1.tensorOf j = g.tensorOf j := by
  have h2 : g1.tensorNodes_.map (fun n => ({ n with grad_ := none } : TensorNode))
      = g.tensorNodes_.map (fun n => ({ n with grad_ := none } : TensorNode)) :=
    congrArg Graph.tensorNodes_ h
  have h3 := congrArg (fun l => l[j]?) h2
  simp only [List.getElem?_map] at h3
  unfold Graph.tensorOf
  rcases h1 : g1.tensorNodes_[j]? with _ | n1 <;> rcases h0 : g.tensorNodes_[j]? with _ | n0
  · rfl
  · rw [h1, h0] at h3; cases h3
  · rw [h1, h0] at h3; cases h3
  · rw [h1, h0] at h3
    simp only [Option.map_some', Option.some.injEq, TensorNode.mk.injEq] at h3
    simp only [h3.1]

theorem functionNode_backward_of_skeleton {g1 g : Graph} (h : g1.skeleton = g.skeleton)
    (fn : FunctionNode) : fn.backward g1 = fn.backward g := by
  unfold FunctionNode.backward Function.backward
  simp only [tensorOf_of_skeleton h]

/-- The loop over producer edges of node `k` in a graph whose edges point backwards keeps
everything but gradient slots, and keeps the slots at position `k` and later. -/
theorem edgeLoop_frame (fuel : Nat) (g : Graph) (ho : g.Ordered) (k : Nat) (grad : Tensor) :
    ∀ (fs : List Nat),
      (∀ fid ∈ fs, ∀ fn : FunctionNode,
        g.functionNodes_[fid]? = some fn → fn.prevTensor_ < k) →
      ∀ st : Except Error Unit × Graph,
        (st.2.skeleton = g.skeleton ∧
          ∀ j : Nat, k ≤ j → st.2.tensorNodes_[j]? = g.tensorNodes_[j]?) →
        ((fs.foldl (Graph.edgeStep
            (fun g1 h t => Graph.calcGradientsImpl fuel g1 h t) grad) st).2.skeleton
            = g.skeleton ∧
          ∀ j : Nat, k ≤ j →
            (fs.foldl (Graph.edgeStep
              (fun g1 h t => Graph.calcGradientsImpl fuel g1 h t) grad)
              st).2.tensorNodes_[j]? = g.tensorNodes_[j]?) := by
  intro fs
  induction fs with
  | nil => intro _ st hst; exact hst
  | cons fid fs ihfs =>
    intro hall st hst
    rw [List.foldl_cons]
    apply ihfs (fun fid2 h2 => hall fid2 (List.mem_cons_of_mem _ h2))
    obtain ⟨r, g1⟩ := st
    obtain ⟨hsk, hfr⟩ := hst
    simp only at hsk hfr
    unfold Graph.edgeStep
    rcases r with e | u
    · exact ⟨hsk, hfr⟩
    · simp only
      rcases hfn : g1.functionNodes_[fid]? with _ | fn
      · exact ⟨hsk, hfr⟩
      · simp only
        rcases hb : fn.backward g1 with e | newGrad0
        · exact ⟨hsk, hfr⟩
        · simp only
          rcases hsc : scaleFirst newGrad0 grad with e | newGrad
          · exact ⟨hsk, hfr⟩
          · simp only
            have hp : fn.prevTensor_ < k := by
              apply hall fid (List.mem_cons_self _ _) fn
              rw [← skeleton_functionNodes hsk]
              exact hfn
            have hsk1 : (g1.setGrad fn.prevTensor_ newGrad).skeleton = g.skeleton := by
              rw [setGrad_skeleton]; exact hsk
            obtain ⟨i1, i2, _⟩ := calcGradientsImpl_frame fuel
              (g1.setGrad fn.prevTensor_ newGrad) fn.prevTensor_ newGrad
              (ordered_of_skeleton hsk1 ho)
            refine ⟨by rw [i1]; exact hsk1, ?_⟩
            intro j hj
            rw [i2 j (by omega), setGrad_getElem?, if_neg (by omega)]
            exact hfr j hj

/-- The last producer edge of a node decides: when the walk over a node of a graph whose
edges point backwards returns normally, the input of the last producer edge holds the
local gradient of that edge, scaled in its first element by the gradient of the node,
whatever earlier edges have assigned to it. -/
theorem last_edge_assignment (g : Graph) (ho : g.Ordered) (k : Nat) (n : TensorNode)
    (fs : List Nat) (fid : Nat) (fuel : Nat) (grad : Tensor)
    (hn : g.tensorNodes_[k]? = some n) (hl : n.isLeaf_ = false)
    (hp : n.prevFunctions_ = fs ++ [fid])
    (hok : (Graph.calcGradientsImpl (fuel + 1) g k grad).1 = .ok ()) :
    ∃ (fn : FunctionNode) (l gr : Tensor), g.functionNodes_[fid]? = some fn ∧
      fn.backward g = .ok l ∧ scaleFirst l grad = .ok gr ∧
      Autograd.gradient (Graph.calcGradientsImpl (fuel + 1) g k grad).2 fn.prevTensor_
        = .ok (some gr) := by
  rw [calcGradientsImpl_nonleaf fuel g k grad n hn hl, hp, List.foldl_append] at hok ⊢
  simp only [List.foldl_cons, List.foldl_nil] at hok ⊢
  have hall : ∀ f ∈ fs, ∀ fn : FunctionNode,
      g.functionNodes_[f]? = some fn → fn.prevTensor_ < k := by
    intro f hf fn hfn
    obtain ⟨fn2, hfn2, hlt⟩ := ho k n hn f (by rw [hp]; exact List.mem_append_left _ hf)
    rw [hfn] at hfn2
    cases hfn2
    exact hlt
  obtain ⟨hsk, _⟩ := edgeLoop_frame fuel g ho k grad fs hall (.ok (), g)
    ⟨rfl, fun _ _ => rfl⟩
  generalize fs.foldl (Graph.edgeStep
    (fun g1 h t => Graph.calcGradientsImpl fuel g1 h t) grad) (.ok (), g) = st at hsk hok ⊢
  obtain ⟨r, g1⟩ := st
  simp only at hsk
  unfold Graph.edgeStep at hok ⊢
  rcases r with e | u
  · cases hok
  · simp only at hok ⊢
    rcases hfn : g1.functionNodes_[fid]? with _ | fn
    · rw [hfn] at hok; cases hok
    · rw [hfn] at hok
      simp only [hfn] at hok ⊢
      rcases hb : fn.backward g1 with e | l
      · rw [hb] at hok; cases hok
      · simp only [hb] at hok ⊢
        rcases hsc : scaleFirst l grad with e | gr
        · rw [hsc] at hok; cases hok
        · simp only [hsc] at hok ⊢
          have hfg : g.functionNodes_[fid]? = some fn := by
            rw [← skeleton_functionNodes hsk]; exact hfn
          have hbg : fn.backward g = .ok l := by
            rw [← functionNode_backward_of_skeleton hsk]; exact hb
          refine ⟨fn, l, gr, hfg, hbg, hsc, ?_⟩
          have hsk1 : (g1.setGrad fn.prevTensor_ gr).skeleton = g.skeleton := by
            rw [setGrad_skeleton]; exact hsk
          obtain ⟨_, i2, _⟩ := calcGradientsImpl_frame fuel (g1.setGrad fn.prevTensor_ gr)
            fn.prevTensor_ gr (ordered_of_skeleton hsk1 ho)
          obtain ⟨x, hx, _⟩ := functionNode_backward_sameShape g1 fn l hb
          obtain ⟨np, hnp, _, _⟩ := tensorOf_eq_some hx
          obtain ⟨np1, hnp1, _, _, _, hg⟩ := setGrad_node g1 fn.prevTensor_ gr _ np hnp
          rw [getGradient_of_node _ _ np1 (by rw [i2 _ (le_refl _)]; exact hnp1), hg,
            if_pos rfl]

theorem checkShapes_self (t : Tensor) : Tensor.checkShapes t t = true := by
  unfold Tensor.checkShapes
  simp

theorem dotShapesDiffer_self (t : Tensor) : Autograd.dotShapesDiffer t t = false := by
  unfold Autograd.dotShapesDiffer
  simp

/-- C15: a gradient is overwritten, not accumulated.  When the walk over a node returns
normally, the input of the last producer edge of the node holds what that edge assigned,
whatever was assigned before.  For every leaf `a` with at least one element, after
`c = mult(a, a)` and `backward(c)`, and likewise after `c = dot(a, a)` and `backward(c)`,
`gradient(a)` is the tensor of `a` itself (its values once, not twice).  For the leaves
`b = [2,3]` and `x = [5,7]` with `a = mult(b, x)` and `c = mult(b, a)`, `backward(c)` leaves
in `gradient(b)` the last assignment `[10,7]`, not the first one `[10,21]` nor their sum. -/
theorem gradient_overwritten :
    (∀ (g : Graph) (k : Nat) (n : TensorNode) (fs : List Nat) (fid : Nat) (fuel : Nat)
      (grad : Tensor), g.Ordered → g.tensorNodes_[k]? = some n → n.isLeaf_ = false →
      n.prevFunctions_ = fs ++ [fid] →
      (Graph.calcGradientsImpl (fuel + 1) g k grad).1 = .ok () →
      ∃ (fn : FunctionNode) (l gr : Tensor), g.functionNodes_[fid]? = some fn ∧
        fn.backward g = .ok l ∧ scaleFirst l grad = .ok gr ∧
        Autograd.gradient (Graph.calcGradientsImpl (fuel + 1) g k grad).2 fn.prevTensor_
          = .ok (some gr)) ∧
    (∀ (g : Graph) (a : Nat) (na : TensorNode), g.tensorNodes_[a]? = some na →
      na.isLeaf_ = true → 0 < na.tensor_.value.length →
      (∃ c g1, Autograd.mult g a a = (.ok c, g1) ∧
        ∀ fuel : Nat, ∃ g2, Autograd.backward (fuel + 2) g1 c = (.ok (), g2) ∧
          Autograd.gradient g2 a = .ok (some na.tensor_)) ∧
      (∃ c g1, Autograd.dot g a a = (.ok c, g1) ∧
        ∀ fuel : Nat, ∃ g2, Autograd.backward (fuel + 2) g1 c = (.ok (), g2) ∧
          Autograd.gradient g2 a = .ok (some na.tensor_))) ∧
    (∀ n : Nat, reusedLeaf (n + 3) = .ok (some (Tensor.mk 1 [2] 2 [10, 7]))) := by
  refine ⟨?_, ?_, fun _ => rfl⟩
  · intro g k n fs fid fuel grad ho hn hl hp hok
    exact last_edge_assignment g ho k n fs fid fuel grad hn hl hp hok
  · intro g a na hna hla h0
    have hta : g.tensorOf a = some na.tensor_ := by unfold Graph.tensorOf; rw [hna]
    obtain ⟨_, _, _, halt⟩ := tensorOf_eq_some hta
    constructor
    · have hf : Mult.forward na.tensor_ na.tensor_
          = .ok { na.tensor_ with
              value := List.zipWith (fun x y => x * y) na.tensor_.value na.tensor_.value } := by
        unfold Mult.forward
        rw [elementLoop_ok _ _ _ (le_refl _)]
      have hm := mult_eq_wire g a a _ _ _ hta hta (checkShapes_self _) hf
      refine ⟨g.tensorNodes_.length, (Autograd.mult g a a).2, ?_, ?_⟩
      · rw [hm, (wire_spec g _ _ _ a a halt halt).1]
      · intro fuel
        rw [hm]
        obtain ⟨g2, h1, h2, _⟩ := wire_backward_leaves g a a na na
          { na.tensor_ with
            value := List.zipWith (fun x y => x * y) na.tensor_.value na.tensor_.value }
          (.Mult a) (.Mult a) (Or.inl ⟨rfl, rfl⟩) hna hna hla hla rfl h0
          (by show 0 < (List.zipWith (fun x y => x * y) na.tensor_.value
                na.tensor_.value).length
              rw [List.length_zipWith]; simpa using h0) fuel
        exact ⟨g2, h1, h2⟩
    · have hf := dotForward_ok na.tensor_ na.tensor_ h0 (le_refl _)
      have hm := dot_eq_wire g a a _ _ _ hta hta (Nat.lt_irrefl _) (dotShapesDiffer_self _) hf
      refine ⟨g.tensorNodes_.length, (Autograd.dot g a a).2, ?_, ?_⟩
      · rw [hm, (wire_spec g _ _ _ a a halt halt).1]
      · intro fuel
        rw [hm]
        obtain ⟨g2, h1, h2, _⟩ := wire_backward_leaves g a a na na
          (Tensor.ofValue (dotValue na.tensor_.value na.tensor_.value))
          (.Dot a) (.Dot a) (Or.inr ⟨rfl, rfl⟩) hna hna hla hla rfl h0
          (by show 0 < [dotValue na.tensor_.value na.tensor_.value].length
              simp) fuel
        exact ⟨g2, h1, h2⟩

/-- Witness of C15: the leaf `[2,3]` multiplied with itself, and the walk over the result
of `mult` on the leaves `[2,3]` and `[4,5]`, whose last producer edge is the edge 1. -/
theorem gradient_overwritten_witness :
    (∃ c g1, Autograd.mult exampleVectors 0 0 = (.ok c, g1) ∧
      ∀ fuel : Nat, ∃ g2, Autograd.backward (fuel + 2) g1 c = (.ok (), g2) ∧
        Autograd.gradient g2 0 = .ok (some (Tensor.mk 1 [2] 2 [2, 3]))) ∧
    (∃ (fn : FunctionNode) (l gr : Tensor),
      (Autograd.mult exampleVectors 0 1).2.functionNodes_[1]? = some fn ∧
      fn.backward (Autograd.mult exampleVectors 0 1).2 = .ok l ∧
      scaleFirst l (Tensor.mk 1 [2] 2 [1, 1]) = .ok gr ∧
      Autograd.gradient
        (Graph.calcGradientsImpl (1 + 1) (Autograd.mult exampleVectors 0 1).2 2
          (Tensor.mk 1 [2] 2 [1, 1])).2 fn.prevTensor_ = .ok (some gr)) :=
  ⟨(gradient_overwritten.2.1 exampleVectors 0
      ⟨Tensor.mk 1 [2] 2 [2, 3], [], [], true, false, none⟩ rfl rfl (by decide)).1,
   gradient_overwritten.1 (Autograd.mult exampleVectors 0 1).2 2
      ⟨Tensor.mk 1 [2] 2 [8, 15], [], [0, 1], false, false, none⟩ [0] 1 1
      (Tensor.mk 1 [2] 2 [1, 1])
      (reachable_ordered _ (Graph.Reachable.mult (Graph.Reachable.makeTensorCopy
        (Graph.Reachable.makeTensorCopy Graph.Reachable.empty _) _) 0 1))
      (by decide) rfl rfl (by decide)⟩

/-! ## The flag `requiresGrad_` -/

theorem erase_getElem? (g : Graph) (j : Nat) :
    g.eraseRequiresGrad.tensorNodes_[j]?
      = (g.tensorNodes_[j]?).map (fun n => ({ n with requiresGrad_ := false } : TensorNode)) := by
  simp [Graph.eraseRequiresGrad]

theorem erase_tensorOf (g : Graph) (j : Nat) :
    g.eraseRequiresGrad.tensorOf j = g.tensorOf j := by
  unfold Graph.tensorOf
  rw [erase_getElem?]
  rcases g.tensorNodes_[j]? with _ | n <;> rfl

theorem erase_updateNode (g : Graph) (h : Nat) (f : TensorNode → TensorNode)
    (hf : ∀ n : TensorNode,
      ({ f n with requiresGrad_ := false } : TensorNode) = f { n with requiresGrad_ := false }) :
    (g.updateNode h f).eraseRequiresGrad = g.eraseRequiresGrad.updateNode h f := by
  unfold Graph.updateNode
  rw [erase_getElem?]
  rcases g.tensorNodes_[h]? with _ | n
  · rfl
  · simp only [Option.map_some']
    unfold Graph.eraseRequiresGrad
    simp only [List.map_set, hf]

theorem erase_setGrad (g : Graph) (h : Nat) (t : Tensor) :
    (g.setGrad h t).eraseRequiresGrad = g.eraseRequiresGrad.setGrad h t :=
  erase_updateNode g h _ (fun _ => rfl)

theorem erase_addTensorNode (g : Graph) (t : Tensor) (l r : Bool) :
    g.eraseRequiresGrad.addTensorNode t l false
      = ((g.addTensorNode t l r).1, (g.addTensorNode t l r).2.eraseRequiresGrad) := by
  simp [Graph.addTensorNode, Graph.eraseRequiresGrad]

theorem erase_addFunctionNode (g : Graph) (f : Function) (x y : Nat) :
    g.eraseRequiresGrad.addFunctionNode f x y
      = ((g.addFunctionNode f x y).1, (g.addFunctionNode f x y).2.eraseRequiresGrad) := by
  have hlen : g.eraseRequiresGrad.tensorNodes_.length = g.tensorNodes_.length := by
    simp [Graph.eraseRequiresGrad]
  have hfn : g.eraseRequiresGrad.functionNodes_ = g.functionNodes_ := rfl
  unfold Graph.addFunctionNode
  rw [hlen, hfn]
  by_cases hc : x < g.tensorNodes_.length ∧ y < g.tensorNodes_.length
  · rw [if_pos hc, if_pos hc]
    simp only [updateNode_functionNodes, hfn]
    rw [← erase_updateNode g x _ (fun _ => rfl), ← erase_updateNode _ y _ (fun _ => rfl)]
    rfl
  · rw [if_neg hc, if_neg hc]

theorem erase_wire (g : Graph) (f1 f2 : Function) (res : Tensor) (a b : Nat) :
    Autograd.wire g.eraseRequiresGrad f1 f2 res a b
      = ((Autograd.wire g f1 f2 res a b).1,
         (Autograd.wire g f1 f2 res a b).2.eraseRequiresGrad) := by
  unfold Autograd.wire
  simp only [erase_addTensorNode g res false false, erase_addFunctionNode]
  rcases h1 : (g.addTensorNode res false false).2.addFunctionNode f1
      (g.addTensorNode res false false).1 a with ⟨r1, g1⟩
  rcases r1 with e | u
  · rfl
  · simp only [erase_addFunctionNode]
    rcases h2 : g1.addFunctionNode f2 (g.addTensorNode res false false).1 b with ⟨r2, g2⟩
    rcases r2 with e | u
    · rfl
    · rfl

theorem erase_mult (g : Graph) (a b : Nat) :
    Autograd.mult g.eraseRequiresGrad a b
      = ((Autograd.mult g a b).1, (Autograd.mult g a b).2.eraseRequiresGrad) := by
  rcases ha : g.tensorOf a with _ | ta
  · unfold Autograd.mult; simp only [erase_tensorOf, ha]
  rcases hb : g.tensorOf b with _ | tb
  · unfold Autograd.mult; simp only [erase_tensorOf, ha, hb]
  rcases hs : Tensor.checkShapes ta tb with _ | _
  · unfold Autograd.mult; simp [erase_tensorOf, ha, hb, hs]
  rcases hf : Mult.forward tb ta with e | res
  · unfold Autograd.mult; simp [erase_tensorOf, ha, hb, hs, hf]
  · rw [mult_eq_wire g a b ta tb res ha hb hs hf,
      mult_eq_wire g.eraseRequiresGrad a b ta tb res (by rw [erase_tensorOf, ha])
        (by rw [erase_tensorOf, hb]) hs hf]
    exact erase_wire _ _ _ _ _ _

theorem erase_dot (g : Graph) (a b : Nat) :
    Autograd.dot g.eraseRequiresGrad a b
      = ((Autograd.dot g a b).1, (Autograd.dot g a b).2.eraseRequiresGrad) := by
  rcases ha : g.tensorOf a with _ | ta
  · unfold Autograd.dot; simp only [erase_tensorOf, ha]
  rcases hb : g.tensorOf b with _ | tb
  · unfold Autograd.dot; simp only [erase_tensorOf, ha, hb]
  by_cases hn : ta.nDims < tb.nDims
  · unfold Autograd.dot; simp [erase_tensorOf, ha, hb, hn]
  rcases hs : Autograd.dotShapesDiffer ta tb with _ | _
  · rcases hf : Dot.forward tb ta with e | res
    · unfold Autograd.dot; simp [erase_tensorOf, ha, hb, hn, hs, hf]
    · rw [dot_eq_wire g a b ta tb res ha hb hn hs hf,
        dot_eq_wire g.eraseRequiresGrad a b ta tb res (by rw [erase_tensorOf, ha])
          (by rw [erase_tensorOf, hb]) hn hs hf]
      exact erase_wire _ _ _ _ _ _
  · unfold Autograd.dot; simp [erase_tensorOf, ha, hb, hn, hs]

theorem erase_functionNode_backward (g : Graph) (fn : FunctionNode) :
    fn.backward g.eraseRequiresGrad = fn.backward g := by
  unfold FunctionNode.backward Function.backward
  simp only [erase_tensorOf]

/-- The walk does not read the flag `requiresGrad_`: on the graph with the flags erased it
has the same outcome and leaves the same graph with the flags erased. -/
theorem erase_calcGradientsImpl (fuel : Nat) :
    ∀ (g : Graph) (k : Nat) (grad : Tensor),
      Graph.calcGradientsImpl fuel g.eraseRequiresGrad k grad
        = ((Graph.calcGradientsImpl fuel g k grad).1,
           (Graph.calcGradientsImpl fuel g k grad).2.eraseRequiresGrad) := by
  induction fuel with
  | zero => intro g k grad; rfl
  | succ fuel ih =>
    intro g k grad
    rw [Graph.calcGradientsImpl, Graph.calcGradientsImpl, erase_getElem?]
    rcases hn : g.tensorNodes_[k]? with _ | n
    · rfl
    · simp only [Option.map_some']
      by_cases hl : n.isLeaf_ = true
      · rw [if_pos hl, if_pos hl]
      · rw [if_neg hl, if_neg hl]
        have inner : ∀ (fs : List Nat) (st : Except Error Unit × Graph),
            fs.foldl (Graph.edgeStep
                (fun g1 h t => Graph.calcGradientsImpl fuel g1 h t) grad)
                (st.1, st.2.eraseRequiresGrad)
              = ((fs.foldl (Graph.edgeStep
                    (fun g1 h t => Graph.calcGradientsImpl fuel g1 h t) grad) st).1,
                 (fs.foldl (Graph.edgeStep
                    (fun g1 h t => Graph.calcGradientsImpl fuel g1 h t) grad)
                    st).2.eraseRequiresGrad) := by
          intro fs
          induction fs with
          | nil => intro st; rfl
          | cons fid fs ihfs =>
            intro st
            rw [List.foldl_cons, List.foldl_cons]
            have hstep : Graph.edgeStep
                (fun g1 h t => Graph.calcGradientsImpl fuel g1 h t) grad
                (st.1, st.2.eraseRequiresGrad) fid
                = ((Graph.edgeStep
                    (fun g1 h t => Graph.calcGradientsImpl fuel g1 h t) grad st fid).1,
                   (Graph.edgeStep
                    (fun g1 h t => Graph.calcGradientsImpl fuel g1 h t) grad st
                    fid).2.eraseRequiresGrad) := by
              obtain ⟨r, g1⟩ := st
              unfold Graph.edgeStep
              rcases r with e | u
              · rfl
              · have hfn : g1.eraseRequiresGrad.functionNodes_ = g1.functionNodes_ := rfl
                simp only [hfn]
                rcases g1.functionNodes_[fid]? with _ | fn
                · rfl
                · simp only [erase_functionNode_backward]
                  rcases fn.backward g1 with e | newGrad0
                  · rfl
                  · simp only
                    rcases scaleFirst newGrad0 grad with e | newGrad
                    · rfl
                    · simp only
                      rw [← erase_setGrad, ih]
            rw [hstep]
            exact ihfs _
        exact inner n.prevFunctions_ (.ok (), g)

theorem erase_backward (fuel : Nat) (g : Graph) (t : Nat) :
    Autograd.backward fuel g.eraseRequiresGrad t
      = ((Autograd.backward fuel g t).1, (Autograd.backward fuel g t).2.eraseRequiresGrad) := by
  unfold Autograd.backward Graph.calcGradients
  rw [erase_tensorOf]
  rcases g.tensorOf t with _ | tt
  · rfl
  · simp only
    rw [← erase_setGrad, erase_calcGradientsImpl]

theorem erase_gradient (g : Graph) (t : Nat) :
    Autograd.gradient g.eraseRequiresGrad t = Autograd.gradient g t := by
  unfold Autograd.gradient Graph.getGradient
  rw [erase_getElem?]
  rcases g.tensorNodes_[t]? with _ | n <;> rfl

theorem erase_ofHandle (r : Except Error Nat × Graph) :
    Output.ofHandle (r.1, r.2.eraseRequiresGrad)
      = ((Output.ofHandle r).1, (Output.ofHandle r).2.eraseRequiresGrad) := by
  obtain ⟨o, g⟩ := r
  unfold Output.ofHandle
  rcases o with e | h
  · rfl
  · simp only [erase_tensorOf]

/-- One call with the `requiresGrad` argument erased, run on the graph with the flags
erased, hands back the same output and leaves the same graph with the flags erased. -/
theorem erase_run (c : Call) (g : Graph) :
    c.eraseRequiresGrad.run g.eraseRequiresGrad
      = ((c.run g).1, (c.run g).2.eraseRequiresGrad) := by
  cases c with
  | makeTensorCopy t =>
    show Output.ofHandle (.ok (g.eraseRequiresGrad.addTensorNode t true false).1,
      (g.eraseRequiresGrad.addTensorNode t true false).2) = _
    rw [erase_addTensorNode g t true false]
    exact erase_ofHandle (.ok (g.addTensorNode t true false).1, (g.addTensorNode t true false).2)
  | makeTensorValue v r =>
    show Output.ofHandle (.ok (g.eraseRequiresGrad.addTensorNode (Tensor.ofValue v) true false).1,
      (g.eraseRequiresGrad.addTensorNode (Tensor.ofValue v) true false).2) = _
    rw [erase_addTensorNode g (Tensor.ofValue v) true r]
    exact erase_ofHandle (.ok (g.addTensorNode (Tensor.ofValue v) true r).1,
      (g.addTensorNode (Tensor.ofValue v) true r).2)
  | makeTensor s v r =>
    show Output.ofHandle (Autograd.MakeTensor g.eraseRequiresGrad s v false) = _
    have h : Autograd.MakeTensor g.eraseRequiresGrad s v false
        = ((Autograd.MakeTensor g s v r).1, (Autograd.MakeTensor g s v r).2.eraseRequiresGrad) := by
      unfold Autograd.MakeTensor
      rcases Tensor.construct s v with e | t
      · rfl
      · simp only [erase_addTensorNode g t true r]
    rw [h]
    exact erase_ofHandle _
  | mult a b =>
    show Output.ofHandle (Autograd.mult g.eraseRequiresGrad a b) = _
    rw [erase_mult]
    exact erase_ofHandle _
  | dot a b =>
    show Output.ofHandle (Autograd.dot g.eraseRequiresGrad a b) = _
    rw [erase_dot]
    exact erase_ofHandle _
  | backward fuel t =>
    show (Output.done (Autograd.backward fuel g.eraseRequiresGrad t).1,
      (Autograd.backward fuel g.eraseRequiresGrad t).2) = _
    rw [erase_backward]
    rfl
  | gradient t =>
    show (Output.grad (Autograd.gradient g.eraseRequiresGrad t), g.eraseRequiresGrad) = _
    rw [erase_gradient]
    rfl

theorem erase_runCalls (cs : List Call) :
    ∀ g : Graph, runCalls (cs.map Call.eraseRequiresGrad) g.eraseRequiresGrad
      = ((runCalls cs g).1, (runCalls cs g).2.eraseRequiresGrad) := by
  induction cs with
  | nil => intro g; rfl
  | cons c cs ih =>
    intro g
    simp only [List.map_cons, runCalls]
    rw [erase_run c g]
    simp only
    rw [ih]

/-- C18: two runs of engine calls that differ only in the `requiresGrad` arguments passed
to `MakeTensor` (and start from graphs that differ only in `requiresGrad_` flags, such as
two fresh engines) hand back the same outputs call by call: the same handles and errors,
the same forward values, the same `backward` outcomes and the same gradients; in the
program of `test_autograd.cpp` the leaf `d`, created with `requiresGrad = false`, holds the
gradient 12 after `backward(e)`. -/
theorem requiresGrad_not_consulted :
    (∀ (cs1 cs2 : List Call) (g1 g2 : Graph),
      cs1.map Call.eraseRequiresGrad = cs2.map Call.eraseRequiresGrad →
      g1.eraseRequiresGrad = g2.eraseRequiresGrad →
      (runCalls cs1 g1).1 = (runCalls cs2 g2).1) ∧
    (runCalls test_autograd_calls Graph.empty).1.getLast?
      = some (.grad (.ok (some (Tensor.ofValue 12)))) := by
  refine ⟨?_, by decide⟩
  intro cs1 cs2 g1 g2 hcs hg
  have h1 := erase_runCalls cs1 g1
  have h2 := erase_runCalls cs2 g2
  rw [hcs, hg, h2] at h1
  exact (congrArg Prod.fst h1).symm

/-- Witness of C18: the calls of `test_autograd.cpp` against the same calls with every
`requiresGrad` argument `false`. -/
theorem requiresGrad_not_consulted_witness :
    (runCalls test_autograd_calls Graph.empty).1
      = (runCalls (test_autograd_calls.map Call.eraseRequiresGrad) Graph.empty).1 :=
  requiresGrad_not_consulted.1 test_autograd_calls
    (test_autograd_calls.map Call.eraseRequiresGrad) Graph.empty Graph.empty
    (by decide) rfl

end autograd
